import Mathlib

/-!
# ms-crypto: the quote-number codec (`app/utils/quote-number.go`)

A shallow embedding of the identifier codec of `QuoteNumber`:

* Go `int64` values are `Int`s kept in the signed 64-bit range; every operation
  that can leave the range wraps explicitly (`% 2^64`, two's complement).
* a `chomp` is represented by its `ByteValue`, a byte held in a `Nat`.
* Go strings are lists of runes (`List Char`); a nil `*string` is `none`.
* a run-time panic (index out of range) and a loop that is cut off by its fuel
  are results of their own (`Fault`).
* the two ambient inputs of the codec, the random salt drawn by
  `SaltToFullBitlength` and the clock read by `TimeFromBits`, are explicit
  arguments.
* instants (`time.Time`) are nanosecond counts on the absolute time line of the
  Go `time` package; durations are `int64` nanosecond counts.
* `StrconvWebDateOfBirthToPCDateOfBirth` of `app/utils/string.go` is embedded next to the
  codec; its error values are an enumeration.
* `AgeAt` of `app/utils/age.go` is embedded on instants in UTC.
-/

namespace QuoteNumber

/-! ## Faults -/

/-- What can go wrong at run time: a Go panic, or a loop that did not finish within its fuel. -/
inductive Fault where
  | panic
  | fuel
  deriving DecidableEq, Repr

instance instDecidableEqExcept {ε α : Type} [DecidableEq ε] [DecidableEq α] :
    DecidableEq (Except ε α) := fun a b =>
  match a, b with
  | .ok x, .ok y =>
    if h : x = y then isTrue (by rw [h]) else isFalse (fun h2 => h (by cases h2; rfl))
  | .error x, .error y =>
    if h : x = y then isTrue (by rw [h]) else isFalse (fun h2 => h (by cases h2; rfl))
  | .ok _, .error _ => isFalse (fun h => by cases h)
  | .error _, .ok _ => isFalse (fun h => by cases h)

/-! ## Machine integers -/

/-- The bit pattern of an `int64`, read as an unsigned 64-bit number (Go `uint64(x)`). -/
def toU64 (x : Int) : Nat := (x % 2 ^ 64).toNat

/-- The `int64` with a given 64-bit pattern (Go `int64(n)` for an unsigned `n`). -/
def toI64 (n : Nat) : Int :=
  if n % 2 ^ 64 < 2 ^ 63 then ((n % 2 ^ 64 : Nat) : Int) else ((n % 2 ^ 64 : Nat) : Int) - 2 ^ 64

/-- Wrap an integer into the `int64` range. -/
def wrap64 (x : Int) : Int := toI64 (toU64 x)

/-- Wrap an integer into the `int32` range (Go `int32(x)`). -/
def wrap32 (x : Int) : Int :=
  if x % 2 ^ 32 < 2 ^ 31 then x % 2 ^ 32 else x % 2 ^ 32 - 2 ^ 32

/-- Go `a & b` on `int64`. -/
def and64 (a b : Int) : Int := toI64 (toU64 a &&& toU64 b)

/-- Go `a | b` on `int64`. -/
def or64 (a b : Int) : Int := toI64 (toU64 a ||| toU64 b)

/-- Go `a << k` on `int64`. -/
def shl64 (a : Int) (k : Nat) : Int := toI64 (toU64 a <<< k)

/-- Go `a >> k` on `int64` (arithmetic shift). -/
def shr64 (a : Int) (k : Nat) : Int := a / 2 ^ k

/-- Go `byte(x)`. -/
def toByte (x : Int) : Nat := (x % 256).toNat

/-! ## Constants -/

/-- Go `MaxLegalQuoteNumberLength`. -/
def MaxLegalQuoteNumberLength : Nat := 15

/-- Go `MinLegalQuoteNumberLength`. -/
def MinLegalQuoteNumberLength : Nat := 8

/-- Go `IDCharLength`: the length of a quote number. -/
def IDCharLength : Int := 9

/-- Go `TimestampBits`: the bits of a quote number that store the time. -/
def TimestampBits : Int := 42

/-! ## Power -/

/-- The recursion of `Power`, cut off after `fuel` nested calls. -/
def PowerFuel : Nat → Int → Int → Except Fault Int
  | 0, _, _ => .error .fuel
  | fuel + 1, x, n =>
    if n = 0 then .ok 1
    else if n = 1 then .ok x
    else
      let even := Int.tmod n 2 = 0
      let xsq := wrap64 (x * x)
      if even then
        let newPow := wrap32 (Int.tdiv n 2)
        PowerFuel fuel xsq newPow
      else
        let newPow := wrap32 (Int.tdiv (n - 1) 2)
        match PowerFuel fuel xsq newPow with
        | .ok p => .ok (wrap64 (x * p))
        | .error e => .error e

/-- Go `Power(x, n)`; 32 nested calls are enough for every `n ≥ 0` of an `int32`. -/
def Power (x n : Int) : Except Fault Int := PowerFuel 32 x n

/-- The value of a package-level `Power` initialiser. -/
def powerValue (x n : Int) : Int :=
  match Power x n with
  | .ok p => p
  | .error _ => 0

/-- Go `timestampUpperBound = Power(2, TimestampBits)`. -/
def timestampUpperBound : Int := powerValue 2 TimestampBits

/-- Go `FilterBits = Power(2, TimestampBits+1) - 1`. -/
def FilterBits : Int := wrap64 (powerValue 2 (TimestampBits + 1) - 1)

/-! ## Chomps -/

/-! A chomp is represented by its `ByteValue`: a `Nat` below 256. -/

/-- Go `chomp.xor`: `byte(c.ByteValue ^ c2.ByteValue)`. -/
def xor (c c2 : Nat) : Nat := (c ^^^ c2) % 256

/-- Go `takeChomp`: the low five bits, and what remains. -/
def takeChomp (input : Int) : Nat × Int :=
  let bv := and64 input 31
  let removed := toByte bv
  let remain := if input > 31 then shr64 input 5 else 0
  (removed, remain)

/-- The first loop of `toChomps`: chomps bitten off the low-order end, in the order they are
appended. -/
def biteAll : Nat → Int → List Nat
  | 0, _ => []
  | fuel + 1, remainder =>
    if remainder > 0 then
      (takeChomp remainder).1 :: biteAll fuel (takeChomp remainder).2
    else []

/-- Go `toChomps`: the big-endian chomps of `input`, padded to `pad` (`0` means `IDCharLength`).
Thirteen bites exhaust every `int64` (`2^63 ≤ 32^13`). -/
def toChomps (input : Int) (pad : Int) : List Nat :=
  let pad := if pad = 0 then IDCharLength else pad
  let chompList := biteAll 13 input
  let chompList := chompList ++ List.replicate (pad - chompList.length).toNat (0 : Nat)
  chompList.reverse

/-- Go `toNumber`: fold a big-endian chomp list back into an `int64`. -/
def toNumber (chomps : List Nat) : Int :=
  chomps.foldl (fun (rtn : Int) (thisChomp : Nat) => or64 (shl64 rtn 5) (Int.ofNat thisChomp)) 0

/-! ## XOR chain -/

/-- The loop of `confusticate`: every output is the previous output xor the input. -/
def confLoop (prev : Nat) : List Nat → List Nat
  | [] => []
  | c :: rest => xor prev c :: confLoop (xor prev c) rest

/-- Go `confusticate`; indexing `src[0]` panics on an empty slice. -/
def confusticate (src : List Nat) : Except Fault (List Nat) :=
  match src with
  | [] => .error .panic
  | first :: rest =>
    let last := src.getD (src.length - 1) 0
    let lastChomp := xor first last
    .ok (lastChomp :: confLoop lastChomp rest)

/-- The loop of `deconfusticate`: every output is the previous input xor the input. -/
def deconfLoop (prev : Nat) : List Nat → List Nat
  | [] => []
  | c :: rest => xor prev c :: deconfLoop c rest

/-- Go `deconfusticate`; indexing `src[length-2]` panics when there are fewer than two chomps. -/
def deconfusticate (src : List Nat) : Except Fault (List Nat) :=
  match src with
  | [] => .error .panic
  | [_] => .error .panic
  | first :: rest =>
    let secondToLast := src.getD (src.length - 2) 0
    let last := src.getD (src.length - 1) 0
    let lastChomp := xor last secondToLast
    .ok (xor lastChomp first :: deconfLoop first rest)

/-! ## Alphabet -/

/-- Go `IDChars`: the character of a 5-bit number; `none` where the map has no entry. -/
def IDChars (n : Nat) : Option Char :=
  match n with
  | 0 => some '1' | 1 => some '9' | 2 => some 'B' | 3 => some '8' | 4 => some 'C'
  | 5 => some '7' | 6 => some 'D' | 7 => some '6' | 8 => some 'E' | 9 => some '5'
  | 10 => some 'F' | 11 => some '4' | 12 => some 'G' | 13 => some '3' | 14 => some 'H'
  | 15 => some '2' | 16 => some 'Q' | 17 => some 'S' | 18 => some 'J' | 19 => some 'Z'
  | 20 => some 'K' | 21 => some 'Y' | 22 => some 'L' | 23 => some 'X' | 24 => some 'M'
  | 25 => some 'W' | 26 => some 'N' | 27 => some 'V' | 28 => some 'R' | 29 => some '0'
  | 30 => some 'P' | 31 => some 'T'
  | _ => none

/-- The entries of Go `IDNumbers` whose key is the one-character string of the given rune. -/
def IDNumbersChar (c : Char) : Option Int :=
  match c with
  | 'A' => some 0 | '9' => some 1 | 'B' => some 2 | '8' => some 3 | 'C' => some 4
  | '7' => some 5 | 'D' => some 6 | '6' => some 7 | 'E' => some 8 | '5' => some 9
  | 'F' => some 10 | '4' => some 11 | 'G' => some 12 | '3' => some 13 | 'H' => some 14
  | '2' => some 15 | 'Q' => some 16 | 'S' => some 17 | 'J' => some 18 | 'Z' => some 19
  | 'K' => some 20 | 'Y' => some 21 | 'L' => some 22 | 'X' => some 23 | 'M' => some 24
  | 'W' => some 25 | 'N' => some 26 | 'V' => some 27 | 'R' => some 28 | 'U' => some 29
  | 'P' => some 30 | 'T' => some 31 | '1' => some 0 | 'I' => some 0 | '0' => some 29
  | 'O' => some 29
  | _ => none

/-- Go `IDNumbers`: every key is a string of one character. -/
def IDNumbers (key : List Char) : Option Int :=
  match key with
  | [c] => IDNumbersChar c
  | _ => none

/-! ## The Go `strings` functions used by the codec -/

/-- Go `unicode.ToUpper` on the runes whose upper case is an ASCII character: the ASCII
letters, U+0131 (dotless i) and U+017F (long s). The upper case of every other rune is a
rune outside ASCII, which no table of the codec has as a key; such runes are left as they
are. -/
def toUpperRune (c : Char) : Char :=
  if 'a'.toNat ≤ c.toNat ∧ c.toNat ≤ 'z'.toNat then Char.ofNat (c.toNat - 32)
  else if c.toNat = 0x131 then 'I'
  else if c.toNat = 0x17F then 'S'
  else c

/-- Go `unicode.ToLower` on the runes whose lower case is an ASCII character: the ASCII
letters, U+0130 (dotted capital I) and U+212A (Kelvin sign); other runes are left as they
are (their lower case is outside ASCII). -/
def toLowerRune (c : Char) : Char :=
  if 'A'.toNat ≤ c.toNat ∧ c.toNat ≤ 'Z'.toNat then Char.ofNat (c.toNat + 32)
  else if c.toNat = 0x130 then 'i'
  else if c.toNat = 0x212A then 'k'
  else c

/-- Go `strings.ToUpper`. -/
def ToUpper (s : List Char) : List Char := s.map toUpperRune

/-- Go `strings.ToLower`. -/
def ToLower (s : List Char) : List Char := s.map toLowerRune

/-- Go `unicode.IsSpace`. -/
def isSpace (c : Char) : Bool :=
  let n := c.toNat
  (9 ≤ n && n ≤ 13) || n = 0x20 || n = 0x85 || n = 0xA0 || n = 0x1680 ||
  (0x2000 ≤ n && n ≤ 0x200A) || n = 0x2028 || n = 0x2029 || n = 0x202F || n = 0x205F ||
  n = 0x3000

/-- Go `strings.TrimSpace`. -/
def TrimSpace (s : List Char) : List Char :=
  ((s.dropWhile isSpace).reverse.dropWhile isSpace).reverse

/-! ## Tokens -/

/-- Go `chomp.toToken`: the map lookup gives the empty string for a missing key. -/
def toToken (c : Nat) : List Char :=
  match IDChars c with
  | some ch => [ch]
  | none => []

/-- Go `len(s)`: the length of a string in bytes (UTF-8). -/
def byteLen (s : List Char) : Nat := (s.map Char.utf8Size).sum

/-- Go `chomp.fromToken`: the `ByteValue` after the call, and whether an error was returned. -/
def fromToken (c : Nat) (input : List Char) : Nat × Bool :=
  let key := ToUpper (TrimSpace input)
  if byteLen key > 1 then (c, true)
  else
    match IDNumbers key with
    | none => (c, true)
    | some thisByte => (toByte thisByte, false)

/-- Go `chompArrayToChompTokens`. -/
def chompArrayToChompTokens (src : List Nat) : List Char :=
  src.foldl (fun rtn thisChomp => rtn ++ toToken thisChomp) []

/-- Go `fromChompTokens`: one fresh chomp per rune, the error of `fromToken` ignored. The Go
slice has one slot per byte of the string; the strings the codec passes here hold one-byte
runes only, so slots and runes coincide. -/
def fromChompTokens (input : List Char) : List Nat :=
  let trimPut := ToUpper (TrimSpace input)
  trimPut.map (fun thisChar => (fromToken 0 [thisChar]).1)

/-- The filter loop of `GetTimeAndServer` and `ParseIdDOBNameHash`: the upper-cased runes that
are keys of `IDNumbers`. -/
def cleanID (quoteIdentifier : List Char) : List Char :=
  quoteIdentifier.foldl
    (fun clean thisChar =>
      let uc := ToUpper [thisChar]
      match IDNumbers uc with
      | some _ => clean ++ uc
      | none => clean)
    []

/-! ## The Go `time` functions used by the codec

An instant is its nanosecond count on the absolute time line of the `time` package (whose day 0
is 1 January of `absoluteZeroYear`). The arithmetic is that of `time.Date` and `absDate`,
on unbounded integers: the years the codec works with are far from the ends of the range of
`time.Time`. -/

/-- Go `time.absoluteZeroYear`. -/
def absoluteZeroYear : Int := -292277022399

/-- Go `time.daysBefore`: the days of a non-leap year before each month. -/
def daysBefore (month : Nat) : Int :=
  match month with
  | 0 => 0 | 1 => 31 | 2 => 59 | 3 => 90 | 4 => 120 | 5 => 151 | 6 => 181
  | 7 => 212 | 8 => 243 | 9 => 273 | 10 => 304 | 11 => 334
  | _ => 365

/-- Go `time.isLeap`. -/
def isLeap (year : Int) : Bool :=
  Int.tmod year 4 = 0 && (Int.tmod year 100 ≠ 0 || Int.tmod year 400 = 0)

/-- Go `time.norm`: carry `lo` into `hi` so that `0 ≤ lo < base`. -/
def norm (hi lo base : Int) : Int × Int :=
  let (hi, lo) :=
    if lo < 0 then
      let n := Int.tdiv (-lo - 1) base + 1
      (hi - n, lo + n * base)
    else (hi, lo)
  if lo ≥ base then
    let n := Int.tdiv lo base
    (hi + n, lo - n * base)
  else (hi, lo)

/-- The days between day 0 of the absolute time line and 1 January of `year` (the cycle
arithmetic of `time.Date`). -/
def daysSinceEpoch (year : Int) : Int :=
  let y := year - absoluteZeroYear
  let n := y / 400
  let y := y - 400 * n
  let d := 146097 * n
  let n := y / 100
  let y := y - 100 * n
  let d := d + 36524 * n
  let n := y / 4
  let y := y - 4 * n
  let d := d + 1461 * n
  d + 365 * y

/-- Nanoseconds per day. -/
def nsPerDay : Int := 86400 * 1000000000

/-- Nanoseconds per hour (Go `time.Hour`). -/
def Hour : Int := 3600 * 1000000000

/-- Go `time.Date(year, month, day, hour, 0, 0, 0, time.UTC)`. -/
def Date (year month day hour : Int) : Int :=
  let (year, m) := norm year (month - 1) 12
  let (day, hour) := norm day hour 24
  let d := daysSinceEpoch year
  let d := d + daysBefore m.toNat
  let d := if isLeap year && m + 1 ≥ 3 then d + 1 else d
  let d := d + (day - 1)
  d * nsPerDay + hour * Hour

/-- The cycle arithmetic of Go `absDate`: the year of an instant and the day within the year
(from 0). -/
def absYearDay (t : Int) : Int × Int :=
  let d := t / nsPerDay
  let n := d / 146097
  let y := 400 * n
  let d := d - 146097 * n
  let n := d / 36524
  let n := n - n / 4
  let y := y + 100 * n
  let d := d - 36524 * n
  let n := d / 1461
  let y := y + 4 * n
  let d := d - 1461 * n
  let n := d / 365
  let n := n - n / 4
  let y := y + n
  let d := d - 365 * n
  (y + absoluteZeroYear, d)

/-- The month search of Go `absDate`: month and day of the month of a day of the year
(from 0), in a leap year or not. -/
def monthDay (leap : Bool) (day : Int) : Int × Int :=
  if leap && day = 31 + 29 - 1 then (2, 29)
  else
    let day := if leap && day > 31 + 29 - 1 then day - 1 else day
    let month := day / 31
    let stop := daysBefore (month.toNat + 1)
    let (month, begin) :=
      if day ≥ stop then (month + 1, stop) else (month, daysBefore month.toNat)
    (month + 1, day - begin + 1)

/-- Go `absDate` applied to an instant: year, month and day of the month. -/
def absDate (t : Int) : Int × Int × Int :=
  let (year, yday) := absYearDay t
  let (month, day) := monthDay (isLeap year) yday
  (year, month, day)

/-- Go `Time.Sub`: the difference as a `Duration`, saturated to the `int64` range. -/
def Sub (t u : Int) : Int :=
  let d := t - u
  if d > 2 ^ 63 - 1 then 2 ^ 63 - 1
  else if d < -(2 ^ 63) then -(2 ^ 63)
  else d

/-- Go `Time.Add`. -/
def Add (t d : Int) : Int := t + d

/-- Go `Epoch`: 2015-01-01T00:00:00Z. -/
def Epoch : Int := Date 2015 1 1 0

/-- Go `birthdateEpoch`: 1910-01-01T12:00:00Z. -/
def birthdateEpoch : Int := Date 1910 1 1 12

/-- Go `time.daysIn`: the days of a month (1 to 12) of a year. -/
def daysIn (month : Nat) (year : Int) : Int :=
  if month = 2 ∧ isLeap year then 29
  else daysBefore month - daysBefore (month - 1)

/-! ## The quote-number codec -/

/-- Go `GenerateTimeBits`; `clock` is what `time.Now()` gives when no date is passed. -/
def GenerateTimeBits (clock : Int) (date : Option Int) : Int :=
  let date := match date with
    | none => clock
    | some d => d
  let dur := Sub date Epoch
  and64 (Int.tdiv dur 100000) FilterBits

/-- Go `SaltToFullBitlength`; `salt` is the draw of `rand.Int63n(maxRand)`, a number from 0
up to but not including `maxRand = Power(2, IDCharLength*5 - TimestampBits)`. -/
def SaltToFullBitlength (salt : Int) (src : Int) : Int :=
  wrap64 (wrap64 (salt * timestampUpperBound) + src)

/-- The bound `maxRand` of the salt drawn by `SaltToFullBitlength`. -/
def maxRand : Int := powerValue 2 (IDCharLength * 5 - TimestampBits)

/-- Go `UnsaltToTimestampBits`. -/
def UnsaltToTimestampBits (src : Int) : Int := Int.tmod src timestampUpperBound

/-- Go `TimeFromBits`, its loop cut off after `fuel` rounds; `now` is the clock reading. -/
def TimeFromBits : Nat → Int → Int → Except Fault (Option Int)
  | 0, _, _ => .error .fuel
  | fuel + 1, now, bits =>
    let dur := wrap64 (1 * wrap64 (100000 * bits))
    let dur2 := wrap64 (1 * wrap64 (100000 * timestampUpperBound))
    let firstTime := Add Epoch dur
    let secondTime := Add firstTime dur2
    if secondTime > now then .ok (some firstTime)
    else TimeFromBits fuel now (wrap64 (bits + timestampUpperBound))

/-- Go `CreateQuoteNumber`. -/
def CreateQuoteNumber (salt clock : Int) (timeCreated : Option Int) : Except Fault (List Char) :=
  let timeBits := GenerateTimeBits clock timeCreated
  let saltyBits := SaltToFullBitlength salt timeBits
  let chompArray := toChomps saltyBits 0
  match confusticate chompArray with
  | .error e => .error e
  | .ok swirlyChomps => .ok (chompArrayToChompTokens swirlyChomps)

/-- Go `GetTimeAndServer`; a nil result is `none`. -/
def GetTimeAndServer (fuel : Nat) (now : Int) (quoteIdentifier : Option (List Char)) :
    Except Fault (Option Int) :=
  match quoteIdentifier with
  | none => .ok none
  | some [] => .ok none
  | some s =>
    let swirlyChomps := fromChompTokens (cleanID s)
    match deconfusticate swirlyChomps with
    | .error e => .error e
    | .ok chompArray =>
      let saltyBits := toNumber chompArray
      let timeBits := UnsaltToTimestampBits saltyBits
      TimeFromBits fuel now timeBits

/-! ## The name hash -/

/-- Go `padByte`. -/
def padByte : Nat := 21

/-- Go `fiveBits`. -/
def fiveBits : Nat := 31

/-- Go `sixteenBits`. -/
def sixteenBits : Nat := 65535

/-- Go `ignoreChars`. -/
def ignoreChars : Nat := 97

/-- The lower-case ASCII letters of a name, as bytes: what the regular expression `[a-z]`
finds in `strings.ToLower(name)`, joined. -/
def letterBuf (name : List Char) : List Nat :=
  ((ToLower name).filter (fun c => decide ('a'.toNat ≤ c.toNat ∧ c.toNat ≤ 'z'.toNat))).map
    Char.toNat

/-- The loop `for len(buf) < 6 { buf += origBuf }`, cut off after `fuel` rounds. -/
def growBuf : Nat → List Nat → List Nat → List Nat
  | 0, buf, _ => buf
  | fuel + 1, buf, origBuf =>
    if buf.length < 6 then growBuf fuel (buf ++ origBuf) origBuf else buf

/-- The inner loop of `toSixteenBitHash`: load five bits at a time while the frame holds fewer
than 16 bits. The state is `(bufPos, frame, currentFrameLength)`. -/
def loadFrame : Nat → List Nat → Nat × Nat × Nat → Nat × Nat × Nat
  | 0, _, st => st
  | fuel + 1, buf, (bufPos, frame, currentFrameLength) =>
    if currentFrameLength < 16 then
      let (bitsToLoad, bufPos) :=
        if bufPos < buf.length then
          (((buf.getD bufPos 0 + 256 - ignoreChars) % 256) &&& fiveBits, bufPos + 1)
        else (padByte, bufPos)
      let newBitsMagnified := (bitsToLoad <<< currentFrameLength) % 2 ^ 32
      let frame := newBitsMagnified ||| frame
      loadFrame fuel buf (bufPos, frame, currentFrameLength + 5)
    else (bufPos, frame, currentFrameLength)

/-- The outer loop of `toSixteenBitHash`, cut off after `fuel` rounds. The state is
`(bufPos, frame, currentFrameLength, hash)`. -/
def hashLoop : Nat → List Nat → Nat × Nat × Nat × Nat → Nat
  | 0, _, (_, _, _, hash) => hash
  | fuel + 1, buf, (bufPos, frame, currentFrameLength, hash) =>
    if (bufPos : Int) < (buf.length : Int) - 1 then
      let (bufPos, frame, currentFrameLength) :=
        loadFrame 4 buf (bufPos, frame, currentFrameLength)
      let freshBits := frame &&& sixteenBits
      let frame := frame >>> 16
      let currentFrameLength := currentFrameLength - 16
      let hash := hash ^^^ freshBits
      hashLoop fuel buf (bufPos, frame, currentFrameLength, hash)
    else hash

/-- Go `toSixteenBitHash`. Every round of the outer loop consumes a byte of the buffer, so a
fuel of the buffer length never cuts it off; the frame holds at most four bits after a round,
so four loads fill it. -/
def toSixteenBitHash (name : List Char) : Nat :=
  let buf := letterBuf name
  if buf.length = 0 then 0
  else
    let origBuf := buf
    let lenSalt := buf.length % 4
    let buf := growBuf 6 buf origBuf
    let hash := hashLoop buf.length buf (0, lenSalt, 2, 0)
    hash &&& 0xfff

/-! ## The composite codec -/

/-- Go `daysAfterBirthdateEpoch`. Both instants are at noon UTC, so the duration is a whole
number of days (or the saturated maximum), on which the floating-point `Hours() / 24`,
truncated by `int32`, is the integer quotient. -/
def daysAfterBirthdateEpoch (y m d : Int) : Int :=
  let dob := Date y m d 12
  if ¬ (dob > birthdateEpoch) then 0
  else
    let afterEpochDur := Sub dob birthdateEpoch
    wrap32 (Int.tdiv afterEpochDur (24 * Hour))

/-- Go `intToBirthdate`. -/
def intToBirthdate (bdd : Int) : Int × Int × Int :=
  let dur := wrap64 (wrap64 (wrap32 (bdd * 24)) * Hour)
  let rtn := Add birthdateEpoch dur
  absDate rtn

/-- Go `idNameDOBToInt`; the result is a `uint64`. The conversions `uint64(id)` and
`uint64(days)` of the signed 32-bit values sign-extend. -/
def idNameDOBToInt (id : Int) (name : List Char) (doby dobm dobd : Int) : Nat :=
  let rtn := 0
  let nameInt := toSixteenBitHash name &&& 0xfff
  let rtn := rtn ||| ((nameInt <<< 48) % 2 ^ 64)
  let rtn := rtn ||| ((toU64 id <<< 16) % 2 ^ 64)
  let dobInt := toU64 (daysAfterBirthdateEpoch doby dobm dobd) &&& 0xffff
  rtn ||| dobInt

/-- Go `intToIDNameDOB`: id, name hash, year, month, day. -/
def intToIDNameDOB (key : Nat) : Int × Nat × Int × Int × Int :=
  let dobInt := wrap32 ((key &&& 0xffff : Nat) : Int)
  let dob := intToBirthdate dobInt
  let key := key >>> 16
  let id := wrap32 ((key &&& 0xffffffff : Nat) : Int)
  let key := key >>> 32
  (id, key % 2 ^ 32, dob.1, dob.2.1, dob.2.2)

/-- Go `CreateForIdNameDOB`. -/
def CreateForIdNameDOB (id : Int) (name : List Char) (y m d : Int) : Except Fault (List Char) :=
  let saltyBits := toI64 (idNameDOBToInt id name y m d)
  let chompArray := toChomps saltyBits 12
  match confusticate chompArray with
  | .error e => .error e
  | .ok swirlyChomps => .ok (chompArrayToChompTokens swirlyChomps)

/-- Go `ParseIdDOBNameHash`. -/
def ParseIdDOBNameHash (quoteIdentifier : Option (List Char)) :
    Except Fault (Int × Nat × Int × Int × Int) :=
  match quoteIdentifier with
  | none => .ok (0, 0, 0, 0, 0)
  | some [] => .ok (0, 0, 0, 0, 0)
  | some s =>
    let swirlyChomps := fromChompTokens (cleanID s)
    match deconfusticate swirlyChomps with
    | .error e => .error e
    | .ok chompArray =>
      let saltyBits := toU64 (toNumber chompArray)
      .ok (intToIDNameDOB saltyBits)

/-! ## The fingerprint algorithm in the words of the specification

A second definition of the name fingerprint, written from the specification's description of
the algorithm (not from the Go code), to compare `toSixteenBitHash` with. Bytes, frame and hash
are plain natural numbers here. -/

/-- The lowercase ASCII letters of a name, as a byte sequence (specification, step 1). -/
def specLetters (name : List Char) : List Nat :=
  ((name.map toLowerRune).filter (fun c => 'a' ≤ c ∧ c ≤ 'z')).map (fun c => c.toNat)

/-- Filling the frame (specification, step 3a): while the frame holds fewer than 16 bits, take
the next input byte `(byte - 97) & 0x1F`, or the padding value 21 once the input is exhausted,
put it above the bits already in the frame, and count five more bits. The state is
`(pos, frame, frameBits)`; at most four values are needed to reach 16 bits. -/
def specFill : Nat → List Nat → Nat × Nat × Nat → Nat × Nat × Nat
  | 0, _, st => st
  | fuel + 1, buf, (pos, frame, frameBits) =>
    if frameBits < 16 then
      if pos < buf.length then
        specFill fuel buf
          (pos + 1, frame ||| (((buf.getD pos 0 - 97) &&& 0x1F) <<< frameBits), frameBits + 5)
      else
        specFill fuel buf (pos, frame ||| (21 <<< frameBits), frameBits + 5)
    else (pos, frame, frameBits)

/-- The rounds of the algorithm (specification, step 3): while `pos < len(buf) - 1`, fill the
frame, xor its low 16 bits into the hash and shift the frame right by 16. The state is
`(pos, frame, frameBits, hash)`; every round reads at least one byte, so `len(buf)` rounds are
enough. -/
def specRounds : Nat → List Nat → Nat × Nat × Nat × Nat → Nat
  | 0, _, (_, _, _, hash) => hash
  | fuel + 1, buf, (pos, frame, frameBits, hash) =>
    if pos < buf.length - 1 then
      let filled := specFill 4 buf (pos, frame, frameBits)
      specRounds fuel buf
        (filled.1, filled.2.1 >>> 16, filled.2.2 - 16, hash ^^^ (filled.2.1 &&& 0xFFFF))
    else hash

/-- Steps 2 to 4 of the specification on a non-empty byte sequence: the frame starts as
`lenSalt` with 2 bits, hash and position start at 0; the result is `hash & 0xFFF`. -/
def specFingerprintFrom (lenSalt : Nat) (buf : List Nat) : Nat :=
  specRounds buf.length buf (0, lenSalt, 2, 0) &&& 0xFFF

/-- The specified fingerprint of a name: 0 when the name has no letters, otherwise steps 2 to 4
on its letters with `lenSalt = len(buf) mod 4`. -/
def specFingerprint (name : List Char) : Nat :=
  let buf := specLetters name
  if buf.length = 0 then 0 else specFingerprintFrom (buf.length % 4) buf

/-! ## Validity of a quote number -/

/-- Go `IsValid`: a non-nil string of 8 to 15 bytes. -/
def IsValid (qn : Option (List Char)) : Bool :=
  match qn with
  | none => false
  | some qns =>
    if byteLen qns > MaxLegalQuoteNumberLength then false
    else if byteLen qns < MinLegalQuoteNumberLength then false
    else true

/-- Go `ValidOrNew`; `salt` and `clock` are the random draw and the clock reading that
`CreateQuoteNumber(nil)` takes when it is called. -/
def ValidOrNew (salt clock : Int) (qn : Option (List Char)) : Except Fault (List Char) :=
  match qn with
  | none => CreateQuoteNumber salt clock none
  | some qns =>
    if !IsValid qn then CreateQuoteNumber salt clock none
    else .ok qns

/-! ## Web and PC birth dates (`app/utils/string.go`) -/

/-- The errors `StrconvWebDateOfBirthToPCDateOfBirth` returns, in the order of its checks:
blank input, not three parts, and a first, second or third part of the wrong length. -/
inductive DateOfBirthError where
  | blank
  | improperlyFormatted
  | dayLength
  | monthLength
  | yearLength
  deriving DecidableEq, Repr

/-- Go `strings.Split(s, "-")`: the pieces of `s` between the dashes (one piece more than there
are dashes). -/
def splitDash : List Char → List (List Char)
  | [] => [[]]
  | c :: cs =>
    if c = '-' then [] :: splitDash cs
    else
      match splitDash cs with
      | [] => [[c]]
      | piece :: pieces => (c :: piece) :: pieces

/-- Go `StrconvWebDateOfBirthToPCDateOfBirth`: the three pieces are named `day`, `month`, `year`
in the order they come, and printed as `year/month/day`. -/
def StrconvWebDateOfBirthToPCDateOfBirth (webDateOfBirth : List Char) :
    Except DateOfBirthError (List Char) :=
  if webDateOfBirth = [] then .error .blank
  else
    match splitDash webDateOfBirth with
    | [day, month, year] =>
      if byteLen day ≠ 2 then .error .dayLength
      else if byteLen month ≠ 2 then .error .monthLength
      else if byteLen year ≠ 4 then .error .yearLength
      else .ok (year ++ '/' :: month ++ '/' :: day)
    | _ => .error .improperlyFormatted

/-! ## Ages (`app/utils/age.go`)

The instants are in UTC: the year and the day of the year are those of `absDate`. -/

/-- Go `Time.Year()`. -/
def Year (t : Int) : Int := (absYearDay t).1

/-- Go `Time.YearDay()`: the day of the year, from 1. -/
def YearDay (t : Int) : Int := (absYearDay t).2 + 1

/-- Go `isLeap(date time.Time)` of `age.go`. -/
def Age.isLeap (date : Int) : Bool :=
  let year := Year date
  if Int.tmod year 400 = 0 then true
  else if Int.tmod year 100 = 0 then false
  else if Int.tmod year 4 = 0 then true
  else false

/-- Go `getAdjustedBirthDay`. -/
def getAdjustedBirthDay (DateOfBirth now : Int) : Int :=
  let birthDay := YearDay DateOfBirth
  let currentDay := YearDay now
  if Age.isLeap DateOfBirth && !Age.isLeap now && birthDay ≥ 60 then birthDay - 1
  else if Age.isLeap now && !Age.isLeap DateOfBirth && currentDay ≥ 60 then birthDay + 1
  else birthDay

/-- Go `AgeAt`. -/
def AgeAt (DateOfBirth now : Int) : Int :=
  let years := Year now - Year DateOfBirth
  let birthDay := getAdjustedBirthDay DateOfBirth now
  if YearDay now < birthDay then years - 1 else years

/-! # Theorems -/

/-! ## Facts about the machine integers -/

theorem toU64_natCast (n : Nat) (h : n < 2 ^ 64) : toU64 (n : Int) = n := by
  unfold toU64
  have : ((n : Int) % 2 ^ 64) = (n : Int) := Int.emod_eq_of_lt (by omega) (by exact_mod_cast h)
  rw [this]; simp

theorem toI64_of_lt (n : Nat) (h : n < 2 ^ 63) : toI64 n = (n : Int) := by
  unfold toI64
  have h2 : n % 2 ^ 64 = n := Nat.mod_eq_of_lt (by omega)
  rw [h2, if_pos h]

theorem wrap64_natCast (n : Nat) (h : n < 2 ^ 63) : wrap64 (n : Int) = (n : Int) := by
  unfold wrap64
  rw [toU64_natCast n (by omega), toI64_of_lt n h]

theorem toByte_natCast (n : Nat) (h : n < 256) : toByte (n : Int) = n := by
  unfold toByte
  have : ((n : Int) % 256) = (n : Int) := Int.emod_eq_of_lt (by omega) (by omega)
  rw [this]; simp

theorem and64_31 (n : Nat) (h : n < 2 ^ 63) : and64 (n : Int) 31 = ((n % 32 : Nat) : Int) := by
  unfold and64
  have h31 : toU64 31 = 2 ^ 5 - 1 := by decide
  rw [toU64_natCast n (by omega), h31, Nat.and_pow_two_sub_one_eq_mod]
  exact toI64_of_lt _ (by omega)

theorem shl_or (n b : Nat) (hb : b < 32) (h : n * 32 + b < 2 ^ 63) :
    or64 (shl64 (n : Int) 5) (b : Int) = ((n * 32 + b : Nat) : Int) := by
  have h1 : shl64 (n : Int) 5 = ((n * 32 : Nat) : Int) := by
    unfold shl64
    rw [toU64_natCast n (by omega), Nat.shiftLeft_eq]
    exact toI64_of_lt _ (by omega)
  have hor : 2 ^ 5 * n + b = 2 ^ 5 * n ||| b := Nat.mul_add_lt_is_or (by omega) n
  have e : n * 32 = 2 ^ 5 * n := by omega
  rw [h1]
  unfold or64
  rw [toU64_natCast _ (by omega), toU64_natCast b (by omega), e, ← hor]
  exact toI64_of_lt _ (by omega)

theorem takeChomp_natCast (n : Nat) (h : n < 2 ^ 63) :
    takeChomp (n : Int) = (n % 32, ((n / 32 : Nat) : Int)) := by
  unfold takeChomp
  simp only [and64_31 n h]
  rw [toByte_natCast _ (by omega)]
  congr 1
  unfold shr64
  split
  · norm_cast
  · have : n / 32 = 0 := by omega
    rw [this]; rfl

/-! ## Chomp lists and numbers -/

theorem biteAll_eq_digits (fuel n : Nat) (h : n < 32 ^ fuel) (h63 : n < 2 ^ 63) :
    biteAll fuel (n : Int) = Nat.digits 32 n := by
  induction fuel generalizing n with
  | zero =>
    have : n = 0 := by simpa using h
    subst this; simp [biteAll]
  | succ k ih =>
    unfold biteAll
    by_cases hn : n = 0
    · subst hn; simp
    · have hpos : (n : Int) > 0 := by omega
      have hdiv : n / 32 < 32 ^ k := by
        apply Nat.div_lt_of_lt_mul
        rw [pow_succ] at h; omega
      have e := Nat.digits_def' (show 1 < 32 by omega) (show 0 < n by omega)
      rw [if_pos hpos, takeChomp_natCast n h63, e]
      simp only
      rw [ih (n / 32) hdiv (by omega)]

theorem toNumber_reverse (l : List Nat) (hl : ∀ x ∈ l, x < 32)
    (h : Nat.ofDigits 32 l < 2 ^ 63) :
    toNumber l.reverse = ((Nat.ofDigits 32 l : Nat) : Int) := by
  induction l with
  | nil => simp [toNumber]
  | cons x xs ih =>
    have hx : x < 32 := hl x (by simp)
    rw [Nat.ofDigits_cons] at h ⊢
    have ih2 := ih (fun y hy => hl y (by simp [hy])) (by omega)
    unfold toNumber at ih2 ⊢
    rw [List.reverse_cons, List.foldl_append]
    simp only [List.foldl_cons, List.foldl_nil]
    rw [ih2]
    show or64 (shl64 _ 5) ((x : Nat) : Int) = _
    rw [shl_or _ _ hx (by omega)]
    congr 1
    omega

theorem ofDigits_append_zeros (l : List Nat) (k : Nat) :
    Nat.ofDigits 32 (l ++ List.replicate k 0) = Nat.ofDigits 32 l := by
  induction l with
  | nil =>
    induction k with
    | zero => simp
    | succ k ih => simp [List.replicate_succ, Nat.ofDigits_cons] at ih ⊢; exact ih
  | cons x xs ih => simp [Nat.ofDigits_cons, ih]

theorem biteAll13 (n : Nat) (h : n < 2 ^ 63) : biteAll 13 (n : Int) = Nat.digits 32 n := by
  have h13 : n < 32 ^ 13 := by
    have : (2 : Nat) ^ 63 < 32 ^ 13 := by norm_num
    omega
  exact biteAll_eq_digits 13 n h13 h

theorem toChomps_lt (n : Nat) (h : n < 2 ^ 63) (pad : Int) :
    ∀ x ∈ toChomps (n : Int) pad, x < 32 := by
  unfold toChomps
  simp only
  rw [biteAll13 n h]
  intro x hx
  rw [List.mem_reverse] at hx
  rcases List.mem_append.1 hx with hx | hx
  · exact Nat.digits_lt_base (by omega) hx
  · rw [List.mem_replicate] at hx; rw [hx.2]; decide

theorem toNumber_toChomps (n : Nat) (h : n < 2 ^ 63) (pad : Int) :
    toNumber (toChomps (n : Int) pad) = (n : Int) := by
  have hlt := toChomps_lt n h pad
  unfold toChomps at hlt ⊢
  simp only at hlt ⊢
  rw [biteAll13 n h] at hlt ⊢
  rw [toNumber_reverse]
  · rw [ofDigits_append_zeros, Nat.ofDigits_digits]
  · intro x hx
    exact hlt x (List.mem_reverse.2 hx)
  · rw [ofDigits_append_zeros, Nat.ofDigits_digits]; exact h

/-! ## The XOR chain -/

theorem xor_lt (a b : Nat) : xor a b < 256 := by
  unfold xor; omega

theorem xor_lt32 (a b : Nat) (ha : a < 32) (hb : b < 32) : xor a b < 32 := by
  unfold xor
  have h : a ^^^ b < 2 ^ 5 := Nat.xor_lt_two_pow (by simpa using ha) (by simpa using hb)
  have h3 : a ^^^ b < 32 := by simpa using h
  omega

theorem xor_eq (a b : Nat) (ha : a < 256) (hb : b < 256) : xor a b = a ^^^ b := by
  unfold xor
  have h : a ^^^ b < 2 ^ 8 := Nat.xor_lt_two_pow (by simpa using ha) (by simpa using hb)
  exact Nat.mod_eq_of_lt (by simpa using h)

theorem xor_cancel_left (a b : Nat) (ha : a < 256) (hb : b < 256) : xor a (xor a b) = b := by
  rw [xor_eq a b ha hb, xor_eq a _ ha (by rw [← xor_eq a b ha hb]; exact xor_lt a b)]
  rw [← Nat.xor_assoc, Nat.xor_self, Nat.zero_xor]

theorem xor_cancel_right (a b : Nat) (ha : a < 256) (hb : b < 256) : xor (xor a b) a = b := by
  rw [xor_eq a b ha hb, xor_eq _ a (by rw [← xor_eq a b ha hb]; exact xor_lt a b) ha]
  rw [Nat.xor_comm a b, Nat.xor_assoc, Nat.xor_self, Nat.xor_zero]

theorem confLoop_length (p : Nat) (l : List Nat) : (confLoop p l).length = l.length := by
  induction l generalizing p with
  | nil => rfl
  | cons c rest ih => simp [confLoop, ih]

theorem deconfLoop_length (p : Nat) (l : List Nat) : (deconfLoop p l).length = l.length := by
  induction l generalizing p with
  | nil => rfl
  | cons c rest ih => simp [deconfLoop, ih]

theorem deconfLoop_confLoop (p : Nat) (l : List Nat) (hp : p < 256)
    (hl : ∀ x ∈ l, x < 256) : deconfLoop p (confLoop p l) = l := by
  induction l generalizing p with
  | nil => rfl
  | cons c rest ih =>
    have hc : c < 256 := hl c (by simp)
    simp only [confLoop, deconfLoop]
    rw [xor_cancel_left p c hp hc, ih (xor p c) (xor_lt p c) (fun y hy => hl y (by simp [hy]))]

theorem getD_last_cons (a : Nat) (l : List Nat) (h : 1 ≤ l.length) :
    (a :: l).getD ((a :: l).length - 1) 0 = l.getD (l.length - 1) 0 := by
  have e : (a :: l).length - 1 = (l.length - 1) + 1 := by simp; omega
  rw [e, List.getD_cons_succ]

theorem getD_secondLast_cons (a : Nat) (l : List Nat) (h : 2 ≤ l.length) :
    (a :: l).getD ((a :: l).length - 2) 0 = l.getD (l.length - 2) 0 := by
  have e : (a :: l).length - 2 = (l.length - 2) + 1 := by simp; omega
  rw [e, List.getD_cons_succ]

/-- The last two outputs of the chain xor to the last input. -/
theorem conf_last_two (p : Nat) (rest : List Nat) (hp : p < 256)
    (hl : ∀ x ∈ rest, x < 256) (hne : rest ≠ []) :
    xor ((p :: confLoop p rest).getD ((p :: confLoop p rest).length - 1) 0)
        ((p :: confLoop p rest).getD ((p :: confLoop p rest).length - 2) 0)
      = rest.getD (rest.length - 1) 0 := by
  induction rest generalizing p with
  | nil => exact absurd rfl hne
  | cons c r ih =>
    have hc : c < 256 := hl c (by simp)
    cases r with
    | nil =>
      simp only [confLoop, List.length_cons, List.length_nil]
      show xor (xor p c) p = c
      exact xor_cancel_right p c hp hc
    | cons c2 r2 =>
      have ih2 := ih (xor p c) (xor_lt p c) (fun y hy => hl y (by simp [hy])) (by simp)
      have hlen : (confLoop (xor p c) (c2 :: r2)).length = r2.length + 1 := by
        rw [confLoop_length]; simp
      have e1 : confLoop p (c :: c2 :: r2) = xor p c :: confLoop (xor p c) (c2 :: r2) := rfl
      rw [e1, getD_last_cons p _ (by simp), getD_secondLast_cons p _ (by simp [hlen]), ih2,
        getD_last_cons c _ (by simp)]

theorem deconfusticate_confusticate (s : List Nat) (hlen : 2 ≤ s.length)
    (hbyte : ∀ x ∈ s, x < 256) :
    (confusticate s).bind deconfusticate = .ok s := by
  match s, hlen, hbyte with
  | first :: c :: r, _, hbyte =>
    have hf : first < 256 := hbyte first (by simp)
    have hrest : ∀ x ∈ c :: r, x < 256 := fun y hy => hbyte y (by simp [hy])
    have hlast : (first :: c :: r).getD ((first :: c :: r).length - 1) 0 < 256 := by
      rw [getD_last_cons first _ (by simp)]
      rw [List.getD_eq_getElem _ _ (by simp)]
      exact hrest _ (List.getElem_mem _)
    simp only [confusticate, Except.bind]
    generalize hr0 : xor first ((first :: c :: r).getD ((first :: c :: r).length - 1) 0) = r0
    have hr0lt : r0 < 256 := by rw [← hr0]; exact xor_lt _ _
    have key := conf_last_two r0 (c :: r) hr0lt hrest (by simp)
    have e1 : confLoop r0 (c :: r) = xor r0 c :: confLoop (xor r0 c) r := rfl
    rw [e1] at key ⊢
    simp only [deconfusticate]
    rw [key, ← e1, deconfLoop_confLoop r0 (c :: r) hr0lt hrest]
    congr 2
    rw [← hr0, ← getD_last_cons first (c :: r) (by simp)]
    generalize (first :: c :: r).getD ((first :: c :: r).length - 1) 0 = lst at hlast ⊢
    rw [xor_eq first lst hf hlast, xor_eq lst _ hlast (by rw [← xor_eq first lst hf hlast]; exact xor_lt _ _)]
    rw [Nat.xor_comm first lst, ← Nat.xor_assoc, Nat.xor_self, Nat.zero_xor]

/-! ## Tokens -/

/-- Every 5-bit number has a token character; the character is no space, is its own upper
case, is none of `A`, `I`, `O`, `U`, and `IDNumbers` maps it back to the number. -/
theorem token_facts (n : Nat) (h : n < 32) :
    ∃ c, IDChars n = some c ∧ isSpace c = false ∧ toUpperRune c = c ∧
      IDNumbersChar c = some (n : Int) ∧ c ≠ 'A' ∧ c ≠ 'I' ∧ c ≠ 'O' ∧ c ≠ 'U' ∧
      byteLen [c] = 1 := by
  have key : ∀ m < 32, (IDChars m).any (fun c => !isSpace c && decide (toUpperRune c = c) &&
      decide (IDNumbersChar c = some (m : Int)) && decide (c ≠ 'A') && decide (c ≠ 'I') &&
      decide (c ≠ 'O') && decide (c ≠ 'U') && decide (byteLen [c] = 1)) = true := by decide
  have hk := key n h
  cases hc : IDChars n with
  | none => rw [hc] at hk; simp at hk
  | some c =>
    rw [hc] at hk
    simp only [Option.any_some, Bool.and_eq_true, Bool.not_eq_true', decide_eq_true_eq] at hk
    obtain ⟨⟨⟨⟨⟨⟨⟨h1, h2⟩, h3⟩, h4⟩, h5⟩, h6⟩, h7⟩, h8⟩ := hk
    exact ⟨c, rfl, h1, h2, h3, h4, h5, h6, h7, h8⟩

theorem tokens_foldl (acc : List Char) (l : List Nat) :
    l.foldl (fun rtn thisChomp => rtn ++ toToken thisChomp) acc
      = acc ++ chompArrayToChompTokens l := by
  unfold chompArrayToChompTokens
  induction l generalizing acc with
  | nil => simp
  | cons x xs ih =>
    simp only [List.foldl_cons, List.nil_append]
    rw [ih (acc ++ toToken x), ih (toToken x), List.append_assoc]

theorem tokens_cons (x : Nat) (xs : List Nat) :
    chompArrayToChompTokens (x :: xs) = toToken x ++ chompArrayToChompTokens xs := by
  conv_lhs => unfold chompArrayToChompTokens
  simp only [List.foldl_cons, List.nil_append]
  exact tokens_foldl _ _

/-- The token string of 5-bit chomps pairs every chomp with its table character. -/
theorem tokens_forall₂ (l : List Nat) (hl : ∀ x ∈ l, x < 32) :
    List.Forall₂ (fun c n => n < 32 ∧ IDChars n = some c) (chompArrayToChompTokens l) l := by
  induction l with
  | nil => exact List.Forall₂.nil
  | cons x xs ih =>
    have hx : x < 32 := hl x (by simp)
    obtain ⟨c, hc, _⟩ := token_facts x hx
    rw [tokens_cons]
    have : toToken x = [c] := by simp [toToken, hc]
    rw [this]
    exact List.Forall₂.cons ⟨hx, hc⟩ (ih (fun y hy => hl y (by simp [hy])))

theorem cleanID_foldl (acc : List Char) (s : List Char) :
    s.foldl (fun clean thisChar =>
        match IDNumbers (ToUpper [thisChar]) with
        | some _ => clean ++ ToUpper [thisChar]
        | none => clean) acc
      = acc ++ cleanID s := by
  unfold cleanID
  induction s generalizing acc with
  | nil => simp
  | cons c s ih =>
    simp only [List.foldl_cons]
    rw [ih, ih ((match IDNumbers (ToUpper [c]) with
        | some _ => [] ++ ToUpper [c]
        | none => []))]
    cases IDNumbers (ToUpper [c]) <;> simp

theorem cleanID_cons (c : Char) (s : List Char) :
    cleanID (c :: s) = (match IDNumbers (ToUpper [c]) with
        | some _ => ToUpper [c]
        | none => []) ++ cleanID s := by
  conv_lhs => unfold cleanID
  simp only [List.foldl_cons]
  rw [cleanID_foldl]
  cases IDNumbers (ToUpper [c]) <;> simp

theorem cleanID_tokens (s : List Char) (l : List Nat)
    (h : List.Forall₂ (fun c n => n < 32 ∧ IDChars n = some c) s l) : cleanID s = s := by
  induction h with
  | nil => rfl
  | @cons c n s l hcn _ ih =>
    obtain ⟨c2, hc2, _, hup, hnum, _⟩ := token_facts n hcn.1
    have hcc : c2 = c := by
      have := hcn.2; rw [hc2] at this; exact Option.some.inj this
    subst hcc
    rw [cleanID_cons, ih]
    simp [ToUpper, hup, IDNumbers, hnum]

theorem dropWhile_isSpace_eq (s : List Char) (h : ∀ c ∈ s, isSpace c = false) :
    s.dropWhile isSpace = s := by
  cases s with
  | nil => rfl
  | cons c s => simp [List.dropWhile, h c (by simp)]

theorem TrimSpace_eq (s : List Char) (h : ∀ c ∈ s, isSpace c = false) : TrimSpace s = s := by
  unfold TrimSpace
  rw [dropWhile_isSpace_eq s h, dropWhile_isSpace_eq _ (fun c hc => h c (List.mem_reverse.1 hc)),
    List.reverse_reverse]

theorem tokens_noSpace (s : List Char) (l : List Nat)
    (h : List.Forall₂ (fun c n => n < 32 ∧ IDChars n = some c) s l) :
    ∀ c ∈ s, isSpace c = false := by
  induction h with
  | nil => intro c hc; cases hc
  | @cons c n s l hcn _ ih =>
    obtain ⟨c2, hc2, hsp, _⟩ := token_facts n hcn.1
    have hcc : c2 = c := by
      have := hcn.2; rw [hc2] at this; exact Option.some.inj this
    subst hcc
    intro x hx
    rcases List.mem_cons.1 hx with hx | hx
    · rw [hx]; exact hsp
    · exact ih x hx

theorem fromChompTokens_tokens (s : List Char) (l : List Nat)
    (h : List.Forall₂ (fun c n => n < 32 ∧ IDChars n = some c) s l) :
    fromChompTokens s = l := by
  unfold fromChompTokens
  simp only
  rw [TrimSpace_eq s (tokens_noSpace s l h)]
  induction h with
  | nil => rfl
  | @cons c n s l hcn _ ih =>
    obtain ⟨c2, hc2, hsp, hup, hnum, _, _, _, _, hbl⟩ := token_facts n hcn.1
    have hcc : c2 = c := by
      have := hcn.2; rw [hc2] at this; exact Option.some.inj this
    subst hcc
    simp only [ToUpper, List.map_cons] at ih ⊢
    rw [ih]
    congr 1
    have hts : TrimSpace [c2] = [c2] := TrimSpace_eq [c2] (by simp [hsp])
    simp only [fromToken, hts, ToUpper, List.map_cons, List.map_nil, hup, IDNumbers, hnum, hbl]
    simp
    exact toByte_natCast n (by omega)

/-- Encoding to a token string and reading the string back gives the chomps again. -/
theorem fromChompTokens_cleanID_tokens (l : List Nat) (hl : ∀ x ∈ l, x < 32) :
    fromChompTokens (cleanID (chompArrayToChompTokens l)) = l := by
  have h := tokens_forall₂ l hl
  rw [cleanID_tokens _ _ h, fromChompTokens_tokens _ _ h]

theorem tokens_length (l : List Nat) (hl : ∀ x ∈ l, x < 32) :
    (chompArrayToChompTokens l).length = l.length :=
  (tokens_forall₂ l hl).length_eq

/-! ## Encoding chomps to a string and back -/

theorem confLoop_lt32 (p : Nat) (l : List Nat) (hp : p < 32) (hl : ∀ x ∈ l, x < 32) :
    ∀ x ∈ confLoop p l, x < 32 := by
  induction l generalizing p with
  | nil => intro x hx; cases hx
  | cons c rest ih =>
    have hc : c < 32 := hl c (by simp)
    intro x hx
    simp only [confLoop, List.mem_cons] at hx
    rcases hx with hx | hx
    · rw [hx]; exact xor_lt32 p c hp hc
    · exact ih (xor p c) (xor_lt32 p c hp hc) (fun y hy => hl y (by simp [hy])) x hx

/-- On a non-empty list of 5-bit chomps `confusticate` succeeds, keeps the length and yields
5-bit chomps. -/
theorem confusticate_ok (l : List Nat) (hne : l ≠ []) (hl : ∀ x ∈ l, x < 32) :
    ∃ o, confusticate l = .ok o ∧ o.length = l.length ∧ ∀ x ∈ o, x < 32 := by
  cases l with
  | nil => exact absurd rfl hne
  | cons first rest =>
    have hf : first < 32 := hl first (by simp)
    have hlast : (first :: rest).getD ((first :: rest).length - 1) 0 < 32 := by
      rw [List.getD_eq_getElem _ _ (by simp)]
      exact hl _ (List.getElem_mem _)
    have h0 := xor_lt32 first _ hf hlast
    refine ⟨_, rfl, by simp [confLoop_length], ?_⟩
    intro x hx
    rcases List.mem_cons.1 hx with hx | hx
    · rw [hx]; exact h0
    · exact confLoop_lt32 _ rest h0 (fun y hy => hl y (by simp [hy])) x hx

/-- The string of a list of at least two 5-bit chomps is read back as the same chomps. -/
theorem decode_encode_chomps (l : List Nat) (hlen : 2 ≤ l.length) (hl : ∀ x ∈ l, x < 32) :
    ∃ o, confusticate l = .ok o ∧ o.length = l.length ∧ (∀ x ∈ o, x < 32) ∧
      (chompArrayToChompTokens o).length = l.length ∧
      deconfusticate (fromChompTokens (cleanID (chompArrayToChompTokens o))) = .ok l := by
  have hne : l ≠ [] := by intro h; rw [h] at hlen; simp at hlen
  obtain ⟨o, ho, holen, holt⟩ := confusticate_ok l hne hl
  refine ⟨o, ho, holen, holt, ?_, ?_⟩
  · rw [tokens_length o holt, holen]
  · rw [fromChompTokens_cleanID_tokens o holt]
    have h := deconfusticate_confusticate l hlen (fun x hx => by have := hl x hx; omega)
    rw [ho] at h
    exact h

theorem GetTimeAndServer_cons (fuel : Nat) (now : Int) (s : List Char) (hs : s ≠ []) :
    GetTimeAndServer fuel now (some s) =
      match deconfusticate (fromChompTokens (cleanID s)) with
      | .error e => .error e
      | .ok chompArray => TimeFromBits fuel now (UnsaltToTimestampBits (toNumber chompArray)) := by
  cases s with
  | nil => exact absurd rfl hs
  | cons c s => rfl

theorem ParseIdDOBNameHash_cons (s : List Char) (hs : s ≠ []) :
    ParseIdDOBNameHash (some s) =
      match deconfusticate (fromChompTokens (cleanID s)) with
      | .error e => .error e
      | .ok chompArray => .ok (intToIDNameDOB (toU64 (toNumber chompArray))) := by
  cases s with
  | nil => exact absurd rfl hs
  | cons c s => rfl

theorem toChomps_length (n : Nat) (h : n < 2 ^ 63) (pad : Nat) (hpad : 0 < pad) :
    (pad ≤ (toChomps (n : Int) (pad : Int)).length) ∧
    (n < 32 ^ pad → (toChomps (n : Int) (pad : Int)).length = pad) := by
  unfold toChomps
  simp only
  rw [biteAll13 n h, if_neg (by omega)]
  simp only [List.length_reverse, List.length_append, List.length_replicate]
  constructor
  · omega
  · intro hn
    have hd : (Nat.digits 32 n).length ≤ pad := by
      by_cases h0 : n = 0
      · subst h0; simp
      · rw [Nat.digits_len 32 n (by omega) h0]
        have : Nat.log 32 n < pad := Nat.log_lt_of_lt_pow h0 hn
        omega
    omega

theorem toChomps_zero_pad (input : Int) : toChomps input 0 = toChomps input 9 := by
  unfold toChomps
  simp [IDCharLength]

/-! ## Salt and time -/

theorem timestampUpperBound_eq : timestampUpperBound = 4398046511104 := by decide

theorem FilterBits_eq : FilterBits = 8796093022207 := by decide

theorem maxRand_eq : maxRand = 8 := by decide

theorem wrap64_of_nonneg (x : Int) (h0 : 0 ≤ x) (h1 : x < 2 ^ 63) : wrap64 x = x := by
  obtain ⟨n, rfl⟩ := Int.eq_ofNat_of_zero_le h0
  exact wrap64_natCast n (by omega)

theorem and64_FilterBits (x : Int) (h0 : 0 ≤ x) (h1 : x < 2 ^ 63) :
    and64 x FilterBits = x % 2 ^ 43 := by
  obtain ⟨n, rfl⟩ := Int.eq_ofNat_of_zero_le h0
  unfold and64
  have hf : toU64 FilterBits = 2 ^ 43 - 1 := by decide
  rw [toU64_natCast n (by omega), hf, Nat.and_pow_two_sub_one_eq_mod]
  rw [toI64_of_lt _ (by omega)]
  omega

theorem unsalt_salt (salt v : Int) (hv0 : 0 ≤ v) (hv1 : v < 2 ^ 43) (hs0 : 0 ≤ salt)
    (hs1 : salt < 8) :
    SaltToFullBitlength salt v = salt * 2 ^ 42 + v ∧
    UnsaltToTimestampBits (SaltToFullBitlength salt v) = v % 2 ^ 42 := by
  unfold SaltToFullBitlength UnsaltToTimestampBits
  rw [timestampUpperBound_eq]
  rw [wrap64_of_nonneg (salt * 4398046511104) (by omega) (by omega)]
  rw [wrap64_of_nonneg _ (by omega) (by omega)]
  constructor
  · omega
  · rw [Int.tmod_eq_emod (by omega) (by omega)]
    omega

theorem TimeFromBits_first (fuel : Nat) (now bits : Int) (h0 : 0 ≤ bits) (h1 : bits < 2 ^ 46)
    (hnow : now < Epoch + bits * 100000 + 2 ^ 42 * 100000) :
    TimeFromBits (fuel + 1) now bits = .ok (some (Epoch + bits * 100000)) := by
  unfold TimeFromBits
  simp only [timestampUpperBound_eq, Add, one_mul]
  rw [wrap64_of_nonneg (100000 * bits) (by omega) (by omega)]
  rw [wrap64_of_nonneg (100000 * bits) (by omega) (by omega)]
  rw [wrap64_of_nonneg (100000 * 4398046511104) (by omega) (by omega)]
  rw [wrap64_of_nonneg (100000 * 4398046511104) (by omega) (by omega)]
  rw [if_pos (by omega)]
  congr 2
  omega

theorem TimeFromBits_next (fuel : Nat) (now bits : Int) (h0 : 0 ≤ bits) (h1 : bits < 2 ^ 46)
    (hnow : Epoch + bits * 100000 + 2 ^ 42 * 100000 ≤ now) :
    TimeFromBits (fuel + 1) now bits = TimeFromBits fuel now (bits + 2 ^ 42) := by
  conv_lhs => unfold TimeFromBits
  simp only [timestampUpperBound_eq, Add, one_mul]
  rw [wrap64_of_nonneg (100000 * bits) (by omega) (by omega)]
  rw [wrap64_of_nonneg (100000 * bits) (by omega) (by omega)]
  rw [wrap64_of_nonneg (100000 * 4398046511104) (by omega) (by omega)]
  rw [wrap64_of_nonneg (100000 * 4398046511104) (by omega) (by omega)]
  rw [wrap64_of_nonneg (bits + 4398046511104) (by omega) (by omega)]
  rw [if_neg (by omega)]
  norm_num

/-- Decoding the ticks of an instant at most one wrap before the clock reading. -/
theorem TimeFromBits_ticks (fuel : Nat) (now ticks : Int) (h0 : 0 ≤ ticks) (h1 : ticks < 2 ^ 43)
    (hlo : 2 ^ 42 ≤ ticks → Epoch + ticks * 100000 ≤ now)
    (hhi : now < Epoch + ticks * 100000 + 2 ^ 42 * 100000) :
    TimeFromBits (fuel + 2) now (ticks % 2 ^ 42) = .ok (some (Epoch + ticks * 100000)) := by
  by_cases hc : ticks < 2 ^ 42
  · have e : ticks % 2 ^ 42 = ticks := Int.emod_eq_of_lt h0 hc
    rw [e]
    exact TimeFromBits_first (fuel + 1) now ticks h0 (by omega) hhi
  · have e : ticks % 2 ^ 42 = ticks - 2 ^ 42 := by omega
    rw [e]
    have hl := hlo (by omega)
    rw [TimeFromBits_next (fuel + 1) now (ticks - 2 ^ 42) (by omega) (by omega) (by omega)]
    have e2 : ticks - 2 ^ 42 + 2 ^ 42 = ticks := by omega
    rw [e2]
    exact TimeFromBits_first fuel now ticks h0 (by omega) hhi

theorem GenerateTimeBits_of_ge (clock t : Int) (h0 : Epoch ≤ t) (h1 : t - Epoch < 2 ^ 63) :
    GenerateTimeBits clock (some t) = ((t - Epoch) / 100000) % 2 ^ 43 := by
  unfold GenerateTimeBits
  simp only [Sub]
  rw [if_neg (by omega), if_neg (by omega)]
  rw [Int.tdiv_eq_ediv (by omega) (by omega)]
  rw [and64_FilterBits _ (by omega) (by omega)]

/-! ## The calendar arithmetic -/

theorem daysSinceEpoch_cycles (n c q s : Int) (hc0 : 0 ≤ c) (hc1 : c ≤ 3) (hq0 : 0 ≤ q)
    (hq1 : q ≤ 24) (hs0 : 0 ≤ s) (hs1 : s ≤ 3) :
    daysSinceEpoch (400 * n + 100 * c + 4 * q + s + absoluteZeroYear)
      = 146097 * n + 36524 * c + 1461 * q + 365 * s := by
  unfold daysSinceEpoch
  simp only
  have key : (400 * n + 100 * c + 4 * q + s + absoluteZeroYear - absoluteZeroYear
        = 400 * n + 100 * c + 4 * q + s) ∧
      ((400 * n + 100 * c + 4 * q + s) / 400 = n) ∧
      ((100 * c + 4 * q + s) / 100 = c) ∧
      ((4 * q + s) / 4 = q) ∧
      (400 * n + 100 * c + 4 * q + s - 400 * n = 100 * c + 4 * q + s) ∧
      (100 * c + 4 * q + s - 100 * c = 4 * q + s) :=
    ⟨by omega, by omega, by omega, by omega, by omega, by omega⟩
  obtain ⟨e0, e1, e2, e3, e4, e5⟩ := key
  rw [e0, e1, e4, e2, e5, e3]
  omega

theorem absYearDay_cycles (n c q s r h : Int) (hc0 : 0 ≤ c) (hc1 : c ≤ 3) (hq0 : 0 ≤ q)
    (hq1 : q ≤ 24) (hs0 : 0 ≤ s) (hs1 : s ≤ 3) (hr0 : 0 ≤ r)
    (hr1 : r < 365 ∨ (r = 365 ∧ s = 3 ∧ (q < 24 ∨ c = 3)))
    (hh0 : 0 ≤ h) (hh1 : h < nsPerDay) :
    absYearDay ((146097 * n + 36524 * c + 1461 * q + 365 * s + r) * nsPerDay + h)
      = (400 * n + 100 * c + 4 * q + s + absoluteZeroYear, r) := by
  unfold absYearDay
  unfold nsPerDay at hh1 ⊢
  simp only
  have hsum : 1461 * q + 365 * s + r < 36524 ∨ (1461 * q + 365 * s + r = 36524 ∧ c = 3) := by
    omega
  have hsum2 : 365 * s + r < 1461 := by omega
  have hsum3 : r < 365 ∨ (r = 365 ∧ s = 3) := by omega
  clear hr1
  have key : (((146097 * n + 36524 * c + 1461 * q + 365 * s + r) * (86400 * 1000000000) + h)
        / (86400 * 1000000000) = 146097 * n + 36524 * c + 1461 * q + 365 * s + r) ∧
      ((146097 * n + 36524 * c + 1461 * q + 365 * s + r) / 146097 = n) ∧
      (146097 * n + 36524 * c + 1461 * q + 365 * s + r - 146097 * n
        = 36524 * c + 1461 * q + 365 * s + r) ∧
      ((36524 * c + 1461 * q + 365 * s + r) / 36524
        - (36524 * c + 1461 * q + 365 * s + r) / 36524 / 4 = c) ∧
      (36524 * c + 1461 * q + 365 * s + r - 36524 * c = 1461 * q + 365 * s + r) ∧
      ((1461 * q + 365 * s + r) / 1461 = q) ∧
      (1461 * q + 365 * s + r - 1461 * q = 365 * s + r) ∧
      ((365 * s + r) / 365 - (365 * s + r) / 365 / 4 = s) := by
    refine ⟨by omega, by omega, by omega, ?_, by omega, by omega, by omega, ?_⟩
    · rcases hsum with h1 | ⟨h1, h2⟩
      · have : (36524 * c + 1461 * q + 365 * s + r) / 36524 = c := by omega
        rw [this]; omega
      · have : (36524 * c + 1461 * q + 365 * s + r) / 36524 = 4 := by omega
        rw [this]; omega
    · rcases hsum3 with h1 | ⟨h1, h2⟩
      · have : (365 * s + r) / 365 = s := by omega
        rw [this]; omega
      · have : (365 * s + r) / 365 = 4 := by omega
        rw [this]; omega
  obtain ⟨e0, e1, e2, e3, e4, e5, e6, e7⟩ := key
  rw [e0, e1, e2, e3, e4, e5, e6, e7]
  exact Prod.ext (by simp only) (by simp only; omega)

/-- Every year splits into 400-, 100-, 4- and 1-year cycles counted from the absolute zero
year; the split tells whether it is a leap year. -/
theorem year_cycles (y : Int) (hy : 0 ≤ y) :
    ∃ n c q s : Int, 0 ≤ c ∧ c ≤ 3 ∧ 0 ≤ q ∧ q ≤ 24 ∧ 0 ≤ s ∧ s ≤ 3 ∧
      y = 400 * n + 100 * c + 4 * q + s + absoluteZeroYear ∧
      (isLeap y = true ↔ (s = 3 ∧ (q < 24 ∨ c = 3))) := by
  refine ⟨(y + 292277022399) / 400, (y + 292277022399) % 400 / 100,
    (y + 292277022399) % 100 / 4, (y + 292277022399) % 4, by omega, by omega, by omega,
    by omega, by omega, by omega, by unfold absoluteZeroYear; omega, ?_⟩
  unfold isLeap
  rw [Int.tmod_eq_emod hy (by omega), Int.tmod_eq_emod hy (by omega),
    Int.tmod_eq_emod hy (by omega)]
  simp only [Bool.and_eq_true, Bool.or_eq_true, decide_eq_true_eq, ne_eq]
  omega

set_option maxRecDepth 100000 in
/-- The month search inverts the day-of-year count of `Date`, for every day of every month. -/
theorem monthDay_table : ∀ leap : Bool, ∀ m : Nat, m < 12 → ∀ d : Nat, d < 31 →
    ((d : Int) + 1 ≤ (if m + 1 = 2 ∧ leap = true then 29
        else daysBefore (m + 1) - daysBefore (m + 1 - 1)) →
      (0 ≤ daysBefore m + (if leap && decide ((m : Int) + 1 ≥ 3) then 1 else 0) + (d : Int) ∧
       (daysBefore m + (if leap && decide ((m : Int) + 1 ≥ 3) then 1 else 0) + (d : Int) < 365
         ∨ (daysBefore m + (if leap && decide ((m : Int) + 1 ≥ 3) then 1 else 0) + (d : Int)
              = 365 ∧ leap = true)) ∧
       monthDay leap
          (daysBefore m + (if leap && decide ((m : Int) + 1 ≥ 3) then 1 else 0) + (d : Int))
         = ((m : Int) + 1, (d : Int) + 1))) := by
  decide!

/-- The day count of `Date` for a month from 1 to 12 and noon. -/
theorem Date_noon (y d : Int) (m : Nat) (hm : m < 12) :
    Date y ((m : Int) + 1) d 12
      = (daysSinceEpoch y + (daysBefore m
          + (if isLeap y && decide ((m : Int) + 1 ≥ 3) then 1 else 0) + (d - 1))) * nsPerDay
        + 12 * Hour := by
  have n1 : norm y ((m : Int) + 1 - 1) 12 = (y, (m : Int)) := by
    unfold norm
    have e : (m : Int) + 1 - 1 = (m : Int) := by omega
    rw [e, if_neg (by omega)]
    simp only
    rw [if_neg (by omega)]
  have n2 : norm d 12 24 = (d, 12) := by
    unfold norm
    simp
  unfold Date
  rw [n1, n2]
  simp only [Int.toNat_ofNat]
  split <;> ring

/-- Reading the calendar date of a date at noon gives the date back (for every year from 0 on,
every month and every day of the month). -/
theorem absDate_Date (y m d : Int) (hy : 0 ≤ y) (hm0 : 1 ≤ m) (hm1 : m ≤ 12) (hd0 : 1 ≤ d)
    (hd1 : d ≤ daysIn m.toNat y) :
    absDate (Date y m d 12) = (y, m, d) ∧
    ∃ yd : Int, 0 ≤ yd ∧ yd ≤ 365 ∧
      Date y m d 12 = (daysSinceEpoch y + yd) * nsPerDay + 12 * Hour := by
  obtain ⟨m', hm'⟩ := Int.eq_ofNat_of_zero_le (show 0 ≤ m - 1 by omega)
  obtain ⟨d', hd'⟩ := Int.eq_ofNat_of_zero_le (show 0 ≤ d - 1 by omega)
  have em : m = (m' : Int) + 1 := by omega
  have ed : d = (d' : Int) + 1 := by omega
  subst em ed
  have hm12 : m' < 12 := by omega
  have htn : ((m' : Int) + 1).toNat = m' + 1 := by omega
  rw [htn] at hd1
  have hd31 : d' < 31 := by
    have h2 : daysIn (m' + 1) y ≤ 31 := by
      have : ∀ k : Nat, k < 12 → ∀ b : Bool,
          (if k + 1 = 2 ∧ b = true then (29 : Int)
            else daysBefore (k + 1) - daysBefore (k + 1 - 1)) ≤ 31 := by decide
      exact this m' hm12 (isLeap y)
    omega
  have tab := monthDay_table (isLeap y) m' hm12 d' hd31 hd1
  obtain ⟨t0, t1, t2⟩ := tab
  obtain ⟨n, c, q, s, hc0, hc1, hq0, hq1, hs0, hs1, hyeq, hleap⟩ := year_cycles y hy
  rw [Date_noon y _ m' hm12]
  have e1 : (d' : Int) + 1 - 1 = (d' : Int) := by omega
  rw [e1]
  generalize hyd : daysBefore m' + (if (isLeap y && decide ((m' : Int) + 1 ≥ 3)) = true
    then 1 else 0) + (d' : Int) = yd at t0 t1 t2 ⊢
  have hr : yd < 365 ∨ (yd = 365 ∧ s = 3 ∧ (q < 24 ∨ c = 3)) := by
    rcases t1 with h | ⟨h, hl⟩
    · exact Or.inl h
    · exact Or.inr ⟨h, hleap.1 hl⟩
  constructor
  · have hD := daysSinceEpoch_cycles n c q s hc0 hc1 hq0 hq1 hs0 hs1
    rw [← hyeq] at hD
    have hA := absYearDay_cycles n c q s yd (12 * Hour) hc0 hc1 hq0 hq1 hs0 hs1 t0 hr
      (by unfold Hour; omega) (by unfold Hour nsPerDay; omega)
    rw [← hyeq, ← hD] at hA
    unfold absDate
    rw [hA]
    simp only
    rw [t2]
  · refine ⟨yd, t0, by omega, rfl⟩

/-! ## Days after the birth-date epoch -/

theorem birthdateEpoch_eq : birthdateEpoch = daysSinceEpoch 1910 * nsPerDay + 12 * Hour := by
  decide

theorem wrap32_of_nonneg (x : Int) (h0 : 0 ≤ x) (h1 : x < 2 ^ 31) : wrap32 x = x := by
  unfold wrap32
  have : x % 2 ^ 32 = x := Int.emod_eq_of_lt h0 (by omega)
  rw [this, if_pos h1]

/-- A date at noon that is `k` whole days after the birth-date epoch, `k` below `2^16`, is
stored as `k` and read back as the same date. -/
theorem dob_roundtrip (y m d : Int) (hy : 0 ≤ y) (hm0 : 1 ≤ m) (hm1 : m ≤ 12) (hd0 : 1 ≤ d)
    (hd1 : d ≤ daysIn m.toNat y) (hlo : birthdateEpoch ≤ Date y m d 12)
    (hhi : Date y m d 12 < birthdateEpoch + 65536 * nsPerDay) :
    0 ≤ daysAfterBirthdateEpoch y m d ∧ daysAfterBirthdateEpoch y m d < 65536 ∧
      intToBirthdate (daysAfterBirthdateEpoch y m d) = (y, m, d) := by
  obtain ⟨hcal, yd, hyd0, hyd1, hdate⟩ := absDate_Date y m d hy hm0 hm1 hd0 hd1
  have hb := birthdateEpoch_eq
  obtain ⟨k, hk⟩ : ∃ k : Int, k = daysSinceEpoch y + yd - daysSinceEpoch 1910 := ⟨_, rfl⟩
  have hdk : Date y m d 12 = birthdateEpoch + k * nsPerDay := by
    rw [hdate, hb, hk]; ring
  rw [hdk] at hlo hhi
  have hk0 : 0 ≤ k := by unfold nsPerDay at hlo; omega
  have hk1 : k < 65536 := by unfold nsPerDay at hhi; omega
  have hdays : daysAfterBirthdateEpoch y m d = k := by
    unfold daysAfterBirthdateEpoch
    simp only [hdk]
    by_cases hz : k = 0
    · subst hz
      simp
    · rw [if_neg (by unfold nsPerDay; omega)]
      unfold Sub
      simp only
      have e : birthdateEpoch + k * nsPerDay - birthdateEpoch = k * nsPerDay := by ring
      rw [e]
      unfold nsPerDay Hour
      rw [if_neg (by omega), if_neg (by omega)]
      rw [Int.tdiv_eq_ediv (by omega) (by omega)]
      have e2 : k * (86400 * 1000000000) / (24 * (3600 * 1000000000)) = k := by omega
      rw [e2]
      exact wrap32_of_nonneg k hk0 (by omega)
  rw [hdays]
  refine ⟨hk0, hk1, ?_⟩
  unfold intToBirthdate
  simp only
  rw [wrap32_of_nonneg (k * 24) (by omega) (by omega),
    wrap64_of_nonneg (k * 24) (by omega) (by omega)]
  unfold Hour
  rw [wrap64_of_nonneg _ (by omega) (by omega)]
  unfold Add
  have e3 : birthdateEpoch + k * 24 * (3600 * 1000000000) = Date y m d 12 := by
    rw [hdk]; unfold nsPerDay; ring
  rw [e3, hcal]

/-- The days from 1 January 1910 to 1 January of a year up to 2099. -/
theorem daysSinceEpoch_range (y : Int) (h0 : 1910 ≤ y) (h1 : y ≤ 2099) :
    365 * (y - 1910) ≤ daysSinceEpoch y - daysSinceEpoch 1910 ∧
    daysSinceEpoch y - daysSinceEpoch 1910 ≤ 366 * (y - 1910) := by
  have e0 : daysSinceEpoch 1910 = 106751991051179 := by decide
  rw [e0]
  unfold daysSinceEpoch absoluteZeroYear
  simp only
  by_cases hc : y ≤ 2000
  · have key : (y - -292277022399) / 400 = 730692560 ∧
        (y - -292277022399 - 400 * 730692560) / 100 = 3 ∧
        (y - -292277022399 - 400 * 730692560 - 100 * 3) = y - 1901 := by
      refine ⟨by omega, by omega, by omega⟩
    obtain ⟨k1, k2, k3⟩ := key
    rw [k1, k2, k3]
    omega
  · have key : (y - -292277022399) / 400 = 730692561 ∧
        (y - -292277022399 - 400 * 730692561) / 100 = 0 ∧
        (y - -292277022399 - 400 * 730692561 - 100 * 0) = y - 2001 := by
      refine ⟨by omega, by omega, by omega⟩
    obtain ⟨k1, k2, k3⟩ := key
    rw [k1, k2, k3]
    omega

/-! ## The composite payload -/

theorem and_mask (x k : Nat) (m : Nat) (hm : m = 2 ^ k - 1) : x &&& m = x % 2 ^ k := by
  rw [hm, Nat.and_pow_two_sub_one_eq_mod]

theorem toSixteenBitHash_lt (name : List Char) : toSixteenBitHash name < 4096 := by
  unfold toSixteenBitHash
  simp only
  split
  · omega
  · rw [and_mask _ 12 0xfff (by norm_num)]
    exact Nat.mod_lt _ (by norm_num)

/-- The payload of a non-negative id: name hash, id and day count side by side. -/
theorem idNameDOBToInt_nonneg (id : Nat) (name : List Char) (y m d : Int) (hid : id < 2 ^ 31) :
    idNameDOBToInt (id : Int) name y m d
      = toSixteenBitHash name * 2 ^ 48 + id * 2 ^ 16
        + toU64 (daysAfterBirthdateEpoch y m d) % 2 ^ 16 := by
  unfold idNameDOBToInt
  simp only
  have hh := toSixteenBitHash_lt name
  rw [and_mask _ 12 0xfff (by norm_num), and_mask _ 16 0xffff (by norm_num)]
  rw [Nat.mod_eq_of_lt (show toSixteenBitHash name < 2 ^ 12 by omega)]
  rw [toU64_natCast id (by omega), Nat.shiftLeft_eq, Nat.shiftLeft_eq, Nat.zero_or]
  have hk : toU64 (daysAfterBirthdateEpoch y m d) % 2 ^ 16 < 2 ^ 16 := Nat.mod_lt _ (by norm_num)
  generalize toU64 (daysAfterBirthdateEpoch y m d) % 2 ^ 16 = k at hk
  generalize toSixteenBitHash name = h at hh
  rw [Nat.mod_eq_of_lt (show h * 2 ^ 48 < 2 ^ 64 by omega),
    Nat.mod_eq_of_lt (show id * 2 ^ 16 < 2 ^ 64 by omega)]
  have o1 : 2 ^ 48 * h + id * 2 ^ 16 = 2 ^ 48 * h ||| id * 2 ^ 16 :=
    Nat.mul_add_lt_is_or (show id * 2 ^ 16 < 2 ^ 48 by omega) h
  have o2 : 2 ^ 16 * (2 ^ 32 * h + id) + k = 2 ^ 16 * (2 ^ 32 * h + id) ||| k :=
    Nat.mul_add_lt_is_or hk _
  have e1 : h * 2 ^ 48 = 2 ^ 48 * h := Nat.mul_comm _ _
  have e2 : 2 ^ 48 * h + id * 2 ^ 16 = 2 ^ 16 * (2 ^ 32 * h + id) := by omega
  rw [e1, ← o1, e2, ← o2]

theorem le_or_left (x y : Nat) : x ≤ x ||| y :=
  Nat.le_of_testBit (fun i hi => by rw [Nat.testBit_or, hi]; rfl)

theorem le_or_right (x y : Nat) : y ≤ x ||| y :=
  Nat.le_of_testBit (fun i hi => by rw [Nat.testBit_or, hi]; simp)

/-- Reading back a payload made of a 12-bit hash, a non-negative id and a 16-bit day count. -/
theorem intToIDNameDOB_payload (h id k : Nat) (hh : h < 2 ^ 12) (hid : id < 2 ^ 31)
    (hk : k < 2 ^ 16) (y m d : Int) (hdob : intToBirthdate (k : Int) = (y, m, d)) :
    intToIDNameDOB (h * 2 ^ 48 + id * 2 ^ 16 + k) = ((id : Int), h, y, m, d) := by
  unfold intToIDNameDOB
  simp only
  rw [and_mask _ 16 0xffff (by norm_num), and_mask _ 32 0xffffffff (by norm_num),
    Nat.shiftRight_eq_div_pow, Nat.shiftRight_eq_div_pow]
  have e1 : (h * 2 ^ 48 + id * 2 ^ 16 + k) % 2 ^ 16 = k := by omega
  have e2 : (h * 2 ^ 48 + id * 2 ^ 16 + k) / 2 ^ 16 = h * 2 ^ 32 + id := by omega
  rw [e1, e2]
  have e3 : (h * 2 ^ 32 + id) % 2 ^ 32 = id := by omega
  have e4 : (h * 2 ^ 32 + id) / 2 ^ 32 % 2 ^ 32 = h := by omega
  rw [e3, e4, wrap32_of_nonneg (k : Int) (by omega) (by omega),
    wrap32_of_nonneg (id : Int) (by omega) (by omega), hdob]

/-- The payload of a negative id has its top bit set: as an `int64` it is negative. -/
theorem idNameDOBToInt_negative (id : Int) (name : List Char) (y m d : Int)
    (h0 : -(2 ^ 31) ≤ id) (h1 : id < 0) :
    toI64 (idNameDOBToInt id name y m d) < 0 := by
  unfold idNameDOBToInt
  simp only
  have hU : toU64 id = 2 ^ 64 - id.natAbs := by
    unfold toU64
    omega
  have hmid : (toU64 id <<< 16) % 2 ^ 64 = 2 ^ 64 - id.natAbs * 2 ^ 16 := by
    rw [hU, Nat.shiftLeft_eq]
    omega
  rw [hmid, Nat.zero_or]
  have ha1 : (toSixteenBitHash name &&& 0xfff) <<< 48 % 2 ^ 64 < 2 ^ 64 := Nat.mod_lt _ (by norm_num)
  generalize (toSixteenBitHash name &&& 0xfff) <<< 48 % 2 ^ 64 = a at ha1
  generalize hb : toU64 (daysAfterBirthdateEpoch y m d) &&& 0xffff = b
  have hb1 : b < 2 ^ 64 := by
    rw [← hb, and_mask _ 16 0xffff (by norm_num)]
    have : toU64 (daysAfterBirthdateEpoch y m d) % 2 ^ 16 < 2 ^ 16 := Nat.mod_lt _ (by norm_num)
    omega
  have hge : 2 ^ 63 ≤ a ||| (2 ^ 64 - id.natAbs * 2 ^ 16) ||| b := by
    have l1 : 2 ^ 64 - id.natAbs * 2 ^ 16 ≤ a ||| (2 ^ 64 - id.natAbs * 2 ^ 16) :=
      le_or_right _ _
    have l2 : a ||| (2 ^ 64 - id.natAbs * 2 ^ 16) ≤ a ||| (2 ^ 64 - id.natAbs * 2 ^ 16) ||| b :=
      le_or_left _ _
    omega
  have hlt : a ||| (2 ^ 64 - id.natAbs * 2 ^ 16) ||| b < 2 ^ 64 :=
    Nat.or_lt_two_pow (Nat.or_lt_two_pow ha1 (by omega)) hb1
  unfold toI64
  rw [Nat.mod_eq_of_lt hlt, if_neg (by omega)]
  omega

/-! ## Numbers through the whole pipeline -/

/-- A number below `2^63`, cut into at least two chomps, xor-mixed and written as a string,
is read back from the string as the same chomps. -/
theorem encode_decode_number (n : Nat) (hn : n < 2 ^ 63) (pad : Nat) (hpad : 2 ≤ pad) :
    ∃ o, confusticate (toChomps (n : Int) (pad : Int)) = .ok o ∧ (∀ x ∈ o, x < 32) ∧
      (chompArrayToChompTokens o).length = (toChomps (n : Int) (pad : Int)).length ∧
      deconfusticate (fromChompTokens (cleanID (chompArrayToChompTokens o)))
        = .ok (toChomps (n : Int) (pad : Int)) := by
  have hlen := (toChomps_length n hn pad (by omega)).1
  have hlt := toChomps_lt n hn (pad : Int)
  have h2 : 2 ≤ (toChomps (n : Int) (pad : Int)).length := by omega
  obtain ⟨o, ho, _, holt, htl, hdec⟩ := decode_encode_chomps _ h2 hlt
  exact ⟨o, ho, holt, htl, hdec⟩

theorem toU64_toNumber_toChomps (n : Nat) (hn : n < 2 ^ 63) (pad : Int) :
    toU64 (toNumber (toChomps (n : Int) pad)) = n := by
  rw [toNumber_toChomps n hn pad, toU64_natCast n (by omega)]

/-- The composite codec on a non-negative id: the string has 12 characters and is parsed back
into the payload's fields. -/
theorem composite_nonneg (id : Nat) (name : List Char) (y m d : Int) (hid : id < 2 ^ 31) :
    ∃ s, CreateForIdNameDOB (id : Int) name y m d = .ok s ∧ s.length = 12 ∧
      ∀ y2 m2 d2 : Int,
        intToBirthdate ((toU64 (daysAfterBirthdateEpoch y m d) % 2 ^ 16 : Nat) : Int)
          = (y2, m2, d2) →
        ParseIdDOBNameHash (some s) = .ok ((id : Int), toSixteenBitHash name, y2, m2, d2) := by
  have hh := toSixteenBitHash_lt name
  have hk : toU64 (daysAfterBirthdateEpoch y m d) % 2 ^ 16 < 2 ^ 16 := Nat.mod_lt _ (by norm_num)
  have hP := idNameDOBToInt_nonneg id name y m d hid
  generalize toU64 (daysAfterBirthdateEpoch y m d) % 2 ^ 16 = k at hk hP ⊢
  generalize toSixteenBitHash name = h at hh hP ⊢
  have hP60 : h * 2 ^ 48 + id * 2 ^ 16 + k < 2 ^ 60 := by omega
  obtain ⟨o, ho, holt, htl, hdec⟩ :=
    encode_decode_number (h * 2 ^ 48 + id * 2 ^ 16 + k) (by omega) 12 (by omega)
  have hlen12 := (toChomps_length (h * 2 ^ 48 + id * 2 ^ 16 + k) (by omega) 12 (by omega)).2 (by
      have : (32 : Nat) ^ 12 = 2 ^ 60 := by norm_num
      omega)
  rw [Nat.cast_ofNat] at ho htl hdec hlen12
  refine ⟨chompArrayToChompTokens o, ?_, by rw [htl, hlen12], ?_⟩
  · unfold CreateForIdNameDOB
    simp only [hP]
    rw [toI64_of_lt _ (by omega), ho]
  · intro y2 m2 d2 hdob
    have hne : chompArrayToChompTokens o ≠ [] := by
      intro he
      rw [he] at htl
      rw [hlen12] at htl
      simp at htl
    rw [ParseIdDOBNameHash_cons _ hne, hdec]
    simp only
    rw [toU64_toNumber_toChomps _ (by omega) 12,
      intToIDNameDOB_payload h id k (by omega) hid hk y2 m2 d2 hdob]

/-- The composite round trip for a non-negative id and a date that lies from 0 to 65535 days
after the birth-date epoch. -/
theorem composite_roundtrip (id : Nat) (name : List Char) (y m d : Int) (hid : id < 2 ^ 31)
    (hy : 0 ≤ y) (hm0 : 1 ≤ m) (hm1 : m ≤ 12) (hd0 : 1 ≤ d) (hd1 : d ≤ daysIn m.toNat y)
    (hlo : birthdateEpoch ≤ Date y m d 12)
    (hhi : Date y m d 12 < birthdateEpoch + 65536 * nsPerDay) :
    ∃ s, CreateForIdNameDOB (id : Int) name y m d = .ok s ∧
      ParseIdDOBNameHash (some s) = .ok ((id : Int), toSixteenBitHash name, y, m, d) := by
  obtain ⟨s, hs, _, hp⟩ := composite_nonneg id name y m d hid
  obtain ⟨hk0, hk1, hrt⟩ := dob_roundtrip y m d hy hm0 hm1 hd0 hd1 hlo hhi
  refine ⟨s, hs, hp y m d ?_⟩
  obtain ⟨k, hk⟩ := Int.eq_ofNat_of_zero_le hk0
  rw [hk] at hrt hk1 ⊢
  rw [toU64_natCast k (by omega), Nat.mod_eq_of_lt (by omega), hrt]

/-- Dates of the years 1910 to 2088 lie from 0 to 65535 days after the birth-date epoch. -/
theorem date_in_range (y m d : Int) (hy0 : 1910 ≤ y) (hy1 : y ≤ 2088) (hm0 : 1 ≤ m)
    (hm1 : m ≤ 12) (hd0 : 1 ≤ d) (hd1 : d ≤ daysIn m.toNat y) :
    birthdateEpoch ≤ Date y m d 12 ∧ Date y m d 12 < birthdateEpoch + 65536 * nsPerDay := by
  obtain ⟨_, yd, hyd0, hyd1, hdate⟩ := absDate_Date y m d (by omega) hm0 hm1 hd0 hd1
  obtain ⟨r0, r1⟩ := daysSinceEpoch_range y hy0 (by omega)
  rw [hdate, birthdateEpoch_eq]
  unfold nsPerDay
  constructor <;> omega

/-! ## The quote-number pipeline -/

theorem GenerateTimeBits_range (clock : Int) (date : Option Int) :
    0 ≤ GenerateTimeBits clock date ∧ GenerateTimeBits clock date < 2 ^ 43 := by
  unfold GenerateTimeBits
  simp only
  generalize Int.tdiv _ 100000 = x
  unfold and64
  have hf : toU64 FilterBits = 2 ^ 43 - 1 := by decide
  rw [hf, Nat.and_pow_two_sub_one_eq_mod]
  have hlt : toU64 x % 2 ^ 43 < 2 ^ 43 := Nat.mod_lt _ (by norm_num)
  rw [toI64_of_lt _ (by omega)]
  omega

/-- What `CreateQuoteNumber` does with a salted value: at least nine chomps, a string of as
many token characters, which `GetTimeAndServer` reads back as the same number. -/
theorem quote_string (n : Nat) (hn : n < 2 ^ 63) :
    ∃ o, confusticate (toChomps (n : Int) 0) = .ok o ∧ (∀ x ∈ o, x < 32) ∧
      (chompArrayToChompTokens o).length = (toChomps (n : Int) 0).length ∧
      9 ≤ (toChomps (n : Int) 0).length ∧
      (n < 2 ^ 45 → (toChomps (n : Int) 0).length = 9) ∧
      ∀ fuel now, GetTimeAndServer fuel now (some (chompArrayToChompTokens o))
        = TimeFromBits fuel now (UnsaltToTimestampBits (n : Int)) := by
  rw [toChomps_zero_pad]
  obtain ⟨o, ho, holt, htl, hdec⟩ := encode_decode_number n hn 9 (by omega)
  obtain ⟨hl1, hl2⟩ := toChomps_length n hn 9 (by omega)
  rw [Nat.cast_ofNat] at ho htl hdec hl1 hl2
  refine ⟨o, ho, holt, htl, hl1, ?_, ?_⟩
  · intro h45
    exact hl2 (by
      have : (32 : Nat) ^ 9 = 2 ^ 45 := by norm_num
      omega)
  · intro fuel now
    have hne : chompArrayToChompTokens o ≠ [] := by
      intro he
      rw [he] at htl
      simp at htl
      omega
    rw [GetTimeAndServer_cons _ _ _ hne, hdec]
    simp only
    rw [toNumber_toChomps n hn 9]

/-- The quote number of an instant in the first `2^43` ticks after the epoch is decoded by
running `TimeFromBits` on the instant's tick count modulo `2^42`. -/
theorem quote_pipeline (salt clock t : Int) (ht0 : Epoch ≤ t)
    (ht1 : t < Epoch + 2 ^ 43 * 100000) (hs0 : 0 ≤ salt) (hs1 : salt < 8) :
    ∃ s, CreateQuoteNumber salt clock (some t) = .ok s ∧
      (t < Epoch + 2 ^ 42 * 100000 → s.length = 9) ∧
      ∀ fuel now, GetTimeAndServer fuel now (some s)
        = TimeFromBits fuel now ((t - Epoch) / 100000 % 2 ^ 42) := by
  have hg := GenerateTimeBits_of_ge clock t ht0 (by omega)
  have hticks : (t - Epoch) / 100000 % 2 ^ 43 = (t - Epoch) / 100000 :=
    Int.emod_eq_of_lt (by omega) (by omega)
  rw [hticks] at hg
  generalize htk : (t - Epoch) / 100000 = ticks at hg ⊢
  have hk0 : 0 ≤ ticks := by omega
  have hk1 : ticks < 2 ^ 43 := by omega
  obtain ⟨hsalt, hunsalt⟩ := unsalt_salt salt ticks hk0 hk1 hs0 hs1
  obtain ⟨n, hn⟩ := Int.eq_ofNat_of_zero_le (show 0 ≤ salt * 2 ^ 42 + ticks by omega)
  obtain ⟨o, ho, _, htl, _, hl9, hget⟩ := quote_string n (by omega)
  refine ⟨chompArrayToChompTokens o, ?_, ?_, ?_⟩
  · unfold CreateQuoteNumber
    simp only [hg, hsalt, hn, ho]
  · intro h42
    rw [htl]
    exact hl9 (by omega)
  · intro fuel now
    rw [hget fuel now, ← hn, ← hsalt, hunsalt]

/-- A negative id gives the string of twelve zero chomps. -/
theorem composite_negative (id : Int) (name : List Char) (y m d : Int)
    (h0 : -(2 ^ 31) ≤ id) (h1 : id < 0) :
    CreateForIdNameDOB id name y m d = .ok "111111111111".toList := by
  have hneg := idNameDOBToInt_negative id name y m d h0 h1
  unfold CreateForIdNameDOB
  simp only
  generalize toI64 (idNameDOBToInt id name y m d) = x at hneg
  have hc : toChomps x 12 = List.replicate 12 0 := by
    unfold toChomps
    have hb : biteAll 13 x = [] := by
      unfold biteAll
      rw [if_neg (by omega)]
    simp only [hb]
    decide
  rw [hc]
  decide

/-- Every character of the token string of 5-bit chomps is in the `IDChars` table and is none
of `A`, `I`, `O`, `U`. -/
theorem tokens_chars (o : List Nat) (ho : ∀ x ∈ o, x < 32) :
    ∀ c ∈ chompArrayToChompTokens o,
      (∃ n, n < 32 ∧ IDChars n = some c) ∧ c ≠ 'A' ∧ c ≠ 'I' ∧ c ≠ 'O' ∧ c ≠ 'U' := by
  induction o with
  | nil => intro c hc; cases hc
  | cons x xs ih =>
    have hx : x < 32 := ho x (by simp)
    obtain ⟨c0, hc0, _, _, _, hA, hI, hO, hU, _⟩ := token_facts x hx
    rw [tokens_cons]
    have : toToken x = [c0] := by simp [toToken, hc0]
    rw [this]
    intro c hc
    rcases List.mem_cons.1 hc with hc | hc
    · rw [hc]; exact ⟨⟨x, hx, hc0⟩, hA, hI, hO, hU⟩
    · exact ih (fun y hy => ho y (by simp [hy])) c hc

/-- The string of `CreateForIdNameDOB` is the token string of twelve 5-bit chomps, for every
`int32` id. -/
theorem composite_string (id : Int) (name : List Char) (y m d : Int)
    (h0 : -(2 ^ 31) ≤ id) (h1 : id < 2 ^ 31) :
    ∃ o, (∀ x ∈ o, x < 32) ∧ o.length = 12 ∧
      CreateForIdNameDOB id name y m d = .ok (chompArrayToChompTokens o) := by
  by_cases hneg : id < 0
  · refine ⟨List.replicate 12 0, ?_, by simp, ?_⟩
    · intro x hx
      rw [List.mem_replicate] at hx
      omega
    · rw [composite_negative id name y m d h0 hneg]
      decide
  · obtain ⟨n, hn⟩ := Int.eq_ofNat_of_zero_le (show 0 ≤ id by omega)
    subst hn
    have hid : n < 2 ^ 31 := by omega
    have hh := toSixteenBitHash_lt name
    have hk : toU64 (daysAfterBirthdateEpoch y m d) % 2 ^ 16 < 2 ^ 16 :=
      Nat.mod_lt _ (by norm_num)
    have hP := idNameDOBToInt_nonneg n name y m d hid
    generalize toU64 (daysAfterBirthdateEpoch y m d) % 2 ^ 16 = k at hk hP
    generalize toSixteenBitHash name = h at hh hP
    obtain ⟨o, ho, holt, _⟩ :=
      encode_decode_number (h * 2 ^ 48 + n * 2 ^ 16 + k) (by omega) 12 (by omega)
    have hlen12 := (toChomps_length (h * 2 ^ 48 + n * 2 ^ 16 + k) (by omega) 12 (by omega)).2 (by
      have : (32 : Nat) ^ 12 = 2 ^ 60 := by norm_num
      omega)
    rw [Nat.cast_ofNat] at ho hlen12
    obtain ⟨o2, ho2, holen2, _⟩ := confusticate_ok _ (by
      intro he
      rw [he] at hlen12
      simp at hlen12) (toChomps_lt (h * 2 ^ 48 + n * 2 ^ 16 + k) (by omega) 12)
    have : o2 = o := by
      rw [ho] at ho2
      exact (Except.ok.inj ho2).symm
    subst this
    refine ⟨o2, holt, by rw [holen2, hlen12], ?_⟩
    unfold CreateForIdNameDOB
    simp only [hP]
    rw [toI64_of_lt _ (by omega), ho]

/-- The string of `CreateQuoteNumber` is the token string of as many 5-bit chomps as `toChomps`
cuts the salted value into, for every instant and every salt. -/
theorem quote_number_string (salt clock : Int) (timeCreated : Option Int) (hs0 : 0 ≤ salt)
    (hs1 : salt < 8) :
    ∃ o, (∀ x ∈ o, x < 32) ∧
      o.length
        = (toChomps (SaltToFullBitlength salt (GenerateTimeBits clock timeCreated)) 0).length ∧
      CreateQuoteNumber salt clock timeCreated = .ok (chompArrayToChompTokens o) := by
  obtain ⟨hg0, hg1⟩ := GenerateTimeBits_range clock timeCreated
  obtain ⟨hsalt, _⟩ := unsalt_salt salt _ hg0 hg1 hs0 hs1
  obtain ⟨n, hn⟩ := Int.eq_ofNat_of_zero_le
    (show 0 ≤ salt * 2 ^ 42 + GenerateTimeBits clock timeCreated by omega)
  obtain ⟨o, ho, holt, htl, _⟩ := quote_string n (by omega)
  refine ⟨o, holt, ?_, ?_⟩
  · rw [hsalt, hn, ← htl, tokens_length o holt]
  · unfold CreateQuoteNumber
    simp only [hsalt, hn, ho]

/-! ## The loops of the name hash end within their fuel -/

/-- More fuel does not change `growBuf` once the fuel covers the missing bytes. -/
theorem growBuf_fuel (origBuf : List Nat) (ho : 1 ≤ origBuf.length) (n k : Nat) (buf : List Nat)
    (h : 6 ≤ buf.length + n) :
    growBuf (n + k) buf origBuf = growBuf n buf origBuf ∧ 6 ≤ (growBuf n buf origBuf).length := by
  induction n generalizing buf with
  | zero =>
    have h6 : ¬ buf.length < 6 := by omega
    cases k with
    | zero => exact ⟨rfl, by simpa [growBuf] using h⟩
    | succ k =>
      refine ⟨?_, by simpa [growBuf] using h⟩
      simp only [Nat.zero_add, growBuf]
      rw [if_neg h6]
  | succ n ih =>
    have e : n + 1 + k = (n + k) + 1 := by omega
    rw [e]
    simp only [growBuf]
    by_cases h6 : buf.length < 6
    · rw [if_pos h6, if_pos h6]
      exact ih (buf ++ origBuf) (by rw [List.length_append]; omega)
    · rw [if_neg h6, if_neg h6]
      exact ⟨rfl, by omega⟩

/-- The frame length after `loadFrame`: five bits per load, loads until 16 bits are there or the
fuel is used up. -/
theorem loadFrame_frameLength (buf : List Nat) (fuel p f c : Nat) :
    (loadFrame fuel buf (p, f, c)).2.2 = c + 5 * min fuel ((16 - c + 4) / 5) ∧
    p ≤ (loadFrame fuel buf (p, f, c)).1 ∧
    (1 ≤ fuel → c < 16 → p < buf.length → p + 1 ≤ (loadFrame fuel buf (p, f, c)).1) := by
  induction fuel generalizing p f c with
  | zero => simp [loadFrame]
  | succ n ih =>
    simp only [loadFrame]
    by_cases hc : c < 16
    · rw [if_pos hc]
      by_cases hp : p < buf.length
      · simp only [if_pos hp]
        obtain ⟨i1, i2, _⟩ := ih (p + 1)
          ((((buf.getD p 0 + 256 - ignoreChars) % 256 &&& fiveBits) <<< c) % 2 ^ 32 ||| f) (c + 5)
        refine ⟨?_, by omega, fun _ _ _ => by omega⟩
        rw [i1]
        omega
      · simp only [if_neg hp]
        obtain ⟨i1, i2, _⟩ := ih p ((padByte <<< c) % 2 ^ 32 ||| f) (c + 5)
        refine ⟨?_, by omega, fun _ _ h => absurd h hp⟩
        rw [i1]
        omega
    · rw [if_neg hc]
      refine ⟨?_, by simp, fun _ h _ => absurd h hc⟩
      simp only
      omega

/-- Four loads fill a frame that holds at most four bits; more fuel changes nothing. -/
theorem loadFrame_fuel (buf : List Nat) (n k p f c : Nat)
    (h : 16 ≤ c + 5 * n) :
    loadFrame (n + k) buf (p, f, c) = loadFrame n buf (p, f, c) := by
  induction n generalizing p f c with
  | zero =>
    cases k with
    | zero => rfl
    | succ k =>
      simp only [Nat.zero_add, loadFrame]
      rw [if_neg (by omega)]
  | succ n ih =>
    have e : n + 1 + k = (n + k) + 1 := by omega
    rw [e]
    simp only [loadFrame]
    by_cases hc : c < 16
    · rw [if_pos hc, if_pos hc]
      by_cases hp : p < buf.length
      · simp only [if_pos hp]
        exact ih _ _ _ (by omega)
      · simp only [if_neg hp]
        exact ih _ _ _ (by omega)
    · rw [if_neg hc, if_neg hc]

/-- The outer loop of the hash ends within a fuel of the bytes still to read: more fuel changes
nothing. -/
theorem hashLoop_fuel (buf : List Nat) (n k p f c hash : Nat) (hc : c ≤ 4)
    (h : buf.length ≤ p + n) :
    hashLoop (n + k) buf (p, f, c, hash) = hashLoop n buf (p, f, c, hash) := by
  induction n generalizing p f c hash with
  | zero =>
    cases k with
    | zero => rfl
    | succ k =>
      simp only [Nat.zero_add, hashLoop]
      rw [if_neg (by omega)]
  | succ n ih =>
    have e : n + 1 + k = (n + k) + 1 := by omega
    rw [e]
    simp only [hashLoop]
    by_cases hp : (p : Int) < (buf.length : Int) - 1
    · rw [if_pos hp, if_pos hp]
      obtain ⟨l1, _, l3⟩ := loadFrame_frameLength buf 4 p f c
      have l3' := l3 (by omega) (by omega) (by omega)
      generalize loadFrame 4 buf (p, f, c) = st at l1 l3'
      obtain ⟨p', f', c'⟩ := st
      simp only at l1 l3' ⊢
      exact ih p' (f' >>> 16) (c' - 16) (hash ^^^ f' &&& sixteenBits) (by omega) (by omega)
    · rw [if_neg hp, if_neg hp]

/-! ## Reading any string -/

/-- The 36 keys of `IDNumbers`. -/
theorem IDNumbersChar_keys (c : Char) (n : Int) (h : IDNumbersChar c = some n) :
    c ∈ "A9B8C7D6E5F4G3H2QSJZKYLXMWNVRUPT1I0O".toList := by
  unfold IDNumbersChar at h
  split at h <;> first | decide | (exact absurd h (by simp))

/-- An accepted character is no space, is its own upper case, takes one byte, and its table
value is a 5-bit number. -/
theorem accepted_facts (c : Char) (n : Int) (h : IDNumbersChar c = some n) :
    isSpace c = false ∧ toUpperRune c = c ∧ byteLen [c] = 1 ∧ 0 ≤ n ∧ n < 32 := by
  have hk := IDNumbersChar_keys c n h
  have key : ∀ x ∈ "A9B8C7D6E5F4G3H2QSJZKYLXMWNVRUPT1I0O".toList,
      isSpace x = false ∧ toUpperRune x = x ∧ byteLen [x] = 1 ∧
        ∀ m, IDNumbersChar x = some m → 0 ≤ m ∧ m < 32 := by
    decide
  obtain ⟨h1, h2, h3, h4⟩ := key c hk
  exact ⟨h1, h2, h3, (h4 n h).1, (h4 n h).2⟩

/-- The filter loop keeps, upper-cased, exactly the runes whose upper case is a key of
`IDNumbers`. -/
theorem cleanID_eq_filter (s : List Char) :
    cleanID s = (ToUpper s).filter (fun c => (IDNumbersChar c).isSome) := by
  induction s with
  | nil => rfl
  | cons c s ih =>
    rw [cleanID_cons, ih]
    simp only [ToUpper, List.map_cons, List.map_nil, IDNumbers, List.filter_cons]
    cases h : IDNumbersChar (toUpperRune c) <;> simp

theorem cleanID_accepted (s : List Char) :
    ∀ c ∈ cleanID s, ∃ n, IDNumbersChar c = some n := by
  intro c hc
  rw [cleanID_eq_filter, List.mem_filter] at hc
  exact Option.isSome_iff_exists.1 hc.2

/-- On a string of accepted characters `fromChompTokens` looks every character up in
`IDNumbers`. -/
theorem fromChompTokens_accepted (t : List Char)
    (ht : ∀ c ∈ t, ∃ n, IDNumbersChar c = some n) :
    fromChompTokens t
      = t.map (fun c => match IDNumbersChar c with
          | some n => toByte n
          | none => 0) := by
  have hsp : ∀ c ∈ t, isSpace c = false := fun c hc => by
    obtain ⟨n, hn⟩ := ht c hc
    exact (accepted_facts c n hn).1
  unfold fromChompTokens
  simp only
  rw [TrimSpace_eq t hsp]
  unfold ToUpper
  rw [List.map_map]
  apply List.map_congr_left
  intro c hc
  obtain ⟨n, hn⟩ := ht c hc
  obtain ⟨h1, h2, h3, _⟩ := accepted_facts c n hn
  have hts : TrimSpace [c] = [c] := TrimSpace_eq [c] (by simp [h1])
  simp only [Function.comp, fromToken, h2, hts, ToUpper, List.map_cons, List.map_nil, IDNumbers,
    hn, h3]
  simp

/-- The chomps the decoders read from a string: the table values of the accepted characters,
in order. -/
theorem decode_symbols (s : List Char) :
    fromChompTokens (cleanID s)
      = ((ToUpper s).filter (fun c => (IDNumbersChar c).isSome)).map
          (fun c => match IDNumbersChar c with
            | some n => toByte n
            | none => 0) := by
  rw [fromChompTokens_accepted _ (cleanID_accepted s), cleanID_eq_filter]

theorem decode_symbols_lt (s : List Char) : ∀ x ∈ fromChompTokens (cleanID s), x < 32 := by
  rw [decode_symbols]
  intro x hx
  rw [List.mem_map] at hx
  obtain ⟨c, hc, hx⟩ := hx
  rw [List.mem_filter] at hc
  obtain ⟨n, hn⟩ := Option.isSome_iff_exists.1 hc.2
  obtain ⟨_, _, _, h0, h1⟩ := accepted_facts c n hn
  rw [hn] at hx
  simp only at hx
  rw [← hx]
  obtain ⟨k, hk⟩ := Int.eq_ofNat_of_zero_le h0
  subst hk
  rw [toByte_natCast k (by omega)]
  omega

theorem decode_symbols_length (s : List Char) :
    (fromChompTokens (cleanID s)).length = (cleanID s).length := by
  rw [fromChompTokens_accepted _ (cleanID_accepted s), List.length_map]

/-- Two non-empty strings from which the same chomps are read decode alike. -/
theorem decoders_congr (s1 s2 : List Char) (h1 : s1 ≠ []) (h2 : s2 ≠ [])
    (h : fromChompTokens (cleanID s1) = fromChompTokens (cleanID s2)) (fuel : Nat) (now : Int) :
    GetTimeAndServer fuel now (some s1) = GetTimeAndServer fuel now (some s2) ∧
    ParseIdDOBNameHash (some s1) = ParseIdDOBNameHash (some s2) := by
  rw [GetTimeAndServer_cons _ _ s1 h1, GetTimeAndServer_cons _ _ s2 h2,
    ParseIdDOBNameHash_cons s1 h1, ParseIdDOBNameHash_cons s2 h2, h]
  exact ⟨rfl, rfl⟩

/-- Deleting the characters that are not accepted leaves the filter loop's result unchanged. -/
theorem cleanID_filter (s : List Char) :
    cleanID (s.filter (fun c => (IDNumbersChar (toUpperRune c)).isSome)) = cleanID s := by
  rw [cleanID_eq_filter, cleanID_eq_filter]
  unfold ToUpper
  rw [List.filter_map, List.filter_map, List.filter_filter]
  congr 1
  apply List.filter_congr
  intro c _
  simp [Function.comp]

/-- A string with at least one accepted character decodes like the string without its other
characters. -/
theorem decode_filtered (s : List Char) (fuel : Nat) (now : Int)
    (hne : s.filter (fun c => (IDNumbersChar (toUpperRune c)).isSome) ≠ []) :
    GetTimeAndServer fuel now (some s)
      = GetTimeAndServer fuel now
          (some (s.filter (fun c => (IDNumbersChar (toUpperRune c)).isSome))) ∧
    ParseIdDOBNameHash (some s)
      = ParseIdDOBNameHash (some (s.filter (fun c => (IDNumbersChar (toUpperRune c)).isSome))) := by
  have hs : s ≠ [] := by
    intro h
    rw [h] at hne
    exact hne rfl
  exact decoders_congr s _ hs hne (by rw [cleanID_filter]) fuel now

/-- Upper-casing after lower-casing an ASCII character is upper-casing it. -/
theorem toUpper_toLower_ascii (c : Char) (h : c.toNat < 128) :
    toUpperRune (toLowerRune c) = toUpperRune c ∧ toUpperRune (toUpperRune c) = toUpperRune c := by
  have key : ∀ n : Nat, n < 128 →
      toUpperRune (toLowerRune (Char.ofNat n)) = toUpperRune (Char.ofNat n) ∧
      toUpperRune (toUpperRune (Char.ofNat n)) = toUpperRune (Char.ofNat n) := by
    decide
  have := key c.toNat h
  rwa [Char.ofNat_toNat] at this

/-- The filter loop agrees on the lower-case and the upper-case form of an ASCII string. -/
theorem cleanID_lower_upper (s : List Char) (h : ∀ c ∈ s, c.toNat < 128) :
    cleanID (ToLower s) = cleanID (ToUpper s) := by
  rw [cleanID_eq_filter, cleanID_eq_filter]
  congr 1
  unfold ToUpper ToLower
  rw [List.map_map, List.map_map]
  apply List.map_congr_left
  intro c hc
  obtain ⟨e1, e2⟩ := toUpper_toLower_ascii c (h c hc)
  simp only [Function.comp, e1, e2]

/-- The chomps read from a string in which one character is replaced by another with the same
table entry are the same. -/
theorem decode_symbols_replace (pre post : List Char) (c c2 : Char) (n : Int)
    (hc : IDNumbersChar (toUpperRune c) = some n) (hc2 : IDNumbersChar (toUpperRune c2) = some n) :
    fromChompTokens (cleanID (pre ++ c :: post)) = fromChompTokens (cleanID (pre ++ c2 :: post)) := by
  rw [decode_symbols, decode_symbols]
  unfold ToUpper
  simp only [List.map_append, List.map_cons, List.filter_append, List.filter_cons, hc, hc2,
    Option.isSome_some, if_true]

theorem deconfLoop_lt32 (p : Nat) (l : List Nat) (hp : p < 32) (hl : ∀ x ∈ l, x < 32) :
    ∀ x ∈ deconfLoop p l, x < 32 := by
  induction l generalizing p with
  | nil => intro x hx; cases hx
  | cons c rest ih =>
    have hc : c < 32 := hl c (by simp)
    intro x hx
    simp only [deconfLoop, List.mem_cons] at hx
    rcases hx with hx | hx
    · rw [hx]; exact xor_lt32 p c hp hc
    · exact ih c hc (fun y hy => hl y (by simp [hy])) x hx

/-- What `deconfusticate` returns has the length of its input and, on 5-bit chomps, 5-bit
chomps. -/
theorem deconfusticate_ok (src r : List Nat) (h : deconfusticate src = .ok r) :
    r.length = src.length ∧ ((∀ x ∈ src, x < 32) → ∀ y ∈ r, y < 32) := by
  match src, h with
  | first :: c :: rest, h =>
    simp only [deconfusticate] at h
    have hr := Except.ok.inj h
    subst hr
    refine ⟨by simp [deconfLoop_length], ?_⟩
    intro hlt y hy
    have hf : first < 32 := hlt first (by simp)
    have hget : ∀ i, (first :: c :: rest).getD i 0 < 32 := by
      intro i
      by_cases hi : i < (first :: c :: rest).length
      · rw [List.getD_eq_getElem _ _ hi]
        exact hlt _ (List.getElem_mem _)
      · rw [List.getD_eq_default _ _ (by omega)]
        omega
    rcases List.mem_cons.1 hy with hy | hy
    · rw [hy]
      exact xor_lt32 _ _ (xor_lt32 _ _ (hget _) (hget _)) hf
    · exact deconfLoop_lt32 first (c :: rest) hf (fun z hz => hlt z (by simp [hz])) y hy

/-- The number of at most twelve 5-bit chomps is below `2^60`. -/
theorem toNumber_lt (l : List Nat) (hl : ∀ x ∈ l, x < 32) (hlen : l.length ≤ 12) :
    ∃ n : Nat, toNumber l = (n : Int) ∧ n < 2 ^ 60 := by
  have hb : Nat.ofDigits 32 l.reverse < 32 ^ l.reverse.length :=
    Nat.ofDigits_lt_base_pow_length (by omega) (fun x hx => hl x (List.mem_reverse.1 hx))
  have hp : (32 : Nat) ^ l.reverse.length ≤ 32 ^ 12 :=
    Nat.pow_le_pow_right (by omega) (by simpa using hlen)
  have h60 : (32 : Nat) ^ 12 = 2 ^ 60 := by norm_num
  have h := toNumber_reverse l.reverse (fun x hx => hl x (List.mem_reverse.1 hx)) (by omega)
  rw [List.reverse_reverse] at h
  exact ⟨_, h, by omega⟩

/-- The name-hash component of `intToIDNameDOB` is the key shifted right by 48 bits: bits 48 to
63 of the key; it is the 12-bit field when the key has at most 60 bits. -/
theorem intToIDNameDOB_hash (key : Nat) (hk : key < 2 ^ 64) :
    (intToIDNameDOB key).2.1 = key >>> 48 ∧ key >>> 48 < 65536 ∧
    (key < 2 ^ 60 → key >>> 48 = (key >>> 48) &&& 0xfff ∧ key >>> 48 < 4096) := by
  unfold intToIDNameDOB
  simp only
  rw [Nat.shiftRight_eq_div_pow, Nat.shiftRight_eq_div_pow, Nat.shiftRight_eq_div_pow,
    and_mask _ 12 0xfff (by norm_num)]
  refine ⟨by omega, by omega, fun h60 => ⟨by omega, by omega⟩⟩

/-- The result of `ParseIdDOBNameHash` on a non-empty string from which chomps are read. -/
theorem parse_result (s : List Char) (hs : s ≠ []) (r : Int × Nat × Int × Int × Int)
    (h : ParseIdDOBNameHash (some s) = .ok r) :
    ∃ chompArray, deconfusticate (fromChompTokens (cleanID s)) = .ok chompArray ∧
      r = intToIDNameDOB (toU64 (toNumber chompArray)) ∧
      chompArray.length = (cleanID s).length ∧ ∀ x ∈ chompArray, x < 32 := by
  rw [ParseIdDOBNameHash_cons s hs] at h
  cases hd : deconfusticate (fromChompTokens (cleanID s)) with
  | error e => rw [hd] at h; cases h
  | ok ca =>
    rw [hd] at h
    obtain ⟨hl, hlt⟩ := deconfusticate_ok _ _ hd
    exact ⟨ca, rfl, (Except.ok.inj h).symm, by rw [hl, decode_symbols_length],
      hlt (decode_symbols_lt s)⟩

theorem toU64_lt (x : Int) : toU64 x < 2 ^ 64 := by
  unfold toU64
  omega

/-! ## Distinct inputs, distinct strings -/

/-- The composite string depends on the name only through its hash. -/
theorem CreateForIdNameDOB_hash_congr (id : Int) (n1 n2 : List Char) (y m d : Int)
    (h : toSixteenBitHash n1 = toSixteenBitHash n2) :
    CreateForIdNameDOB id n1 y m d = CreateForIdNameDOB id n2 y m d := by
  unfold CreateForIdNameDOB idNameDOBToInt
  simp only [h]

/-- For a non-negative id the composite strings of two names differ exactly when the hashes of
the names differ. -/
theorem composite_differ_iff (id : Nat) (n1 n2 : List Char) (y m d : Int) (hid : id < 2 ^ 31) :
    CreateForIdNameDOB (id : Int) n1 y m d ≠ CreateForIdNameDOB (id : Int) n2 y m d ↔
      toSixteenBitHash n1 ≠ toSixteenBitHash n2 := by
  constructor
  · intro hne hh
    exact hne (CreateForIdNameDOB_hash_congr _ n1 n2 y m d hh)
  · intro hh heq
    obtain ⟨s1, hs1, _, hp1⟩ := composite_nonneg id n1 y m d hid
    obtain ⟨s2, hs2, _, hp2⟩ := composite_nonneg id n2 y m d hid
    rw [hs1, hs2] at heq
    have hs : s1 = s2 := Except.ok.inj heq
    subst hs
    rcases hb : intToBirthdate ((toU64 (daysAfterBirthdateEpoch y m d) % 2 ^ 16 : Nat) : Int)
      with ⟨y2, m2, d2⟩
    have e1 := hp1 y2 m2 d2 hb
    have e2 := hp2 y2 m2 d2 hb
    rw [e1] at e2
    have e3 := Except.ok.inj e2
    simp only [Prod.mk.injEq, true_and, and_true] at e3
    exact hh e3

/-- The string of `CreateQuoteNumber` is read back as the chomps of the salted value. -/
theorem quote_number_decode (salt clock : Int) (timeCreated : Option Int) (hs0 : 0 ≤ salt)
    (hs1 : salt < 8) :
    ∃ n : Nat, (n : Int) = salt * 2 ^ 42 + GenerateTimeBits clock timeCreated ∧ n < 2 ^ 63 ∧
      ∃ s, CreateQuoteNumber salt clock timeCreated = .ok s ∧
        deconfusticate (fromChompTokens (cleanID s)) = .ok (toChomps (n : Int) 9) := by
  obtain ⟨hg0, hg1⟩ := GenerateTimeBits_range clock timeCreated
  obtain ⟨hsalt, _⟩ := unsalt_salt salt _ hg0 hg1 hs0 hs1
  obtain ⟨n, hn⟩ := Int.eq_ofNat_of_zero_le
    (show 0 ≤ salt * 2 ^ 42 + GenerateTimeBits clock timeCreated by omega)
  obtain ⟨o, ho, _, _, hdec⟩ := encode_decode_number n (by omega) 9 (by omega)
  rw [Nat.cast_ofNat] at ho hdec
  refine ⟨n, hn.symm, by omega, chompArrayToChompTokens o, ?_, hdec⟩
  unfold CreateQuoteNumber
  simp only [hsalt, hn, toChomps_zero_pad, ho]

/-- Quote numbers of instants within the range of a `Duration` after the epoch, whose tick
counts differ by less than `2^42`, are different strings, whatever the salts. -/
theorem quote_distinct (t1 t2 s1 s2 clock1 clock2 : Int)
    (h1 : Epoch ≤ t1) (h2 : Epoch ≤ t2) (h1' : t1 - Epoch < 2 ^ 63) (h2' : t2 - Epoch < 2 ^ 63)
    (hk : (t1 - Epoch) / 100000 ≠ (t2 - Epoch) / 100000)
    (hd1 : (t1 - Epoch) / 100000 - (t2 - Epoch) / 100000 < 2 ^ 42)
    (hd2 : (t2 - Epoch) / 100000 - (t1 - Epoch) / 100000 < 2 ^ 42)
    (hs10 : 0 ≤ s1) (hs11 : s1 < 8) (hs20 : 0 ≤ s2) (hs21 : s2 < 8) :
    CreateQuoteNumber s1 clock1 (some t1) ≠ CreateQuoteNumber s2 clock2 (some t2) := by
  intro heq
  obtain ⟨n1, hn1, hb1, x1, hx1, hdec1⟩ := quote_number_decode s1 clock1 (some t1) hs10 hs11
  obtain ⟨n2, hn2, hb2, x2, hx2, hdec2⟩ := quote_number_decode s2 clock2 (some t2) hs20 hs21
  rw [hx1, hx2] at heq
  have hx : x1 = x2 := Except.ok.inj heq
  subst hx
  rw [hdec1] at hdec2
  have hc : toChomps (n1 : Int) 9 = toChomps (n2 : Int) 9 := Except.ok.inj hdec2
  have hnum := congrArg toNumber hc
  rw [toNumber_toChomps n1 hb1, toNumber_toChomps n2 hb2] at hnum
  rw [GenerateTimeBits_of_ge clock1 t1 h1 h1'] at hn1
  rw [GenerateTimeBits_of_ge clock2 t2 h2 h2'] at hn2
  omega

/-! ## The name hash and the specified fingerprint -/

theorem specLetters_eq (name : List Char) : specLetters name = letterBuf name := by
  unfold specLetters letterBuf ToLower
  congr 1

theorem toLowerRune_letter (c : Char) (h : 'a'.toNat ≤ c.toNat ∧ c.toNat ≤ 'z'.toNat) :
    toLowerRune c = c := by
  have ha : 'a'.toNat = 97 := rfl
  have hz : 'z'.toNat = 122 := rfl
  have hA : 'A'.toNat = 65 := rfl
  have hZ : 'Z'.toNat = 90 := rfl
  rw [ha, hz] at h
  unfold toLowerRune
  rw [hA, hZ, if_neg (by omega), if_neg (by omega), if_neg (by omega)]

/-- The letters of a name are the letters of its letters. -/
theorem letterBuf_idem (name : List Char) :
    letterBuf ((ToLower name).filter
      (fun c => decide ('a'.toNat ≤ c.toNat ∧ c.toNat ≤ 'z'.toNat))) = letterBuf name := by
  unfold letterBuf
  congr 1
  have hmap : ToLower ((ToLower name).filter
      (fun c => decide ('a'.toNat ≤ c.toNat ∧ c.toNat ≤ 'z'.toNat)))
      = (ToLower name).filter (fun c => decide ('a'.toNat ≤ c.toNat ∧ c.toNat ≤ 'z'.toNat)) := by
    conv_lhs => unfold ToLower
    conv_rhs => rw [← List.map_id (List.filter _ (ToLower name))]
    apply List.map_congr_left
    intro c hc
    rw [List.mem_filter] at hc
    have := hc.2
    simp only [decide_eq_true_eq] at this
    rw [toLowerRune_letter c this]
    rfl
  rw [hmap, List.filter_filter]
  simp

theorem letterBuf_bytes (name : List Char) : ∀ b ∈ letterBuf name, 97 ≤ b ∧ b ≤ 122 := by
  intro b hb
  unfold letterBuf at hb
  rw [List.mem_map] at hb
  obtain ⟨c, hc, hcb⟩ := hb
  rw [List.mem_filter] at hc
  have h := hc.2
  simp only [decide_eq_true_eq] at h
  have ha : 'a'.toNat = 97 := rfl
  have hz : 'z'.toNat = 122 := rfl
  rw [ha, hz] at h
  omega

theorem growBuf_mem (fuel : Nat) (buf origBuf : List Nat) :
    ∀ b ∈ growBuf fuel buf origBuf, b ∈ buf ∨ b ∈ origBuf := by
  induction fuel generalizing buf with
  | zero => intro b hb; exact Or.inl hb
  | succ n ih =>
    intro b hb
    simp only [growBuf] at hb
    split at hb
    · rcases ih _ b hb with h | h
      · rcases List.mem_append.1 h with h | h
        · exact Or.inl h
        · exact Or.inr h
      · exact Or.inr h
    · exact Or.inl hb

/-- One load of the code and one step of the specified fill put the same bits in the frame. -/
theorem load_bits (b c frame : Nat) (hb0 : 97 ≤ b) (hb1 : b ≤ 122) (hc : c < 16) :
    ((((b + 256 - ignoreChars) % 256) &&& fiveBits) <<< c) % 2 ^ 32 ||| frame
      = frame ||| (((b - 97) &&& 0x1F) <<< c) ∧
    (padByte <<< c) % 2 ^ 32 ||| frame = frame ||| (21 <<< c) := by
  unfold ignoreChars fiveBits padByte
  have e1 : (b + 256 - 97) % 256 = b - 97 := by omega
  have hlt : (b - 97) &&& 0x1F < 32 := by
    rw [and_mask _ 5 0x1F (by norm_num)]
    exact Nat.mod_lt _ (by norm_num)
  have hpow : 2 ^ c ≤ 2 ^ 15 := Nat.pow_le_pow_right (by omega) (by omega)
  have hm : ∀ x : Nat, x < 32 → (x <<< c) % 2 ^ 32 = x <<< c := by
    intro x hx
    apply Nat.mod_eq_of_lt
    rw [Nat.shiftLeft_eq]
    calc x * 2 ^ c ≤ 31 * 2 ^ 15 := Nat.mul_le_mul (by omega) hpow
      _ < 2 ^ 32 := by norm_num
  rw [e1]
  show ((b - 97) &&& 0x1F) <<< c % 2 ^ 32 ||| frame = _ ∧ _
  rw [hm _ hlt, hm 21 (by omega)]
  exact ⟨Nat.lor_comm _ _, Nat.lor_comm _ _⟩

theorem loadFrame_eq_specFill (buf : List Nat) (hbuf : ∀ b ∈ buf, 97 ≤ b ∧ b ≤ 122)
    (fuel : Nat) (st : Nat × Nat × Nat) :
    loadFrame fuel buf st = specFill fuel buf st := by
  induction fuel generalizing st with
  | zero => rfl
  | succ n ih =>
    obtain ⟨p, f, c⟩ := st
    simp only [loadFrame, specFill]
    by_cases hc : c < 16
    · rw [if_pos hc, if_pos hc]
      by_cases hp : p < buf.length
      · simp only [if_pos hp]
        have hb := hbuf (buf.getD p 0) (by
          rw [List.getD_eq_getElem _ _ hp]
          exact List.getElem_mem _)
        rw [(load_bits (buf.getD p 0) c f hb.1 hb.2 hc).1]
        exact ih _
      · simp only [if_neg hp]
        rw [(load_bits 97 c f (by omega) (by omega) hc).2]
        exact ih _
    · rw [if_neg hc, if_neg hc]

theorem hashLoop_eq_specRounds (buf : List Nat) (hbuf : ∀ b ∈ buf, 97 ≤ b ∧ b ≤ 122)
    (fuel : Nat) (st : Nat × Nat × Nat × Nat) :
    hashLoop fuel buf st = specRounds fuel buf st := by
  induction fuel generalizing st with
  | zero => rfl
  | succ n ih =>
    obtain ⟨p, f, c, h⟩ := st
    simp only [hashLoop, specRounds]
    by_cases hp : p < buf.length - 1
    · rw [if_pos hp, if_pos (by omega)]
      rw [loadFrame_eq_specFill buf hbuf]
      generalize specFill 4 buf (p, f, c) = filled
      obtain ⟨p2, f2, c2⟩ := filled
      simp only
      exact ih _
    · rw [if_neg hp, if_neg (by omega)]

/-- The buffer the code hashes: the letters, repeated until there are at least six bytes. -/
theorem growBuf_replicate (buf : List Nat) (h : 1 ≤ buf.length) :
    growBuf 6 buf buf = (List.replicate ((buf.length + 5) / buf.length) buf).flatten := by
  by_cases h6 : 6 ≤ buf.length
  · have e : (buf.length + 5) / buf.length = 1 :=
      Nat.div_eq_of_lt_le (by omega) (by omega)
    rw [e]
    simp only [growBuf]
    rw [if_neg (by omega)]
    simp
  · have hcases : buf.length = 1 ∨ buf.length = 2 ∨ buf.length = 3 ∨ buf.length = 4 ∨
        buf.length = 5 := by omega
    rcases hcases with hl | hl | hl | hl | hl <;>
      simp [growBuf, hl, List.replicate, List.append_assoc]

/-- The code's hash is the specified algorithm run on the letters repeated to at least six
bytes, the frame starting as the number of letters modulo 4. -/
theorem hash_eq_spec_on_repeated (name : List Char) :
    toSixteenBitHash name =
      if (specLetters name).length = 0 then 0
      else specFingerprintFrom ((specLetters name).length % 4)
        (List.replicate (((specLetters name).length + 5) / (specLetters name).length)
          (specLetters name)).flatten := by
  rw [specLetters_eq]
  unfold toSixteenBitHash
  simp only
  by_cases h0 : (letterBuf name).length = 0
  · rw [if_pos h0, if_pos h0]
  · rw [if_neg h0, if_neg h0, ← growBuf_replicate _ (by omega)]
    unfold specFingerprintFrom
    rw [hashLoop_eq_specRounds]
    intro b hb
    rcases growBuf_mem 6 _ _ b hb with h | h <;> exact letterBuf_bytes name b h

/-- Names with at least six letters (or none) get the specified fingerprint. -/
theorem hash_eq_spec_of_long (name : List Char)
    (h : 6 ≤ (specLetters name).length ∨ (specLetters name).length = 0) :
    toSixteenBitHash name = specFingerprint name := by
  rw [hash_eq_spec_on_repeated]
  unfold specFingerprint
  simp only
  rcases h with h | h
  · have e : ((specLetters name).length + 5) / (specLetters name).length = 1 :=
      Nat.div_eq_of_lt_le (by omega) (by omega)
    rw [e]
    simp
  · rw [if_pos h, if_pos h]

/-! ## Power -/

/-- What `wrap64` gives is the `int64` congruent to its argument modulo `2^64`. -/
theorem wrap64_spec (x : Int) :
    -(2 ^ 63) ≤ wrap64 x ∧ wrap64 x < 2 ^ 63 ∧ wrap64 x % 2 ^ 64 = x % 2 ^ 64 := by
  unfold wrap64 toI64 toU64
  have h : ((x % 2 ^ 64).toNat : Int) = x % 2 ^ 64 := Int.toNat_of_nonneg (by omega)
  have hm : (x % 2 ^ 64).toNat % 2 ^ 64 = (x % 2 ^ 64).toNat := Nat.mod_eq_of_lt (by omega)
  rw [hm]
  split <;> omega

theorem wrap64_congr (a b : Int) (h : a % 2 ^ 64 = b % 2 ^ 64) : wrap64 a = wrap64 b := by
  unfold wrap64 toU64
  rw [h]

theorem wrap64_id (x : Int) (h0 : -(2 ^ 63) ≤ x) (h1 : x < 2 ^ 63) : wrap64 x = x := by
  obtain ⟨r0, r1, r2⟩ := wrap64_spec x
  omega

/-- With one nested call more than the exponent has bits, `Power` returns `x^n` wrapped to 64
bits. -/
theorem PowerFuel_eq (fuel : Nat) : ∀ (n : Nat) (x : Int), n < 2 ^ fuel → n < 2 ^ 31 →
    -(2 ^ 63) ≤ x → x < 2 ^ 63 → PowerFuel (fuel + 1) x (n : Int) = .ok (wrap64 (x ^ n)) := by
  induction fuel with
  | zero =>
    intro n x hn _ _ _
    have h0 : n = 0 := by omega
    subst h0
    simp only [PowerFuel, Nat.cast_zero, if_true, pow_zero]
    rw [wrap64_id 1 (by omega) (by omega)]
  | succ f ih =>
    intro n x hn h31 hx0 hx1
    unfold PowerFuel
    by_cases h0 : n = 0
    · subst h0
      simp only [Nat.cast_zero, if_true, pow_zero]
      rw [wrap64_id 1 (by omega) (by omega)]
    by_cases h1 : n = 1
    · subst h1
      simp only [Nat.cast_one, one_ne_zero, if_false, if_true, pow_one]
      rw [wrap64_id x hx0 hx1]
    rw [if_neg (by omega), if_neg (by omega)]
    have hsq := wrap64_spec (x * x)
    have hpow : (wrap64 (x * x)) ^ (n / 2) % 2 ^ 64 = (x * x) ^ (n / 2) % 2 ^ 64 :=
      Int.ModEq.pow (n / 2) hsq.2.2
    have hhalf : n / 2 < 2 ^ f := by
      rw [Nat.pow_succ] at hn
      omega
    have hrec := ih (n / 2) (wrap64 (x * x)) hhalf (by omega) hsq.1 hsq.2.1
    by_cases hev : n % 2 = 0
    · have e1 : Int.tmod (n : Int) 2 = 0 := by
        rw [Int.tmod_eq_emod (by omega) (by omega)]
        omega
      have e2 : wrap32 (Int.tdiv (n : Int) 2) = ((n / 2 : Nat) : Int) := by
        rw [Int.tdiv_eq_ediv (by omega) (by omega), wrap32_of_nonneg _ (by omega) (by omega)]
        omega
      simp only [e1, if_true, e2]
      rw [hrec]
      have h2 : 2 * (n / 2) = n := by omega
      have key : wrap64 (wrap64 (x * x) ^ (n / 2)) = wrap64 (x ^ n) := by
        apply wrap64_congr
        rw [hpow, ← pow_two, ← pow_mul, h2]
      rw [key]
    · have e1 : ¬ Int.tmod (n : Int) 2 = 0 := by
        rw [Int.tmod_eq_emod (by omega) (by omega)]
        omega
      have e2 : wrap32 (Int.tdiv ((n : Int) - 1) 2) = ((n / 2 : Nat) : Int) := by
        rw [Int.tdiv_eq_ediv (by omega) (by omega), wrap32_of_nonneg _ (by omega) (by omega)]
        omega
      simp only [e1, if_false, e2]
      rw [hrec]
      simp only
      have h2 : 2 * (n / 2) + 1 = n := by omega
      have hw := wrap64_spec (wrap64 (x * x) ^ (n / 2))
      have step : (x * wrap64 (wrap64 (x * x) ^ (n / 2))) % 2 ^ 64
          = (x * (x * x) ^ (n / 2)) % 2 ^ 64 :=
        Int.ModEq.mul_left x (hw.2.2.trans hpow)
      have key : wrap64 (x * wrap64 (wrap64 (x * x) ^ (n / 2))) = wrap64 (x ^ n) := by
        apply wrap64_congr
        rw [step, ← pow_two, ← pow_mul, ← pow_succ', h2]
      rw [key]

theorem Power_eq (x : Int) (n : Nat) (hn : n < 2 ^ 31) (hx0 : -(2 ^ 63) ≤ x) (hx1 : x < 2 ^ 63) :
    Power x (n : Int) = .ok (wrap64 (x ^ n)) :=
  PowerFuel_eq 31 n x hn hn hx0 hx1

/-! ## Diffusion of the last input symbol -/

theorem xor_byte_lt (a b : Nat) (ha : a < 256) (hb : b < 256) : a ^^^ b < 256 :=
  @Nat.xor_lt_two_pow a b 8 ha hb

theorem getD_append_last (l : List Nat) (a : Nat) :
    (l ++ [a]).getD ((l ++ [a]).length - 1) 0 = a := by
  simp [List.getD_eq_getElem?_getD]

/-- Starting the chain from a value changed by `delta` changes every output by `delta`. -/
theorem confLoop_shift (l : List Nat) (p delta : Nat) (hp : p < 256) (hd : delta < 256)
    (hl : ∀ x ∈ l, x < 256) :
    confLoop (p ^^^ delta) l = (confLoop p l).map (fun x => x ^^^ delta) := by
  induction l generalizing p with
  | nil => rfl
  | cons c rest ih =>
    have hc : c < 256 := hl c (by simp)
    have hpd : p ^^^ delta < 256 := xor_byte_lt p delta hp hd
    have e : xor (p ^^^ delta) c = xor p c ^^^ delta := by
      rw [xor_eq _ _ hpd hc, xor_eq _ _ hp hc, Nat.xor_assoc, Nat.xor_comm delta c,
        ← Nat.xor_assoc]
    simp only [confLoop, List.map_cons]
    rw [e, ih (xor p c) (xor_lt p c) (fun y hy => hl y (by simp [hy]))]

/-- The chain over a list with one more symbol at its end. -/
theorem confLoop_append (l : List Nat) (p a : Nat) :
    confLoop p (l ++ [a]) = confLoop p l ++ [xor (l.foldl xor p) a] := by
  induction l generalizing p with
  | nil => rfl
  | cons c rest ih =>
    show xor p c :: confLoop (xor p c) (rest ++ [a]) = _
    rw [ih (xor p c)]
    rfl

theorem foldl_xor_lt (l : List Nat) (p : Nat) (hp : p < 256) : l.foldl xor p < 256 := by
  induction l generalizing p with
  | nil => exact hp
  | cons c rest ih => exact ih (xor p c) (xor_lt p c)

theorem foldl_xor_shift (l : List Nat) (p delta : Nat) (hp : p < 256) (hd : delta < 256)
    (hl : ∀ x ∈ l, x < 256) :
    l.foldl xor (p ^^^ delta) = l.foldl xor p ^^^ delta := by
  induction l generalizing p with
  | nil => rfl
  | cons c rest ih =>
    have hc : c < 256 := hl c (by simp)
    have hpd : p ^^^ delta < 256 := xor_byte_lt p delta hp hd
    have e : xor (p ^^^ delta) c = xor p c ^^^ delta := by
      rw [xor_eq _ _ hpd hc, xor_eq _ _ hp hc, Nat.xor_assoc, Nat.xor_comm delta c,
        ← Nat.xor_assoc]
    simp only [List.foldl_cons]
    rw [e, ih (xor p c) (xor_lt p c) (fun y hy => hl y (by simp [hy]))]

/-- What `confusticate` returns for a list of two or more bytes, split into the outputs up to
the last but one and the last output; the last one does not depend on the last input. -/
theorem confusticate_append (first : Nat) (mid : List Nat) (a : Nat) (hf : first < 256)
    (hm : ∀ x ∈ mid, x < 256) (ha : a < 256) :
    confusticate (first :: mid ++ [a])
      = .ok ((xor first a :: confLoop (xor first a) mid) ++ [mid.foldl xor first]) := by
  have hlast : (first :: (mid ++ [a])).getD ((first :: (mid ++ [a])).length - 1) 0 = a := by
    exact getD_append_last (first :: mid) a
  have e0 : first :: mid ++ [a] = first :: (mid ++ [a]) := rfl
  rw [e0]
  simp only [confusticate]
  rw [hlast, confLoop_append]
  have hfa : xor first a = first ^^^ a := xor_eq first a hf ha
  have hfold := foldl_xor_shift mid first a hf ha hm
  have hz : xor (mid.foldl xor (xor first a)) a = mid.foldl xor first := by
    rw [hfa, hfold, xor_eq _ _ (xor_byte_lt _ a (foldl_xor_lt mid first hf) ha) ha,
      Nat.xor_assoc, Nat.xor_self, Nat.xor_zero]
  rw [hz]
  rfl

/-! ## The clock windows of `TimeFromBits` -/

/-- The instant `TimeFromBits` returns when the clock reading lies in the `k`-th window of
`2^42` ticks after the instant of the bits (for `k = 0`: anywhere before the end of the
window), as long as `100000 * bits` stays in the `int64` range. -/
theorem TimeFromBits_window (k : Nat) : ∀ (fuel : Nat) (now bits : Int), 0 ≤ bits →
    bits + k * 2 ^ 42 < 2 ^ 46 →
    (1 ≤ k → Epoch + (bits + k * 2 ^ 42) * 100000 ≤ now) →
    now < Epoch + (bits + k * 2 ^ 42) * 100000 + 2 ^ 42 * 100000 →
    TimeFromBits (fuel + k + 1) now bits
      = .ok (some (Epoch + (bits + k * 2 ^ 42) * 100000)) := by
  induction k with
  | zero =>
    intro fuel now bits h0 h1 _ hhi
    simp only [Nat.cast_zero, zero_mul, add_zero] at h1 hhi ⊢
    exact TimeFromBits_first fuel now bits h0 h1 hhi
  | succ j ih =>
    intro fuel now bits h0 h1 hlo hhi
    have hl := hlo (by omega)
    push_cast at h1 hl hhi ⊢
    have e : fuel + (j + 1) + 1 = (fuel + j + 1) + 1 := by omega
    rw [e, TimeFromBits_next (fuel + j + 1) now bits h0 (by omega) (by omega)]
    have hrec := ih fuel now (bits + 2 ^ 42) (by omega) (by omega) (fun _ => by omega) (by omega)
    rw [hrec]
    congr 2
    omega

/-! ## Decoding strings with two or more accepted characters -/

theorem deconfusticate_of_length (src : List Nat) (h : 2 ≤ src.length) :
    ∃ r, deconfusticate src = .ok r := by
  match src, h with
  | first :: c :: rest, _ => exact ⟨_, rfl⟩

theorem ne_nil_of_cleanID (s : List Char) (h : 1 ≤ (cleanID s).length) : s ≠ [] := by
  intro hs
  subst hs
  simp [cleanID] at h

/-- With two or more accepted characters `ParseIdDOBNameHash` returns a decoded value. -/
theorem ParseIdDOBNameHash_returns (s : List Char) (h : 2 ≤ (cleanID s).length) :
    ∃ r, ParseIdDOBNameHash (some s) = .ok r := by
  obtain ⟨r, hr⟩ := deconfusticate_of_length (fromChompTokens (cleanID s))
    (by rw [decode_symbols_length]; exact h)
  rw [ParseIdDOBNameHash_cons s (ne_nil_of_cleanID s (by omega)), hr]
  exact ⟨_, rfl⟩

/-- With two to twelve accepted characters `GetTimeAndServer` runs `TimeFromBits` on a number
of ticks from 0 up to but not including `2^42`. -/
theorem decode_bits (s : List Char) (h2 : 2 ≤ (cleanID s).length)
    (h12 : (cleanID s).length ≤ 12) :
    ∃ bits : Int, 0 ≤ bits ∧ bits < 2 ^ 42 ∧
      ∀ (fuel : Nat) (now : Int),
        GetTimeAndServer fuel now (some s) = TimeFromBits fuel now bits := by
  obtain ⟨r, hr⟩ := deconfusticate_of_length (fromChompTokens (cleanID s))
    (by rw [decode_symbols_length]; exact h2)
  obtain ⟨hlen, hlt⟩ := deconfusticate_ok _ _ hr
  obtain ⟨n, hn, hn60⟩ := toNumber_lt r (hlt (decode_symbols_lt s))
    (by rw [hlen, decode_symbols_length]; exact h12)
  refine ⟨UnsaltToTimestampBits (toNumber r), ?_, ?_, ?_⟩
  · unfold UnsaltToTimestampBits
    rw [timestampUpperBound_eq, hn, Int.tmod_eq_emod (by omega) (by omega)]
    omega
  · unfold UnsaltToTimestampBits
    rw [timestampUpperBound_eq, hn, Int.tmod_eq_emod (by omega) (by omega)]
    omega
  · intro fuel now
    rw [GetTimeAndServer_cons fuel now s (ne_nil_of_cleanID s (by omega)), hr]

/-! ## Birth dates on or before the birth-date epoch -/

theorem days_clamped (y m d : Int) (h : Date y m d 12 ≤ birthdateEpoch) :
    daysAfterBirthdateEpoch y m d = 0 := by
  unfold daysAfterBirthdateEpoch
  simp only
  rw [if_pos (by omega)]

theorem CreateForIdNameDOB_clamped (id : Int) (name : List Char) (y m d : Int)
    (h : Date y m d 12 ≤ birthdateEpoch) :
    CreateForIdNameDOB id name y m d = CreateForIdNameDOB id name 1910 1 1 := by
  have e : daysAfterBirthdateEpoch 1910 1 1 = 0 := days_clamped 1910 1 1 (le_of_eq rfl)
  unfold CreateForIdNameDOB idNameDOBToInt
  simp only
  rw [days_clamped y m d h, e]

/-! ## Validity -/

/-- The byte length of an ASCII string is its number of characters. -/
theorem byteLen_ascii (q : List Char) (h : ∀ c ∈ q, c.toNat < 128) : byteLen q = q.length := by
  induction q with
  | nil => rfl
  | cons c rest ih =>
    have hc : c.toNat < 128 := h c (by simp)
    have h1 : c.utf8Size = 1 := by
      unfold Char.utf8Size
      have hv : c.val ≤ 127 := by
        rw [UInt32.le_def]
        show c.val.toNat ≤ 127
        have : c.val.toNat = c.toNat := rfl
        omega
      exact if_pos hv
    have ih2 := ih (fun x hx => h x (by simp [hx]))
    unfold byteLen at ih2 ⊢
    simp only [List.map_cons, List.sum_cons, List.length_cons, h1, ih2]
    omega

theorem IsValid_iff (s : Option (List Char)) :
    IsValid s = true ↔ ∃ q, s = some q ∧ 8 ≤ byteLen q ∧ byteLen q ≤ 15 := by
  cases s with
  | none => simp [IsValid]
  | some q =>
    unfold IsValid MaxLegalQuoteNumberLength MinLegalQuoteNumberLength
    simp only [Option.some.injEq, exists_eq_left']
    by_cases h1 : byteLen q > 15
    · simp only [h1, if_true]
      constructor
      · intro h; cases h
      · intro h; omega
    · by_cases h2 : byteLen q < 8
      · simp only [h1, h2, if_true, if_false]
        constructor
        · intro h; cases h
        · intro h; omega
      · simp only [h1, h2, if_false]
        constructor
        · intro _; omega
        · intro _; trivial

/-! ## Web and PC birth dates -/

theorem splitDash_piece (a : List Char) (h : '-' ∉ a) : splitDash a = [a] := by
  induction a with
  | nil => rfl
  | cons c cs ih =>
    have hc : c ≠ '-' := fun e => h (by simp [e])
    have hcs : '-' ∉ cs := fun e => h (by simp [e])
    simp only [splitDash, if_neg hc, ih hcs]

theorem splitDash_append (a rest : List Char) (h : '-' ∉ a) :
    splitDash (a ++ '-' :: rest) = a :: splitDash rest := by
  induction a with
  | nil => simp [splitDash]
  | cons c cs ih =>
    have hc : c ≠ '-' := fun e => h (by simp [e])
    have hcs : '-' ∉ cs := fun e => h (by simp [e])
    show splitDash (c :: (cs ++ '-' :: rest)) = _
    simp only [splitDash, if_neg hc, ih hcs]

/-- On three dash-free pieces of 2, 2 and 4 bytes joined by dashes the function returns the
third piece, the second and the first, joined by slashes. -/
theorem Strconv_pieces (a b c : List Char) (ha : '-' ∉ a) (hb : '-' ∉ b) (hc : '-' ∉ c)
    (la : byteLen a = 2) (lb : byteLen b = 2) (lc : byteLen c = 4) :
    StrconvWebDateOfBirthToPCDateOfBirth (a ++ '-' :: (b ++ '-' :: c))
      = .ok (c ++ '/' :: (b ++ '/' :: a)) := by
  have hne : a ++ '-' :: (b ++ '-' :: c) ≠ [] := by simp
  unfold StrconvWebDateOfBirthToPCDateOfBirth
  rw [if_neg hne, splitDash_append a _ ha, splitDash_append b _ hb, splitDash_piece c hc]
  simp only [la, lb, lc, ne_eq, not_true_eq_false, if_false]
  simp

/-- With exactly one accepted character both decoders panic. -/
theorem decoders_panic_of_one (s : List Char) (h : (cleanID s).length = 1) (fuel : Nat)
    (now : Int) :
    GetTimeAndServer fuel now (some s) = .error .panic ∧
    ParseIdDOBNameHash (some s) = .error .panic := by
  have hl : (fromChompTokens (cleanID s)).length = 1 := by rw [decode_symbols_length, h]
  obtain ⟨x, hx⟩ := List.length_eq_one.1 hl
  have hne := ne_nil_of_cleanID s (by omega)
  rw [GetTimeAndServer_cons fuel now s hne, ParseIdDOBNameHash_cons s hne, hx]
  exact ⟨rfl, rfl⟩

/-! ## The time bits of any instant -/

theorem and64_FilterBits_int (x : Int) :
    and64 x FilterBits = x % 2 ^ 43 := by
  unfold and64
  have hf : toU64 FilterBits = 2 ^ 43 - 1 := by decide
  rw [hf, Nat.and_pow_two_sub_one_eq_mod]
  have hlt : toU64 x % 2 ^ 43 < 2 ^ 63 := by omega
  rw [toI64_of_lt _ hlt]
  unfold toU64
  omega

/-- The time bits of an instant within the range of a `Duration` around the epoch: the tick
count, rounded toward zero, modulo `2^43`. -/
theorem GenerateTimeBits_eq (clock t : Int) (h0 : -(2 ^ 63) ≤ t - Epoch)
    (h1 : t - Epoch ≤ 2 ^ 63 - 1) :
    GenerateTimeBits clock (some t) = Int.tdiv (t - Epoch) 100000 % 2 ^ 43 := by
  unfold GenerateTimeBits
  simp only [Sub]
  rw [if_neg (by omega), if_neg (by omega)]
  rw [and64_FilterBits_int]

/-! ## The rounds of `TimeFromBits` -/

/-- A round of the loop that returns: the duration fits an `int64` and the second instant is
after the clock reading. -/
theorem TimeFromBits_return (fuel : Nat) (now bits : Int) (h0 : 0 ≤ bits)
    (h1 : 100000 * bits < 2 ^ 63)
    (hnow : now < Epoch + bits * 100000 + 2 ^ 42 * 100000) :
    TimeFromBits (fuel + 1) now bits = .ok (some (Epoch + bits * 100000)) := by
  unfold TimeFromBits
  simp only [timestampUpperBound_eq, Add, one_mul]
  rw [wrap64_of_nonneg (100000 * bits) (by omega) (by omega)]
  rw [wrap64_of_nonneg (100000 * bits) (by omega) (by omega)]
  rw [wrap64_of_nonneg (100000 * 4398046511104) (by omega) (by omega)]
  rw [wrap64_of_nonneg (100000 * 4398046511104) (by omega) (by omega)]
  rw [if_pos (by omega)]
  congr 2
  omega

/-- A round of the loop that goes on: the second instant is not after the clock reading. -/
theorem TimeFromBits_continue (fuel : Nat) (now bits : Int) (h0 : 0 ≤ bits)
    (h1 : 100000 * bits < 2 ^ 63)
    (hnow : Epoch + bits * 100000 + 2 ^ 42 * 100000 ≤ now) :
    TimeFromBits (fuel + 1) now bits = TimeFromBits fuel now (bits + 2 ^ 42) := by
  conv_lhs => unfold TimeFromBits
  simp only [timestampUpperBound_eq, Add, one_mul]
  rw [wrap64_of_nonneg (100000 * bits) (by omega) (by omega)]
  rw [wrap64_of_nonneg (100000 * bits) (by omega) (by omega)]
  rw [wrap64_of_nonneg (100000 * 4398046511104) (by omega) (by omega)]
  rw [wrap64_of_nonneg (100000 * 4398046511104) (by omega) (by omega)]
  rw [wrap64_of_nonneg (bits + 4398046511104) (by omega) (by omega)]
  rw [if_neg (by omega)]
  norm_num

/-- The loop returns in round `k` (counted from 0) when the clock reading lies in the `k`-th
window after the instant of the bits and the duration of that round fits an `int64`. -/
theorem TimeFromBits_rounds (k : Nat) : ∀ (fuel : Nat) (now bits : Int), 0 ≤ bits →
    100000 * (bits + k * 2 ^ 42) < 2 ^ 63 →
    (1 ≤ k → Epoch + (bits + k * 2 ^ 42) * 100000 ≤ now) →
    now < Epoch + (bits + k * 2 ^ 42) * 100000 + 2 ^ 42 * 100000 →
    TimeFromBits (fuel + k + 1) now bits
      = .ok (some (Epoch + (bits + k * 2 ^ 42) * 100000)) := by
  induction k with
  | zero =>
    intro fuel now bits h0 h1 _ hhi
    simp only [Nat.cast_zero, zero_mul, add_zero] at h1 hhi ⊢
    exact TimeFromBits_return fuel now bits h0 h1 hhi
  | succ j ih =>
    intro fuel now bits h0 h1 hlo hhi
    have hl := hlo (by omega)
    push_cast at h1 hl hhi ⊢
    have e : fuel + (j + 1) + 1 = (fuel + j + 1) + 1 := by omega
    rw [e, TimeFromBits_continue (fuel + j + 1) now bits h0 (by omega) (by omega)]
    have hrec := ih fuel now (bits + 2 ^ 42) (by omega) (by omega) (fun _ => by omega) (by omega)
    rw [hrec]
    congr 2
    omega

/-- When the clock reads `2^63` ns plus `2^42` ticks after the epoch or later, no round
returns: the second instant of a round is at most `2^63 - 1` ns plus `2^42` ticks after the
epoch. -/
theorem TimeFromBits_never (fuel : Nat) : ∀ (now bits : Int),
    Epoch + 2 ^ 63 + 2 ^ 42 * 100000 ≤ now → TimeFromBits fuel now bits = .error .fuel := by
  induction fuel with
  | zero => intro now bits _; rfl
  | succ f ih =>
    intro now bits h
    unfold TimeFromBits
    simp only [timestampUpperBound_eq, Add, one_mul]
    rw [wrap64_of_nonneg (100000 * 4398046511104) (by omega) (by omega)]
    rw [wrap64_of_nonneg (100000 * 4398046511104) (by omega) (by omega)]
    obtain ⟨_, r1, _⟩ := wrap64_spec (wrap64 (100000 * bits))
    rw [if_neg (by omega)]
    exact ih now _ h

/-- One round of the loop of `TimeFromBits`, with the constants evaluated. -/
theorem TimeFromBits_succ (fuel : Nat) (now bits : Int) :
    TimeFromBits (fuel + 1) now bits
      = if Epoch + wrap64 (100000 * bits) + 439804651110400000 > now then
          .ok (some (Epoch + wrap64 (100000 * bits)))
        else TimeFromBits fuel now (wrap64 (bits + 4398046511104)) := by
  conv_lhs => unfold TimeFromBits
  have e : wrap64 (wrap64 (100000 * bits)) = wrap64 (100000 * bits) :=
    wrap64_id _ (wrap64_spec _).1 (wrap64_spec _).2.1
  have e2 : wrap64 (wrap64 (100000 * 4398046511104)) = 439804651110400000 := by decide
  simp only [timestampUpperBound_eq, Add, one_mul, e, e2]

/-- If some later round would see its second instant after the clock reading, the loop returns
in that round at the latest. -/
theorem TimeFromBits_hit (j : Nat) : ∀ (fuel : Nat) (now bits : Int),
    now < Epoch + wrap64 (100000 * (bits + j * 2 ^ 42)) + 2 ^ 42 * 100000 →
    ∃ t, TimeFromBits (fuel + j + 1) now bits = .ok (some t) := by
  induction j with
  | zero =>
    intro fuel now bits h
    simp only [Nat.cast_zero, zero_mul, add_zero] at h
    rw [TimeFromBits_succ, if_pos (by omega)]
    exact ⟨_, rfl⟩
  | succ i ih =>
    intro fuel now bits h
    have e : fuel + (i + 1) + 1 = (fuel + i + 1) + 1 := by omega
    rw [e, TimeFromBits_succ]
    split
    · exact ⟨_, rfl⟩
    · apply ih fuel now (wrap64 (bits + 4398046511104))
      have hc : wrap64 (100000 * (wrap64 (bits + 4398046511104) + (i : Int) * 2 ^ 42))
          = wrap64 (100000 * (bits + ((i + 1 : Nat) : Int) * 2 ^ 42)) := by
        apply wrap64_congr
        have hw := (wrap64_spec (bits + 4398046511104)).2.2
        push_cast
        omega
      rw [hc]
      exact h

/-- Some round among the first `2^17` has a duration of at least `2^63 - 2^47` ns: the
durations of the rounds go through all the multiples of `2^47` ns, plus a constant
(`100000 * 2^42 = 3125 * 2^47`, and 3125 is invertible modulo `2^17`). -/
theorem TimeFromBits_large_round (bits : Int) :
    ∃ j : Nat, j < 2 ^ 17 ∧ 2 ^ 63 - 2 ^ 47 ≤ wrap64 (100000 * (bits + j * 2 ^ 42)) := by
  obtain ⟨K1, R, hR0, hR1, hK1⟩ : ∃ K1 R : Int, 0 ≤ R ∧ R < 2 ^ 64 ∧
      100000 * bits = 2 ^ 64 * K1 + R :=
    ⟨100000 * bits / 2 ^ 64, 100000 * bits % 2 ^ 64, by omega, by omega, by omega⟩
  obtain ⟨q, r0, hq0, hq1, hr0, hr1, hq⟩ : ∃ q r0 : Int, 0 ≤ q ∧ q < 2 ^ 17 ∧ 0 ≤ r0 ∧
      r0 < 2 ^ 47 ∧ R = 2 ^ 47 * q + r0 :=
    ⟨R / 2 ^ 47, R % 2 ^ 47, by omega, by omega, by omega, by omega, by omega⟩
  obtain ⟨m, j, hj0, hj1, hm⟩ : ∃ m j : Int, 0 ≤ j ∧ j < 2 ^ 17 ∧
      (65535 - q) * 124445 = 2 ^ 17 * m + j :=
    ⟨(65535 - q) * 124445 / 2 ^ 17, (65535 - q) * 124445 % 2 ^ 17, by omega, by omega,
      by omega⟩
  obtain ⟨n, hn⟩ := Int.eq_ofNat_of_zero_le hj0
  subst hn
  refine ⟨n, by omega, ?_⟩
  have hX : 100000 * (bits + (n : Int) * 2 ^ 42)
      = 2 ^ 64 * (K1 + 2967 * (65535 - q) - 3125 * m) + (65535 * 2 ^ 47 + r0) := by
    omega
  obtain ⟨w0, w1, w2⟩ := wrap64_spec (100000 * (bits + (n : Int) * 2 ^ 42))
  generalize wrap64 (100000 * (bits + (n : Int) * 2 ^ 42)) = w at w0 w1 w2 ⊢
  rw [hX, Int.add_comm, Int.add_mul_emod_self_left] at w2
  have e3 : (65535 * 2 ^ 47 + r0) % 2 ^ 64 = 65535 * 2 ^ 47 + r0 :=
    Int.emod_eq_of_lt (by omega) (by omega)
  rw [e3] at w2
  clear hX hK1 hq hm e3
  omega

/-! ## `confusticate` after `deconfusticate` -/

theorem confLoop_deconfLoop (p : Nat) (l : List Nat) (hp : p < 256) (hl : ∀ x ∈ l, x < 256) :
    confLoop p (deconfLoop p l) = l := by
  induction l generalizing p with
  | nil => rfl
  | cons c rest ih =>
    have hc : c < 256 := hl c (by simp)
    simp only [deconfLoop, confLoop]
    rw [xor_cancel_left p c hp hc, ih c hc (fun y hy => hl y (by simp [hy]))]

/-- The last output of the loop of `deconfusticate` is the xor of the last two inputs. -/
theorem deconfLoop_last (p : Nat) (l : List Nat) (hne : l ≠ []) :
    (deconfLoop p l).getD ((deconfLoop p l).length - 1) 0
      = xor ((p :: l).getD ((p :: l).length - 2) 0) ((p :: l).getD ((p :: l).length - 1) 0) := by
  induction l generalizing p with
  | nil => exact absurd rfl hne
  | cons c rest ih =>
    cases rest with
    | nil => rfl
    | cons c2 r2 =>
      have ih2 := ih c (by simp)
      have e1 : deconfLoop p (c :: c2 :: r2) = xor p c :: deconfLoop c (c2 :: r2) := rfl
      rw [e1, getD_last_cons _ _ (by simp [deconfLoop_length]), ih2,
        getD_last_cons p _ (by simp), getD_secondLast_cons p _ (by simp)]

theorem getD_lt (l : List Nat) (b : Nat) (hl : ∀ x ∈ l, x < b) (hb : 0 < b) (i : Nat) :
    l.getD i 0 < b := by
  by_cases hi : i < l.length
  · rw [List.getD_eq_getElem _ _ hi]
    exact hl _ (List.getElem_mem _)
  · rw [List.getD_eq_default _ _ (by omega)]
    exact hb

/-- On two or more bytes `confusticate` undoes `deconfusticate`. -/
theorem confusticate_deconfusticate (t : List Nat) (hlen : 2 ≤ t.length)
    (hbyte : ∀ x ∈ t, x < 256) :
    (deconfusticate t).bind confusticate = .ok t := by
  match t, hlen, hbyte with
  | first :: c :: r, _, hbyte =>
    have hf : first < 256 := hbyte first (by simp)
    have hrest : ∀ x ∈ c :: r, x < 256 := fun y hy => hbyte y (by simp [hy])
    simp only [deconfusticate, Except.bind]
    generalize hsl : (first :: c :: r).getD ((first :: c :: r).length - 2) 0 = sl
    generalize hla : (first :: c :: r).getD ((first :: c :: r).length - 1) 0 = la
    have hsl2 : sl < 256 := by rw [← hsl]; exact getD_lt _ 256 hbyte (by omega) _
    have hla2 : la < 256 := by rw [← hla]; exact getD_lt _ 256 hbyte (by omega) _
    have hlast := deconfLoop_last first (c :: r) (by simp)
    rw [hsl, hla] at hlast
    simp only [confusticate]
    rw [getD_last_cons _ _ (by simp [deconfLoop_length]), hlast]
    have key : xor (xor (xor la sl) first) (xor sl la) = first := by
      rw [xor_eq la sl hla2 hsl2, xor_eq sl la hsl2 hla2,
        xor_eq _ first (xor_byte_lt la sl hla2 hsl2) hf,
        xor_eq _ _ (xor_byte_lt _ first (xor_byte_lt la sl hla2 hsl2) hf)
          (xor_byte_lt sl la hsl2 hla2),
        Nat.xor_comm sl la, Nat.xor_comm (la ^^^ sl) first, Nat.xor_assoc, Nat.xor_self,
        Nat.xor_zero]
    rw [key, confLoop_deconfLoop first (c :: r) hf hrest]

theorem confusticate_length (s o : List Nat) (h : confusticate s = .ok o) :
    o.length = s.length := by
  cases s with
  | nil => cases h
  | cons first rest =>
    simp only [confusticate] at h
    have := Except.ok.inj h
    subst this
    simp [confLoop_length]

/-! ## Names of seven letters -/

/-- On a buffer of seven bytes the hash loop reads the first six only. -/
theorem hash_seven (x0 x1 x2 x3 x4 x5 a b : Nat) :
    hashLoop 7 [x0, x1, x2, x3, x4, x5, a] (0, 3, 2, 0)
      = hashLoop 7 [x0, x1, x2, x3, x4, x5, b] (0, 3, 2, 0) := by
  simp [hashLoop, loadFrame]

theorem toSixteenBitHash_seven (n1 n2 : List Char) (l : List Nat) (a b : Nat)
    (hl : l.length = 6) (h1 : letterBuf n1 = l ++ [a]) (h2 : letterBuf n2 = l ++ [b]) :
    toSixteenBitHash n1 = toSixteenBitHash n2 := by
  match l, hl with
  | [x0, x1, x2, x3, x4, x5], _ =>
    unfold toSixteenBitHash
    simp only [h1, h2]
    simp only [List.cons_append, List.nil_append, List.length_cons, List.length_nil, growBuf]
    simp only [Nat.reduceAdd, Nat.reduceMod, Nat.reduceEqDiff, if_false, Nat.reduceLT]
    exact congrArg (fun h => h &&& 4095) (hash_seven x0 x1 x2 x3 x4 x5 a b)

/-! ## The length of a fresh quote number -/

theorem toChomps_length_le (n : Nat) (h : n < 2 ^ 50) : (toChomps (n : Int) 0).length ≤ 10 := by
  rw [toChomps_zero_pad]
  unfold toChomps
  simp only
  rw [biteAll13 n (by omega), if_neg (by omega)]
  simp only [List.length_reverse, List.length_append, List.length_replicate]
  have hd : (Nat.digits 32 n).length ≤ 10 := by
    by_cases h0 : n = 0
    · subst h0; simp
    · rw [Nat.digits_len 32 n (by omega) h0]
      have : Nat.log 32 n < 10 := Nat.log_lt_of_lt_pow h0 (by norm_num; omega)
      omega
  omega

theorem token_ascii : ∀ n : Nat, n < 32 → ∀ c, IDChars n = some c → c.toNat < 128 := by
  decide

/-- For every clock reading and every salt from 0 to 7, `CreateQuoteNumber` returns a string
of 9 or 10 bytes. -/
theorem quote_number_byteLen (salt clock : Int) (timeCreated : Option Int) (hs0 : 0 ≤ salt)
    (hs1 : salt < 8) :
    ∃ r, CreateQuoteNumber salt clock timeCreated = .ok r ∧ 9 ≤ byteLen r ∧ byteLen r ≤ 10 := by
  obtain ⟨o, holt, hlen, hs⟩ := quote_number_string salt clock timeCreated hs0 hs1
  obtain ⟨hg0, hg1⟩ := GenerateTimeBits_range clock timeCreated
  obtain ⟨hsalt, _⟩ := unsalt_salt salt _ hg0 hg1 hs0 hs1
  obtain ⟨n, hn⟩ := Int.eq_ofNat_of_zero_le
    (show 0 ≤ salt * 2 ^ 42 + GenerateTimeBits clock timeCreated by omega)
  rw [hsalt, hn] at hlen
  have h9 := (quote_string n (by omega)).choose_spec.2.2.2.1
  have h10 := toChomps_length_le n (by omega)
  have hascii : ∀ c ∈ chompArrayToChompTokens o, c.toNat < 128 := by
    intro c hc
    obtain ⟨⟨k, hk, hkc⟩, _⟩ := tokens_chars o holt c hc
    exact token_ascii k hk c hkc
  refine ⟨_, hs, ?_, ?_⟩
  · rw [byteLen_ascii _ hascii, tokens_length o holt]
    omega
  · rw [byteLen_ascii _ hascii, tokens_length o holt]
    omega

/-! ## Birth dates 65536 days apart -/

/-- The day offset of a date at or after the birth-date epoch, within the range of a
`Duration`. -/
theorem days_formula (y m d : Int) (hlo : birthdateEpoch ≤ Date y m d 12)
    (hhi : Date y m d 12 - birthdateEpoch < 2 ^ 63) :
    daysAfterBirthdateEpoch y m d = (Date y m d 12 - birthdateEpoch) / 86400000000000 := by
  have eH : 24 * Hour = 86400000000000 := by decide
  unfold daysAfterBirthdateEpoch
  simp only [Sub, eH]
  generalize Date y m d 12 = D at hlo hhi ⊢
  generalize birthdateEpoch = B at hlo hhi ⊢
  by_cases hc : D > B
  · rw [if_neg (by omega)]
    by_cases hs : D - B > 2 ^ 63 - 1
    · omega
    · rw [if_neg hs, if_neg (by omega)]
      rw [Int.tdiv_eq_ediv (by omega) (by omega), wrap32_of_nonneg _ (by omega) (by omega)]
  · rw [if_pos hc]
    omega

/-- The day offset of a date from the birth-date epoch up to 2000-01-01, and of the date 65536
days later. -/
theorem days_shift (y m d y2 m2 d2 : Int) (hlo : birthdateEpoch ≤ Date y m d 12)
    (hhi : Date y m d 12 ≤ Date 2000 1 1 12)
    (h2 : Date y2 m2 d2 12 = Date y m d 12 + 65536 * nsPerDay) :
    0 ≤ daysAfterBirthdateEpoch y m d ∧ daysAfterBirthdateEpoch y m d ≤ 32872 ∧
    daysAfterBirthdateEpoch y2 m2 d2 = daysAfterBirthdateEpoch y m d + 65536 := by
  have e2000 : Date 2000 1 1 12 = birthdateEpoch + 32872 * 86400000000000 := by decide
  rw [e2000] at hhi
  unfold nsPerDay at h2
  rw [days_formula y m d hlo (by omega), days_formula y2 m2 d2 (by omega) (by omega), h2]
  omega

/-- The payloads of two dates whose day offsets differ by 65536 are the same. -/
theorem idNameDOBToInt_shift (id : Int) (name : List Char) (y m d y2 m2 d2 : Int)
    (h0 : 0 ≤ daysAfterBirthdateEpoch y m d) (h1 : daysAfterBirthdateEpoch y m d ≤ 32872)
    (h2 : daysAfterBirthdateEpoch y2 m2 d2 = daysAfterBirthdateEpoch y m d + 65536) :
    idNameDOBToInt id name y2 m2 d2 = idNameDOBToInt id name y m d := by
  unfold idNameDOBToInt
  simp only
  rw [h2]
  obtain ⟨k, hk⟩ := Int.eq_ofNat_of_zero_le h0
  rw [hk] at h1 ⊢
  have e1 : toU64 ((k : Int) + 65536) = k + 65536 := by
    have := toU64_natCast (k + 65536) (by omega)
    rw [← this]
    push_cast
    rfl
  rw [e1, toU64_natCast k (by omega), and_mask _ 16 0xffff (by norm_num),
    and_mask _ 16 0xffff (by norm_num)]
  have e3 : (k + 65536) % 2 ^ 16 = k % 2 ^ 16 := by omega
  rw [e3]

/-! ## `fromToken` -/

theorem keys_accepted : ∀ ch ∈ "A9B8C7D6E5F4G3H2QSJZKYLXMWNVRUPT1I0O".toList,
    ∃ n, IDNumbersChar ch = some n := by
  have key : ∀ ch ∈ "A9B8C7D6E5F4G3H2QSJZKYLXMWNVRUPT1I0O".toList,
      (IDNumbersChar ch).isSome = true := by
    decide
  intro ch hch
  exact Option.isSome_iff_exists.1 (key ch hch)

/-- What `fromToken` does, by the trimmed and upper-cased input. -/
theorem fromToken_cases (c : Nat) (input : List Char) :
    ((fromToken c input).2 = false ∧
      ∃ ch n, ToUpper (TrimSpace input) = [ch] ∧ IDNumbersChar ch = some n ∧
        (fromToken c input).1 = toByte n) ∨
    ((fromToken c input).2 = true ∧ (fromToken c input).1 = c ∧
      ¬ ∃ ch n, ToUpper (TrimSpace input) = [ch] ∧ IDNumbersChar ch = some n) := by
  unfold fromToken
  simp only
  generalize ToUpper (TrimSpace input) = key
  match key with
  | [] =>
    right
    simp [byteLen, IDNumbers]
  | [ch] =>
    by_cases hb : byteLen [ch] > 1
    · right
      rw [if_pos hb]
      refine ⟨rfl, rfl, ?_⟩
      rintro ⟨ch2, n, he, hn⟩
      have e : ch = ch2 := by simpa using he
      subst e
      have := (accepted_facts ch n hn).2.2.1
      omega
    · rw [if_neg hb]
      cases hn : IDNumbersChar ch with
      | none =>
        right
        have e : IDNumbers [ch] = none := hn
        rw [e]
        refine ⟨rfl, rfl, ?_⟩
        rintro ⟨ch2, n, he, hn2⟩
        have e : ch = ch2 := by simpa using he
        subst e
        rw [hn] at hn2
        cases hn2
      | some n =>
        left
        have e : IDNumbers [ch] = some n := hn
        rw [e]
        exact ⟨rfl, ch, n, rfl, hn, rfl⟩
  | ch :: c2 :: rest =>
    right
    have hb : byteLen (ch :: c2 :: rest) > 1 := by
      unfold byteLen
      simp only [List.map_cons, List.sum_cons]
      have h1 := Char.utf8Size_pos ch
      have h2 := Char.utf8Size_pos c2
      omega
    rw [if_pos hb]
    refine ⟨rfl, rfl, ?_⟩
    rintro ⟨ch2, n, he, _⟩
    simp at he

/-! ## Ages -/

/-- The day count of `Date` for a month from 1 to 12 and midnight. -/
theorem Date_midnight (y d : Int) (m : Nat) (hm : m < 12) :
    Date y ((m : Int) + 1) d 0
      = (daysSinceEpoch y + (daysBefore m
          + (if isLeap y && decide ((m : Int) + 1 ≥ 3) then 1 else 0) + (d - 1))) * nsPerDay := by
  have n1 : norm y ((m : Int) + 1 - 1) 12 = (y, (m : Int)) := by
    unfold norm
    have e : (m : Int) + 1 - 1 = (m : Int) := by omega
    rw [e, if_neg (by omega)]
    simp only
    rw [if_neg (by omega)]
  have n2 : norm d 0 24 = (d, 0) := by
    unfold norm
    simp
  unfold Date
  rw [n1, n2]
  simp only [Int.toNat_ofNat]
  split <;> ring

/-- The year and the day of the year of an instant given by its year, the day of the year and
the time of day. -/
theorem absYearDay_of_day (y yd r : Int) (hy : 0 ≤ y) (h0 : 0 ≤ yd)
    (h1 : yd < 365 ∨ (yd = 365 ∧ isLeap y = true)) (hr0 : 0 ≤ r) (hr1 : r < nsPerDay) :
    absYearDay ((daysSinceEpoch y + yd) * nsPerDay + r) = (y, yd) := by
  obtain ⟨n, c, q, s, hc0, hc1, hq0, hq1, hs0, hs1, hyeq, hleap⟩ := year_cycles y hy
  have hr : yd < 365 ∨ (yd = 365 ∧ s = 3 ∧ (q < 24 ∨ c = 3)) := by
    rcases h1 with h | ⟨h, hl⟩
    · exact Or.inl h
    · exact Or.inr ⟨h, hleap.1 hl⟩
  have hD := daysSinceEpoch_cycles n c q s hc0 hc1 hq0 hq1 hs0 hs1
  rw [← hyeq] at hD
  have hA := absYearDay_cycles n c q s yd r hc0 hc1 hq0 hq1 hs0 hs1 h0 hr hr0 hr1
  rw [← hyeq, ← hD] at hA
  exact hA

/-- The days of a year. -/
theorem daysSinceEpoch_succ (y : Int) (hy : 0 ≤ y) :
    daysSinceEpoch (y + 1) = daysSinceEpoch y + (if isLeap y = true then 366 else 365) := by
  obtain ⟨n, c, q, s, hc0, hc1, hq0, hq1, hs0, hs1, hyeq, hleap⟩ := year_cycles y hy
  have hD := daysSinceEpoch_cycles n c q s hc0 hc1 hq0 hq1 hs0 hs1
  rw [← hyeq] at hD
  by_cases h1 : s < 3
  · have hD2 := daysSinceEpoch_cycles n c q (s + 1) hc0 hc1 hq0 hq1 (by omega) (by omega)
    have e : 400 * n + 100 * c + 4 * q + (s + 1) + absoluteZeroYear = y + 1 := by omega
    rw [e] at hD2
    have hl : ¬ isLeap y = true := fun h => by have := hleap.1 h; omega
    rw [if_neg hl, hD2, hD]
    omega
  · by_cases h2 : q < 24
    · have hD2 := daysSinceEpoch_cycles n c (q + 1) 0 hc0 hc1 (by omega) (by omega) (by omega)
        (by omega)
      have e : 400 * n + 100 * c + 4 * (q + 1) + 0 + absoluteZeroYear = y + 1 := by omega
      rw [e] at hD2
      have hl : isLeap y = true := hleap.2 ⟨by omega, Or.inl h2⟩
      rw [if_pos hl, hD2, hD]
      omega
    · by_cases h3 : c < 3
      · have hD2 := daysSinceEpoch_cycles n (c + 1) 0 0 (by omega) (by omega) (by omega)
          (by omega) (by omega) (by omega)
        have e : 400 * n + 100 * (c + 1) + 4 * 0 + 0 + absoluteZeroYear = y + 1 := by omega
        rw [e] at hD2
        have hl : ¬ isLeap y = true := fun h => by have := hleap.1 h; omega
        rw [if_neg hl, hD2, hD]
        omega
      · have hD2 := daysSinceEpoch_cycles (n + 1) 0 0 0 (by omega) (by omega) (by omega)
          (by omega) (by omega) (by omega)
        have e : 400 * (n + 1) + 100 * 0 + 4 * 0 + 0 + absoluteZeroYear = y + 1 := by omega
        rw [e] at hD2
        have hl : isLeap y = true := hleap.2 ⟨by omega, Or.inr (by omega)⟩
        rw [if_pos hl, hD2, hD]
        omega

/-- The leap-year test of `age.go` is that of the `time` package. -/
theorem Age_isLeap_eq (t : Int) (h : 0 ≤ Year t) : Age.isLeap t = isLeap (Year t) := by
  unfold Age.isLeap isLeap
  simp only
  generalize Year t = y at h ⊢
  rw [Int.tmod_eq_emod h (by omega), Int.tmod_eq_emod h (by omega),
    Int.tmod_eq_emod h (by omega)]
  by_cases h400 : y % 400 = 0
  · have h4 : y % 4 = 0 := by omega
    simp [h400, h4]
  · by_cases h100 : y % 100 = 0
    · simp [h400, h100]
    · by_cases h4 : y % 4 = 0
      · simp [h400, h100, h4]
      · simp [h400, h100, h4]

/-- `AgeAt` in terms of the year and the day of the year (from 0) of the two instants. -/
theorem AgeAt_eq (dob now y1 yd1 y2 yd2 : Int) (h1 : absYearDay dob = (y1, yd1))
    (h2 : absYearDay now = (y2, yd2)) (hy1 : 0 ≤ y1) (hy2 : 0 ≤ y2) :
    AgeAt dob now
      = if yd2 + 1 <
            (if isLeap y1 && !isLeap y2 && decide (yd1 + 1 ≥ 60) then yd1 + 1 - 1
              else if isLeap y2 && !isLeap y1 && decide (yd2 + 1 ≥ 60) then yd1 + 1 + 1
              else yd1 + 1)
        then y2 - y1 - 1 else y2 - y1 := by
  have e1 : Year dob = y1 := by unfold Year; rw [h1]
  have e2 : Year now = y2 := by unfold Year; rw [h2]
  have d1 : YearDay dob = yd1 + 1 := by unfold YearDay; rw [h1]
  have d2 : YearDay now = yd2 + 1 := by unfold YearDay; rw [h2]
  have l1 : Age.isLeap dob = isLeap y1 := by rw [Age_isLeap_eq dob (by omega), e1]
  have l2 : Age.isLeap now = isLeap y2 := by rw [Age_isLeap_eq now (by omega), e2]
  unfold AgeAt getAdjustedBirthDay
  simp only [e1, e2, d1, d2, l1, l2]

set_option maxRecDepth 100000 in
set_option synthInstance.maxSize 2000 in
set_option synthInstance.maxHeartbeats 400000 in
theorem day_of_year_table : ∀ b : Bool, ∀ k : Nat, k < 12 → ∀ e : Nat, e < 31 →
    ((e : Int) + 1 ≤ (if k + 1 = 2 ∧ b = true then 29
        else daysBefore (k + 1) - daysBefore (k + 1 - 1)) →
      (0 ≤ daysBefore k + (e : Int) ∧
      (k + 1 ≥ 3 → 59 ≤ daysBefore k + (e : Int)) ∧
      (k + 1 < 3 → (daysBefore k + (e : Int) ≤ 58 ∨
        (daysBefore k + (e : Int) = 59 ∧ b = true))))) := by
  decide!

/-- The day of the year (from 0) of a calendar date, without the leap day: at most 58 in
January and February, except 59 for 29 February, and at least 59 from March on. -/
theorem day_of_year_bounds (y : Int) (m d : Nat) (hm : m < 12)
    (hd : (d : Int) + 1 ≤ daysIn (m + 1) y) :
    0 ≤ daysBefore m + (d : Int) ∧
    (m + 1 ≥ 3 → 59 ≤ daysBefore m + (d : Int)) ∧
    (m + 1 < 3 → daysBefore m + (d : Int) ≤ 58 ∨
      (daysBefore m + (d : Int) = 59 ∧ isLeap y = true)) ∧
    (daysBefore m + (if isLeap y && decide ((m : Int) + 1 ≥ 3) then 1 else 0) + (d : Int) < 365
      ∨ (daysBefore m + (if isLeap y && decide ((m : Int) + 1 ≥ 3) then 1 else 0) + (d : Int)
          = 365 ∧ isLeap y = true)) := by
  have hd31 : d < 31 := by
    have h2 : daysIn (m + 1) y ≤ 31 := by
      have : ∀ k : Nat, k < 12 → ∀ b : Bool,
          (if k + 1 = 2 ∧ b = true then (29 : Int)
            else daysBefore (k + 1) - daysBefore (k + 1 - 1)) ≤ 31 := by decide
      exact this m hm (isLeap y)
    omega
  obtain ⟨k0, k1, k2⟩ := day_of_year_table (isLeap y) m hm d hd31 hd
  obtain ⟨_, t1, _⟩ := monthDay_table (isLeap y) m hm d hd31 hd
  exact ⟨k0, k1, k2, t1⟩

/-- The age on a birthday and on the day before it. -/
theorem AgeAt_birthday (y n : Int) (m d : Nat) (r1 r2 : Int) (hy : 1 ≤ y) (hn : 0 ≤ n)
    (hm : m < 12) (hd1 : (d : Int) + 1 ≤ daysIn (m + 1) y)
    (hd2 : (d : Int) + 1 ≤ daysIn (m + 1) (y + n))
    (hr10 : 0 ≤ r1) (hr11 : r1 < nsPerDay) (hr20 : 0 ≤ r2) (hr21 : r2 < nsPerDay) :
    AgeAt (Date y ((m : Int) + 1) ((d : Int) + 1) 0 + r1)
        (Date (y + n) ((m : Int) + 1) ((d : Int) + 1) 0 + r2) = n ∧
    AgeAt (Date y ((m : Int) + 1) ((d : Int) + 1) 0 + r1)
        (Date (y + n) ((m : Int) + 1) ((d : Int) + 1) 0 + r2 - nsPerDay) = n - 1 := by
  obtain ⟨b0, b1, b2, b3⟩ := day_of_year_bounds y m d hm hd1
  obtain ⟨_, _, c2, c3⟩ := day_of_year_bounds (y + n) m d hm hd2
  rw [Date_midnight y _ m hm, Date_midnight (y + n) _ m hm]
  have e1 : (d : Int) + 1 - 1 = (d : Int) := by omega
  rw [e1]
  have hdec : decide ((m : Int) + 1 ≥ 3) = decide (m + 1 ≥ 3) :=
    decide_eq_decide.2 (by omega)
  generalize hyd1 : daysBefore m + (if (isLeap y && decide ((m : Int) + 1 ≥ 3)) = true
    then 1 else 0) + (d : Int) = yd1 at b3 ⊢
  generalize hyd2 : daysBefore m + (if (isLeap (y + n) && decide ((m : Int) + 1 ≥ 3)) = true
    then 1 else 0) + (d : Int) = yd2 at c3 ⊢
  have hyd1' : yd1 = daysBefore m + (d : Int)
      + (if isLeap y = true ∧ m + 1 ≥ 3 then 1 else 0) := by
    rw [← hyd1, hdec]
    by_cases hl : isLeap y = true <;> by_cases h3 : m + 1 ≥ 3 <;>
      (simp [hl, h3]; try omega)
  have hyd2' : yd2 = daysBefore m + (d : Int)
      + (if isLeap (y + n) = true ∧ m + 1 ≥ 3 then 1 else 0) := by
    rw [← hyd2, hdec]
    by_cases hl : isLeap (y + n) = true <;> by_cases h3 : m + 1 ≥ 3 <;>
      (simp [hl, h3]; try omega)
  clear hyd1 hyd2
  have hA1 := absYearDay_of_day y yd1 r1 (by omega) (by split_ifs at hyd1' <;> omega) b3
    hr10 hr11
  have hA2 := absYearDay_of_day (y + n) yd2 r2 (by omega) (by split_ifs at hyd2' <;> omega) c3
    hr20 hr21
  constructor
  · rw [AgeAt_eq _ _ y yd1 (y + n) yd2 hA1 hA2 (by omega) (by omega)]
    cases hl1 : isLeap y <;> cases hl2 : isLeap (y + n) <;>
      simp only [hl1, hl2, Bool.true_and, Bool.false_and, Bool.not_true, Bool.not_false,
        Bool.and_true, Bool.and_false, decide_eq_true_eq, Bool.false_eq_true, if_false,
        false_and, true_and, and_false, and_true, or_false] at hyd1' hyd2' b2 c2 ⊢ <;>
      split_ifs at hyd1' hyd2' ⊢ <;> omega
  · by_cases hz : 1 ≤ yd2
    · have e : (daysSinceEpoch (y + n) + yd2) * nsPerDay + r2 - nsPerDay
          = (daysSinceEpoch (y + n) + (yd2 - 1)) * nsPerDay + r2 := by
        unfold nsPerDay
        omega
      have hB := absYearDay_of_day (y + n) (yd2 - 1) r2 (by omega) (by omega)
        (Or.inl (by rcases c3 with h | h <;> omega)) hr20 hr21
      rw [e, AgeAt_eq _ _ y yd1 (y + n) (yd2 - 1) hA1 hB (by omega) (by omega)]
      cases hl1 : isLeap y <;> cases hl2 : isLeap (y + n) <;>
        simp only [hl1, hl2, Bool.true_and, Bool.false_and, Bool.not_true, Bool.not_false,
          Bool.and_true, Bool.and_false, decide_eq_true_eq, Bool.false_eq_true, if_false,
          false_and, true_and, and_false, and_true, or_false] at hyd1' hyd2' b2 c2 ⊢ <;>
        split_ifs at hyd1' hyd2' ⊢ <;> omega
    · have hyd20 : yd2 = 0 := by split_ifs at hyd2' <;> omega
      have hyd10 : yd1 = 0 := by split_ifs at hyd1' <;> omega
      have hs := daysSinceEpoch_succ (y + n - 1) (by omega)
      have e0 : y + n - 1 + 1 = y + n := by omega
      rw [e0] at hs
      have e : (daysSinceEpoch (y + n) + yd2) * nsPerDay + r2 - nsPerDay
          = (daysSinceEpoch (y + n - 1)
              + (if isLeap (y + n - 1) = true then 365 else 364)) * nsPerDay + r2 := by
        unfold nsPerDay
        split_ifs at hs ⊢ <;> omega
      have hB := absYearDay_of_day (y + n - 1) (if isLeap (y + n - 1) = true then 365 else 364)
        r2 (by omega) (by split_ifs <;> omega)
        (by by_cases hl : isLeap (y + n - 1) = true <;> simp [hl]) hr20 hr21
      rw [e, AgeAt_eq _ _ y yd1 (y + n - 1) _ hA1 hB (by omega) (by omega)]
      subst hyd10
      cases hl1 : isLeap y <;> cases hl3 : isLeap (y + n - 1) <;>
        simp only [hl1, hl3, Bool.true_and, Bool.false_and, Bool.not_true, Bool.not_false,
          Bool.and_true, Bool.and_false, decide_eq_true_eq, Bool.false_eq_true, if_false,
          if_true, false_and, true_and] <;>
        split_ifs <;> omega

/-! # The claims -/

set_option maxRecDepth 100000 in
/-- C1 (at the failing input): the composite round trip does not hold for a negative id. For
id = INT32_MIN, name "NG" and the date 1980-06-15 `CreateForIdNameDOB` returns
"111111111111", and `ParseIdDOBNameHash` reads that string as (0, 0, 1910, 1, 1): neither the
id nor the name hash (122) nor the date comes back. -/
theorem C1_negative_id_lost :
    CreateForIdNameDOB (-2147483648) "NG".toList 1980 6 15 = .ok "111111111111".toList ∧
    ParseIdDOBNameHash (some "111111111111".toList) = .ok (0, 0, 1910, 1, 1) ∧
    toSixteenBitHash "NG".toList = 122 := by
  decide!

/-- C2: for every id from 0 to INT32_MAX, every name and every calendar date of the years 1910
to 2059, `ParseIdDOBNameHash (CreateForIdNameDOB id name y m d)` is
`(id, toSixteenBitHash name, y, m, d)`. -/
theorem C2_composite_roundtrip (id : Int) (name : List Char) (y m d : Int)
    (hid0 : 0 ≤ id) (hid1 : id ≤ 2147483647) (hy0 : 1910 ≤ y) (hy1 : y ≤ 2059)
    (hm0 : 1 ≤ m) (hm1 : m ≤ 12) (hd0 : 1 ≤ d) (hd1 : d ≤ daysIn m.toNat y) :
    ∃ s, CreateForIdNameDOB id name y m d = .ok s ∧
      ParseIdDOBNameHash (some s) = .ok (id, toSixteenBitHash name, y, m, d) := by
  obtain ⟨n, hn⟩ := Int.eq_ofNat_of_zero_le hid0
  subst hn
  obtain ⟨hlo, hhi⟩ := date_in_range y m d hy0 (by omega) hm0 hm1 hd0 hd1
  exact composite_roundtrip n name y m d (by omega) (by omega) hm0 hm1 hd0 hd1 hlo hhi

/-- C2 at id 601123456, name "NG", 1980-06-15. -/
theorem C2_composite_roundtrip_witness :
    ∃ s, CreateForIdNameDOB 601123456 "NG".toList 1980 6 15 = .ok s ∧
      ParseIdDOBNameHash (some s)
        = .ok (601123456, toSixteenBitHash "NG".toList, 1980, 6, 15) :=
  C2_composite_roundtrip 601123456 "NG".toList 1980 6 15 (by decide) (by decide) (by decide)
    (by decide) (by decide) (by decide) (by decide) (by decide)

/-- C3: for every instant `t` in the first `2^43` ticks of 100 microseconds after the epoch,
every salt in [0, 8) and every clock reading `now` with `t ≤ now` and `now` earlier than `t`
truncated to a whole tick plus `2^42` ticks, `GetTimeAndServer (CreateQuoteNumber t)` is `t`
truncated down to a whole tick (with any fuel of two or more loop rounds), and `t` exceeds it
by less than 100 microseconds. -/
theorem C3_quote_roundtrip (salt clock t now : Int) (fuel : Nat)
    (ht0 : Epoch ≤ t) (ht1 : t < Epoch + 2 ^ 43 * 100000)
    (hs0 : 0 ≤ salt) (hs1 : salt < maxRand)
    (hn0 : t ≤ now) (hn1 : now < Epoch + (t - Epoch) / 100000 * 100000 + 2 ^ 42 * 100000) :
    ∃ s, CreateQuoteNumber salt clock (some t) = .ok s ∧
      GetTimeAndServer (fuel + 2) now (some s)
        = .ok (some (Epoch + (t - Epoch) / 100000 * 100000)) ∧
      0 ≤ t - (Epoch + (t - Epoch) / 100000 * 100000) ∧
      t - (Epoch + (t - Epoch) / 100000 * 100000) < 100000 := by
  rw [maxRand_eq] at hs1
  obtain ⟨s, hs, _, hget⟩ := quote_pipeline salt clock t ht0 ht1 hs0 hs1
  refine ⟨s, hs, ?_, by omega, by omega⟩
  rw [hget]
  exact TimeFromBits_ticks fuel now _ (by omega) (by omega) (fun _ => by omega) hn1

/-- C3 at salt 5, an instant 12345678.9012345 s after the epoch, decoded one second later. -/
theorem C3_quote_roundtrip_witness :
    ∃ s, CreateQuoteNumber 5 0 (some (Epoch + 12345678901234500)) = .ok s ∧
      GetTimeAndServer (0 + 2) (Epoch + 12345679901234500) (some s)
        = .ok (some (Epoch + (Epoch + 12345678901234500 - Epoch) / 100000 * 100000)) ∧
      0 ≤ Epoch + 12345678901234500
        - (Epoch + (Epoch + 12345678901234500 - Epoch) / 100000 * 100000) ∧
      Epoch + 12345678901234500
        - (Epoch + (Epoch + 12345678901234500 - Epoch) / 100000 * 100000) < 100000 :=
  C3_quote_roundtrip 5 0 (Epoch + 12345678901234500) (Epoch + 12345679901234500) 0
    (by decide) (by decide) (by decide) (by decide) (by decide) (by decide)

set_option maxRecDepth 100000 in
/-- C4 fails as stated: the result depends on the clock read when decoding. The quote number
of the epoch itself (salt 0) is "111111111"; decoded when the clock reads the epoch plus
`2^42` ticks, it yields the epoch plus `2^42` ticks (13.94 years later), not an instant within
100 microseconds of the epoch. -/
theorem C4_counterexample :
    CreateQuoteNumber 0 0 (some Epoch) = .ok "111111111".toList ∧
    GetTimeAndServer 2 (Epoch + 2 ^ 42 * 100000) (some "111111111".toList)
      = .ok (some (Epoch + 2 ^ 42 * 100000)) ∧
    ¬ (Epoch + 2 ^ 42 * 100000 - Epoch < 100000) := by
  decide!

/-- C4 as amended: for every instant `t` fewer than `2^42` ticks after the epoch, every
salt in [0, 8) and every clock reading `now` earlier than `t` truncated to a whole tick plus
`2^42` ticks, `GetTimeAndServer (CreateQuoteNumber t)` is `t` truncated down to a whole tick
(after one loop round, so with any fuel of one or more), and `t` exceeds it by less than 100
microseconds. -/
theorem C4_quote_roundtrip_first_wrap (salt clock t now : Int) (fuel : Nat)
    (ht0 : Epoch ≤ t) (ht1 : t < Epoch + 2 ^ 42 * 100000)
    (hs0 : 0 ≤ salt) (hs1 : salt < maxRand)
    (hn1 : now < Epoch + (t - Epoch) / 100000 * 100000 + 2 ^ 42 * 100000) :
    ∃ s, CreateQuoteNumber salt clock (some t) = .ok s ∧
      GetTimeAndServer (fuel + 1) now (some s)
        = .ok (some (Epoch + (t - Epoch) / 100000 * 100000)) ∧
      0 ≤ t - (Epoch + (t - Epoch) / 100000 * 100000) ∧
      t - (Epoch + (t - Epoch) / 100000 * 100000) < 100000 := by
  rw [maxRand_eq] at hs1
  obtain ⟨s, hs, _, hget⟩ := quote_pipeline salt clock t ht0 (by omega) hs0 hs1
  refine ⟨s, hs, ?_, by omega, by omega⟩
  rw [hget]
  have e : (t - Epoch) / 100000 % 2 ^ 42 = (t - Epoch) / 100000 :=
    Int.emod_eq_of_lt (by omega) (by omega)
  rw [e]
  exact TimeFromBits_first fuel now _ (by omega) (by omega) hn1

/-- C4 as amended, at the epoch itself with salt 0 and a clock one hour past the epoch. -/
theorem C4_quote_roundtrip_first_wrap_witness :
    ∃ s, CreateQuoteNumber 0 0 (some Epoch) = .ok s ∧
      GetTimeAndServer (0 + 1) (Epoch + 3600000000000) (some s)
        = .ok (some (Epoch + (Epoch - Epoch) / 100000 * 100000)) ∧
      0 ≤ Epoch - (Epoch + (Epoch - Epoch) / 100000 * 100000) ∧
      Epoch - (Epoch + (Epoch - Epoch) / 100000 * 100000) < 100000 :=
  C4_quote_roundtrip_first_wrap 0 0 Epoch (Epoch + 3600000000000) 0
    (by decide) (by decide) (by decide) (by decide) (by decide)

set_option maxRecDepth 100000 in
/-- C5 (at the failing input): for the instant `2^42` ticks after the epoch and the salt 7 the
time bits are `2^42` (they are masked to 43 bits, not 42), the salted value is `2^45`, which
does not fit in 45 bits, and `CreateQuoteNumber` returns the ten-character string
"9999999999". -/
theorem C5_ten_characters :
    GenerateTimeBits 0 (some (Epoch + 2 ^ 42 * 100000)) = 2 ^ 42 ∧
    SaltToFullBitlength 7 (GenerateTimeBits 0 (some (Epoch + 2 ^ 42 * 100000))) = 2 ^ 45 ∧
    CreateQuoteNumber 7 0 (some (Epoch + 2 ^ 42 * 100000)) = .ok "9999999999".toList ∧
    "9999999999".toList.length = 10 := by
  decide!

/-- C6: for every `int32` id, every name and every date, `CreateForIdNameDOB` returns a string
of exactly 12 characters. -/
theorem C6_composite_length (id : Int) (name : List Char) (y m d : Int)
    (h0 : -(2 ^ 31) ≤ id) (h1 : id < 2 ^ 31) :
    ∃ s, CreateForIdNameDOB id name y m d = .ok s ∧ s.length = 12 := by
  obtain ⟨o, holt, holen, hs⟩ := composite_string id name y m d h0 h1
  exact ⟨_, hs, by rw [tokens_length o holt, holen]⟩

/-- C6 at id -7, name "Sizemore" and the date 2001-02-03. -/
theorem C6_composite_length_witness :
    ∃ s, CreateForIdNameDOB (-7) "Sizemore".toList 2001 2 3 = .ok s ∧ s.length = 12 :=
  C6_composite_length (-7) "Sizemore".toList 2001 2 3 (by decide) (by decide)

/-- C7: every character of the string returned by `CreateQuoteNumber` (any instant or none,
any salt in [0, 8)) and by `CreateForIdNameDOB` (any `int32` id, any name, any date) is a
character of the `IDChars` table and none of `A`, `I`, `O`, `U`; and no character is missing:
the string has one character per chomp. -/
theorem C7_output_alphabet (salt clock : Int) (timeCreated : Option Int) (id : Int)
    (name : List Char) (y m d : Int) (hs0 : 0 ≤ salt) (hs1 : salt < maxRand)
    (h0 : -(2 ^ 31) ≤ id) (h1 : id < 2 ^ 31) :
    (∃ s, CreateQuoteNumber salt clock timeCreated = .ok s ∧
      s.length
        = (toChomps (SaltToFullBitlength salt (GenerateTimeBits clock timeCreated)) 0).length ∧
      ∀ c ∈ s, (∃ n, n < 32 ∧ IDChars n = some c) ∧ c ≠ 'A' ∧ c ≠ 'I' ∧ c ≠ 'O' ∧ c ≠ 'U') ∧
    (∃ s, CreateForIdNameDOB id name y m d = .ok s ∧ s.length = 12 ∧
      ∀ c ∈ s, (∃ n, n < 32 ∧ IDChars n = some c) ∧ c ≠ 'A' ∧ c ≠ 'I' ∧ c ≠ 'O' ∧ c ≠ 'U') := by
  rw [maxRand_eq] at hs1
  constructor
  · obtain ⟨o, holt, holen, hs⟩ := quote_number_string salt clock timeCreated hs0 hs1
    exact ⟨_, hs, by rw [tokens_length o holt, holen], tokens_chars o holt⟩
  · obtain ⟨o, holt, holen, hs⟩ := composite_string id name y m d h0 h1
    exact ⟨_, hs, by rw [tokens_length o holt, holen], tokens_chars o holt⟩

/-- C7 at salt 3, no instant passed (clock at the epoch), id 42, name "Lee", 1999-12-31. -/
theorem C7_output_alphabet_witness :
    (∃ s, CreateQuoteNumber 3 Epoch none = .ok s ∧
      s.length = (toChomps (SaltToFullBitlength 3 (GenerateTimeBits Epoch none)) 0).length ∧
      ∀ c ∈ s, (∃ n, n < 32 ∧ IDChars n = some c) ∧ c ≠ 'A' ∧ c ≠ 'I' ∧ c ≠ 'O' ∧ c ≠ 'U') ∧
    (∃ s, CreateForIdNameDOB 42 "Lee".toList 1999 12 31 = .ok s ∧ s.length = 12 ∧
      ∀ c ∈ s, (∃ n, n < 32 ∧ IDChars n = some c) ∧ c ≠ 'A' ∧ c ≠ 'I' ∧ c ≠ 'O' ∧ c ≠ 'U') :=
  C7_output_alphabet 3 Epoch none 42 "Lee".toList 1999 12 31 (by decide) (by decide)
    (by decide) (by decide)

/-- C8: for every sequence `s` of at least two chomps (bytes), `confusticate` succeeds, keeps
the length, and `deconfusticate` of its result is `s` again. -/
theorem C8_deconfusticate_confusticate (s : List Nat) (hlen : 2 ≤ s.length)
    (hbyte : ∀ x ∈ s, x < 256) :
    ∃ c, confusticate s = .ok c ∧ c.length = s.length ∧ deconfusticate c = .ok s := by
  have h := deconfusticate_confusticate s hlen hbyte
  cases s with
  | nil => simp at hlen
  | cons first rest =>
    refine ⟨_, rfl, by simp [confLoop_length], ?_⟩
    exact h

/-- C8 at the sequence 31, 0, 7, 16, 16, 1, 255, 128, 9. -/
theorem C8_deconfusticate_confusticate_witness :
    ∃ c, confusticate [31, 0, 7, 16, 16, 1, 255, 128, 9] = .ok c ∧
      c.length = [31, 0, 7, 16, 16, 1, 255, 128, 9].length ∧
      deconfusticate c = .ok [31, 0, 7, 16, 16, 1, 255, 128, 9] :=
  C8_deconfusticate_confusticate [31, 0, 7, 16, 16, 1, 255, 128, 9] (by decide) (by decide)

/-- C9: for every width `w` from 1 to 12 and every `v` with `0 ≤ v < 2^(5w)`, `toChomps v w`
has `w` chomps and `toNumber` of it is `v`; with the default width (`pad = 0`, meaning 9) the
same holds for every `v` in `[0, 2^45)`. -/
theorem C9_toNumber_toChomps (w : Nat) (v : Int) (hw0 : 1 ≤ w) (hw1 : w ≤ 12) (hv0 : 0 ≤ v)
    (hv1 : v < 2 ^ (5 * w)) :
    toNumber (toChomps v (w : Int)) = v ∧ (toChomps v (w : Int)).length = w ∧
    (v < 2 ^ 45 → toNumber (toChomps v 0) = v ∧ (toChomps v 0).length = 9) := by
  obtain ⟨n, hn⟩ := Int.eq_ofNat_of_zero_le hv0
  subst hn
  have hpow : (2 : Nat) ^ (5 * w) ≤ 2 ^ 60 := Nat.pow_le_pow_right (by omega) (by omega)
  have hn1 : n < 2 ^ (5 * w) := by exact_mod_cast hv1
  have h32 : (32 : Nat) ^ w = 2 ^ (5 * w) := by
    rw [show (32 : Nat) = 2 ^ 5 by norm_num, ← pow_mul]
  refine ⟨toNumber_toChomps n (by omega) _, ?_, ?_⟩
  · exact (toChomps_length n (by omega) w (by omega)).2 (by rw [h32]; exact hn1)
  · intro h45
    refine ⟨toNumber_toChomps n (by omega) _, ?_⟩
    rw [toChomps_zero_pad]
    have h := (toChomps_length n (by omega) 9 (by omega)).2 (by
      have : (32 : Nat) ^ 9 = 2 ^ 45 := by norm_num
      omega)
    rw [Nat.cast_ofNat] at h
    exact h

/-- C9 at width 9 and the value 12345678. -/
theorem C9_toNumber_toChomps_witness :
    toNumber (toChomps 12345678 ((9 : Nat) : Int)) = 12345678 ∧
    (toChomps 12345678 ((9 : Nat) : Int)).length = 9 ∧
    ((12345678 : Int) < 2 ^ 45 →
      toNumber (toChomps 12345678 0) = 12345678 ∧ (toChomps 12345678 0).length = 9) :=
  C9_toNumber_toChomps 9 12345678 (by decide) (by decide) (by decide) (by decide)

/-- C10: for every `v` in `[0, 2^42)` and every salt in `[0, maxRand) = [0, 8)`,
`UnsaltToTimestampBits (SaltToFullBitlength v) = v`. -/
theorem C10_unsalt_salt (salt v : Int) (hv0 : 0 ≤ v) (hv1 : v < 2 ^ 42) (hs0 : 0 ≤ salt)
    (hs1 : salt < maxRand) :
    UnsaltToTimestampBits (SaltToFullBitlength salt v) = v := by
  rw [maxRand_eq] at hs1
  rw [(unsalt_salt salt v hv0 (by omega) hs0 hs1).2]
  exact Int.emod_eq_of_lt hv0 hv1

/-- C10 at the salt 7 and the largest value `2^42 - 1`. -/
theorem C10_unsalt_salt_witness :
    UnsaltToTimestampBits (SaltToFullBitlength 7 4398046511103) = 4398046511103 :=
  C10_unsalt_salt 7 4398046511103 (by decide) (by decide) (by decide) (by decide)

/-- C11: for every sequence `s` of chomps with values 0..31,
`fromChompTokens (chompArrayToChompTokens s)` is `s` again (same length, same value at every
index); the encode table `IDChars` is injective on 0..31 and `IDNumbers` inverts it. -/
theorem C11_tokens_roundtrip (s : List Nat) (h : ∀ x ∈ s, x < 32) :
    fromChompTokens (chompArrayToChompTokens s) = s ∧
    (fromChompTokens (chompArrayToChompTokens s)).length = s.length ∧
    (∀ n m : Nat, n < 32 → m < 32 → IDChars n = IDChars m → n = m) ∧
    (∀ n : Nat, n < 32 → ∃ c, IDChars n = some c ∧ IDNumbers [c] = some (n : Int)) := by
  have e := fromChompTokens_tokens _ _ (tokens_forall₂ s h)
  refine ⟨e, by rw [e], ?_, ?_⟩
  · intro n m hn hm hnm
    obtain ⟨c, hc, _, _, hnum, _⟩ := token_facts n hn
    obtain ⟨c2, hc2, _, _, hnum2, _⟩ := token_facts m hm
    rw [hc, hc2] at hnm
    have hcc : c = c2 := Option.some.inj hnm
    rw [hcc, hnum2] at hnum
    have : (m : Int) = (n : Int) := Option.some.inj hnum
    omega
  · intro n hn
    obtain ⟨c, hc, _, _, hnum, _⟩ := token_facts n hn
    exact ⟨c, hc, by simp [IDNumbers, hnum]⟩

/-- C11 at the sequence 0, 29, 31, 5, 16, 16, 2, 30, 1. -/
theorem C11_tokens_roundtrip_witness :
    fromChompTokens (chompArrayToChompTokens [0, 29, 31, 5, 16, 16, 2, 30, 1])
      = [0, 29, 31, 5, 16, 16, 2, 30, 1] ∧
    (fromChompTokens (chompArrayToChompTokens [0, 29, 31, 5, 16, 16, 2, 30, 1])).length
      = [0, 29, 31, 5, 16, 16, 2, 30, 1].length ∧
    (∀ n m : Nat, n < 32 → m < 32 → IDChars n = IDChars m → n = m) ∧
    (∀ n : Nat, n < 32 → ∃ c, IDChars n = some c ∧ IDNumbers [c] = some (n : Int)) :=
  C11_tokens_roundtrip [0, 29, 31, 5, 16, 16, 2, 30, 1] (by decide)

set_option maxRecDepth 100000 in
/-- C16 fails as stated: the string of thirteen `9`s (an accepted length) carries a payload
with bit 60 set, and `ParseIdDOBNameHash` returns the name-hash component 4096, which is not
below 4096 and is not `(payload >> 48) & 0xFFF = 0`. -/
theorem C16_counterexample :
    ParseIdDOBNameHash (some "9999999999999".toList) = .ok (0, 4096, 1910, 1, 1) ∧
    ¬ ((4096 : Nat) < 4096) ∧ (4096 : Nat) &&& 0xfff = 0 := by
  decide!

/-- C16 as amended: for every input string on which `ParseIdDOBNameHash` returns, the name-hash
component is the payload shifted right by 48 bits (bits 48 to 63, no mask), so it is below
65536; when the string has at most 12 accepted characters the payload has at most 60 bits, and
the component is `(payload >> 48) & 0xFFF` and below 4096. (For the empty string the component
is 0.) -/
theorem C16_hash_component (s : List Char) (r : Int × Nat × Int × Int × Int)
    (h : ParseIdDOBNameHash (some s) = .ok r) :
    (s = [] ∧ r.2.1 = 0) ∨
    (∃ chompArray, deconfusticate (fromChompTokens (cleanID s)) = .ok chompArray ∧
      r.2.1 = toU64 (toNumber chompArray) >>> 48 ∧ r.2.1 < 65536 ∧
      ((cleanID s).length ≤ 12 →
        r.2.1 = (toU64 (toNumber chompArray) >>> 48) &&& 0xfff ∧ r.2.1 < 4096)) := by
  by_cases hs : s = []
  · left
    subst hs
    have : r = (0, 0, 0, 0, 0) := (Except.ok.inj h).symm
    exact ⟨rfl, by rw [this]⟩
  · right
    obtain ⟨ca, hd, hr, hlen, hlt⟩ := parse_result s hs r h
    obtain ⟨e1, e2, e3⟩ := intToIDNameDOB_hash (toU64 (toNumber ca)) (toU64_lt _)
    rw [hr, e1]
    refine ⟨ca, hd, rfl, e2, ?_⟩
    intro h12
    obtain ⟨n, hn, hn60⟩ := toNumber_lt ca hlt (by omega)
    rw [hn, toU64_natCast n (by omega)] at e3 ⊢
    exact e3 hn60

set_option maxRecDepth 100000 in
/-- C16 as amended, at the string of thirteen `9`s. -/
theorem C16_hash_component_witness :
    ("9999999999999".toList = [] ∧ ((0, 4096, 1910, 1, 1) : Int × Nat × Int × Int × Int).2.1 = 0) ∨
    (∃ chompArray,
      deconfusticate (fromChompTokens (cleanID "9999999999999".toList)) = .ok chompArray ∧
      ((0, 4096, 1910, 1, 1) : Int × Nat × Int × Int × Int).2.1
        = toU64 (toNumber chompArray) >>> 48 ∧
      ((0, 4096, 1910, 1, 1) : Int × Nat × Int × Int × Int).2.1 < 65536 ∧
      ((cleanID "9999999999999".toList).length ≤ 12 →
        ((0, 4096, 1910, 1, 1) : Int × Nat × Int × Int × Int).2.1
          = (toU64 (toNumber chompArray) >>> 48) &&& 0xfff ∧
        ((0, 4096, 1910, 1, 1) : Int × Nat × Int × Int × Int).2.1 < 4096)) :=
  C16_hash_component "9999999999999".toList (0, 4096, 1910, 1, 1) (by decide)

/-- C17 (at the failing input): on the string "-" both decoders panic (the filtered string is
empty and `deconfusticate` indexes `src[length-2]`), while on the string obtained by deleting
the unaccepted characters, the empty string, `GetTimeAndServer` returns nil and
`ParseIdDOBNameHash` returns (0, 0, 0, 0, 0). -/
theorem C17_punctuation_only (fuel : Nat) (now : Int) :
    "-".toList.filter (fun c => (IDNumbersChar (toUpperRune c)).isSome) = [] ∧
    GetTimeAndServer fuel now (some "-".toList) = .error .panic ∧
    GetTimeAndServer fuel now (some []) = .ok none ∧
    ParseIdDOBNameHash (some "-".toList) = .error .panic ∧
    ParseIdDOBNameHash (some []) = .ok (0, 0, 0, 0, 0) := by
  refine ⟨by decide, ?_, rfl, by decide, rfl⟩
  rw [GetTimeAndServer_cons _ _ _ (by decide)]
  have : deconfusticate (fromChompTokens (cleanID "-".toList)) = .error .panic := by decide
  rw [this]

/-- C18: decoding is case-insensitive: for every ASCII string the decoders give the same result
on its lower-case and on its upper-case form (same clock reading, same fuel). -/
theorem C18_case_insensitive (s : List Char) (fuel : Nat) (now : Int)
    (h : ∀ c ∈ s, c.toNat < 128) :
    GetTimeAndServer fuel now (some (ToLower s)) = GetTimeAndServer fuel now (some (ToUpper s)) ∧
    ParseIdDOBNameHash (some (ToLower s)) = ParseIdDOBNameHash (some (ToUpper s)) := by
  cases s with
  | nil => exact ⟨rfl, rfl⟩
  | cons c s =>
    exact decoders_congr _ _ (by simp [ToLower]) (by simp [ToUpper])
      (by rw [cleanID_lower_upper _ h]) fuel now

/-- C18 at the string "Ab-12 34qR". -/
theorem C18_case_insensitive_witness :
    GetTimeAndServer 3 (Epoch + 1000000000000000) (some (ToLower "Ab-12 34qR".toList))
      = GetTimeAndServer 3 (Epoch + 1000000000000000) (some (ToUpper "Ab-12 34qR".toList)) ∧
    ParseIdDOBNameHash (some (ToLower "Ab-12 34qR".toList))
      = ParseIdDOBNameHash (some (ToUpper "Ab-12 34qR".toList)) :=
  C18_case_insensitive "Ab-12 34qR".toList 3 (Epoch + 1000000000000000) (by decide)

/-- C19: replacing an occurrence of `A` or `I` by `1`, or of `O` or `U` by `0`, anywhere in an
input string changes the result of neither decoder; `A`, `I`, `1` all have the table value 0
and `0`, `O`, `U` the value 29. -/
theorem C19_aliases (pre post : List Char) (c c2 : Char) (fuel : Nat) (now : Int)
    (h : ((c = 'A' ∨ c = 'I') ∧ c2 = '1') ∨ ((c = 'O' ∨ c = 'U') ∧ c2 = '0')) :
    GetTimeAndServer fuel now (some (pre ++ c :: post))
      = GetTimeAndServer fuel now (some (pre ++ c2 :: post)) ∧
    ParseIdDOBNameHash (some (pre ++ c :: post)) = ParseIdDOBNameHash (some (pre ++ c2 :: post)) ∧
    IDNumbers ['A'] = some 0 ∧ IDNumbers ['I'] = some 0 ∧ IDNumbers ['1'] = some 0 ∧
    IDNumbers ['0'] = some 29 ∧ IDNumbers ['O'] = some 29 ∧ IDNumbers ['U'] = some 29 := by
  have key : fromChompTokens (cleanID (pre ++ c :: post))
      = fromChompTokens (cleanID (pre ++ c2 :: post)) := by
    rcases h with ⟨h1 | h1, h2⟩ | ⟨h1 | h1, h2⟩ <;> subst h1 <;> subst h2
    · exact decode_symbols_replace pre post _ _ 0 (by decide) (by decide)
    · exact decode_symbols_replace pre post _ _ 0 (by decide) (by decide)
    · exact decode_symbols_replace pre post _ _ 29 (by decide) (by decide)
    · exact decode_symbols_replace pre post _ _ 29 (by decide) (by decide)
  obtain ⟨g, p⟩ := decoders_congr (pre ++ c :: post) (pre ++ c2 :: post) (by simp) (by simp) key
    fuel now
  exact ⟨g, p, by decide, by decide, by decide, by decide, by decide, by decide⟩

/-- C19 at the string "QUAB9I8O7", its `U` replaced by `0`. -/
theorem C19_aliases_witness :
    GetTimeAndServer 3 (Epoch + 1000000000000000) (some ("Q".toList ++ 'U' :: "AB9I8O7".toList))
      = GetTimeAndServer 3 (Epoch + 1000000000000000)
          (some ("Q".toList ++ '0' :: "AB9I8O7".toList)) ∧
    ParseIdDOBNameHash (some ("Q".toList ++ 'U' :: "AB9I8O7".toList))
      = ParseIdDOBNameHash (some ("Q".toList ++ '0' :: "AB9I8O7".toList)) ∧
    IDNumbers ['A'] = some 0 ∧ IDNumbers ['I'] = some 0 ∧ IDNumbers ['1'] = some 0 ∧
    IDNumbers ['0'] = some 29 ∧ IDNumbers ['O'] = some 29 ∧ IDNumbers ['U'] = some 29 :=
  C19_aliases "Q".toList "AB9I8O7".toList 'U' '0' 3 (Epoch + 1000000000000000)
    (Or.inr ⟨Or.inr rfl, rfl⟩)

/-- C20 fails as stated: on the empty string `GetTimeAndServer` returns nil and
`ParseIdDOBNameHash` returns (0, 0, 0, 0, 0); neither fails. -/
theorem C20_counterexample :
    GetTimeAndServer 1 Epoch (some []) = .ok none ∧
    ParseIdDOBNameHash (some []) = .ok (0, 0, 0, 0, 0) ∧
    ¬ (∃ e, ParseIdDOBNameHash (some []) = .error e) ∧
    ¬ (∃ e, GetTimeAndServer 1 Epoch (some []) = .error e) := by
  refine ⟨rfl, rfl, ?_, ?_⟩
  · rintro ⟨e, he⟩
    cases he
  · rintro ⟨e, he⟩
    cases he

/-- C20 as amended: for the empty input string (and for a nil pointer), whatever the clock
reads, `GetTimeAndServer` returns nil and `ParseIdDOBNameHash` returns (0, 0, 0, 0, 0); no
error is reported. -/
theorem C20_empty_input (fuel : Nat) (now : Int) :
    GetTimeAndServer fuel now (some []) = .ok none ∧
    GetTimeAndServer fuel now none = .ok none ∧
    ParseIdDOBNameHash (some []) = .ok (0, 0, 0, 0, 0) ∧
    ParseIdDOBNameHash none = .ok (0, 0, 0, 0, 0) :=
  ⟨rfl, rfl, rfl, rfl⟩

set_option maxRecDepth 100000 in
/-- C12 (at the failing input): for the negative id -1 the names "NG" and "Sizemore", whose
hashes 122 and 976 differ, give the same string "111111111111" (date 1980-06-15). -/
theorem C12_negative_id_same_string :
    CreateForIdNameDOB (-1) "NG".toList 1980 6 15
      = CreateForIdNameDOB (-1) "Sizemore".toList 1980 6 15 ∧
    CreateForIdNameDOB (-1) "NG".toList 1980 6 15 = .ok "111111111111".toList ∧
    toSixteenBitHash "NG".toList = 122 ∧ toSixteenBitHash "Sizemore".toList = 976 := by
  decide!

set_option maxRecDepth 100000 in
/-- C13 fails as stated: the instants `2^63` ns and `2^63` ns + 100 microseconds after the
epoch have different tick counts (92233720368547 and 92233720368548), one tick apart, but
`Time.Sub` saturates at the largest `Duration` for both, and with the same salt 3 both get the
quote number "GQVQJYLVM". -/
theorem C13_counterexample :
    Epoch ≤ Epoch + 2 ^ 63 ∧ Epoch ≤ Epoch + 2 ^ 63 + 100000 ∧
    (Epoch + 2 ^ 63 - Epoch) / 100000 = 92233720368547 ∧
    (Epoch + 2 ^ 63 + 100000 - Epoch) / 100000 = 92233720368548 ∧
    CreateQuoteNumber 3 0 (some (Epoch + 2 ^ 63)) = .ok "GQVQJYLVM".toList ∧
    CreateQuoteNumber 3 0 (some (Epoch + 2 ^ 63 + 100000)) = .ok "GQVQJYLVM".toList := by
  decide!

/-- C13 as amended: for any two instants from the epoch up to `2^63 - 1` ns after it (the range
of a Go `Duration`, about 292 years) whose tick counts of 100 microseconds since the epoch are
different and less than `2^42` apart, and any salts in [0, 8), the two quote numbers are
different strings. -/
theorem C13_distinct_quote_numbers (t1 t2 s1 s2 clock1 clock2 : Int)
    (h1 : Epoch ≤ t1) (h2 : Epoch ≤ t2)
    (h1' : t1 - Epoch ≤ 2 ^ 63 - 1) (h2' : t2 - Epoch ≤ 2 ^ 63 - 1)
    (hk : (t1 - Epoch) / 100000 ≠ (t2 - Epoch) / 100000)
    (hd1 : (t1 - Epoch) / 100000 - (t2 - Epoch) / 100000 < 2 ^ 42)
    (hd2 : (t2 - Epoch) / 100000 - (t1 - Epoch) / 100000 < 2 ^ 42)
    (hs10 : 0 ≤ s1) (hs11 : s1 < maxRand) (hs20 : 0 ≤ s2) (hs21 : s2 < maxRand) :
    CreateQuoteNumber s1 clock1 (some t1) ≠ CreateQuoteNumber s2 clock2 (some t2) := by
  rw [maxRand_eq] at hs11 hs21
  exact quote_distinct t1 t2 s1 s2 clock1 clock2 h1 h2 (by omega) (by omega) hk hd1 hd2
    hs10 hs11 hs20 hs21

/-- C13 as amended, at two instants one millisecond apart with the same salt. -/
theorem C13_distinct_quote_numbers_witness :
    CreateQuoteNumber 4 0 (some (Epoch + 370000000000000000))
      ≠ CreateQuoteNumber 4 0 (some (Epoch + 370000000001000000)) :=
  C13_distinct_quote_numbers (Epoch + 370000000000000000) (Epoch + 370000000001000000) 4 4 0 0
    (by decide) (by decide) (by decide) (by decide) (by decide) (by decide) (by decide)
    (by decide) (by decide) (by decide) (by decide)

set_option maxRecDepth 100000 in
/-- C14 fails as stated: for the name "NG" the algorithm as specified gives 822, while
`toSixteenBitHash` gives 122; the code first repeats the two letters to "ngngng". -/
theorem C14_counterexample :
    specFingerprint "NG".toList = 822 ∧ toSixteenBitHash "NG".toList = 122 ∧
    toSixteenBitHash "NG".toList ≠ specFingerprint "NG".toList := by
  decide!

/-- C14 as amended: for every name, `toSixteenBitHash name` is the result of the specified
algorithm run on the lowercase ASCII letters of the name repeated until there are at least six
bytes (`⌈6 / len⌉` copies, one copy for six letters or more), with the frame still starting as
the number of letters modulo 4 (and 0 for a name without letters); so for names with at least
six letters it is the fingerprint exactly as specified. -/
theorem C14_hash_refines_spec (name : List Char) :
    (toSixteenBitHash name =
      if (specLetters name).length = 0 then 0
      else specFingerprintFrom ((specLetters name).length % 4)
        (List.replicate (((specLetters name).length + 5) / (specLetters name).length)
          (specLetters name)).flatten) ∧
    (6 ≤ (specLetters name).length → toSixteenBitHash name = specFingerprint name) :=
  ⟨hash_eq_spec_on_repeated name, fun h => hash_eq_spec_of_long name (Or.inl h)⟩

/-- C14 as amended, at the name "Sizemore" (eight letters). -/
theorem C14_hash_refines_spec_witness :
    toSixteenBitHash "Sizemore".toList = specFingerprint "Sizemore".toList :=
  (C14_hash_refines_spec "Sizemore".toList).2 (by decide)

set_option maxRecDepth 100000 in
/-- C15: for every name, `toSixteenBitHash name` is `toSixteenBitHash` of the name lowercased
(Go `strings.ToLower`) with every character outside `a..z` removed; "O'Brien" and "OBRIEN" have
the same fingerprint. -/
theorem C15_hash_letters_only (name : List Char) :
    toSixteenBitHash name
      = toSixteenBitHash ((ToLower name).filter
          (fun c => decide ('a'.toNat ≤ c.toNat ∧ c.toNat ≤ 'z'.toNat))) ∧
    toSixteenBitHash "O'Brien".toList = toSixteenBitHash "OBRIEN".toList := by
  constructor
  · unfold toSixteenBitHash
    rw [letterBuf_idem]
  · decide!

/-- C21 (at the failing input): the string "A" has one accepted character (the filtered string
is "A", one chomp is read from it), and both decoders panic on it, whatever the clock reads:
`deconfusticate` indexes `src[length-2]` of a slice of one chomp. -/
theorem C21_single_character_panics (fuel : Nat) (now : Int) :
    cleanID "A".toList = "A".toList ∧
    fromChompTokens (cleanID "A".toList) = [0] ∧
    deconfusticate [0] = .error .panic ∧
    GetTimeAndServer fuel now (some "A".toList) = .error .panic ∧
    ParseIdDOBNameHash (some "A".toList) = .error .panic := by
  have h : fromChompTokens (cleanID "A".toList) = [0] := by decide
  refine ⟨by decide, h, rfl, ?_, by decide⟩
  rw [GetTimeAndServer_cons _ _ _ (by decide), h]
  rfl

set_option maxRecDepth 100000 in
/-- C22 fails as stated: the string "111111111" decodes to the epoch when the clock reads one
hour past the epoch, and to the epoch plus `2^42` ticks when the clock reads the epoch plus
`2^42` ticks: two clock readings, two different instants. -/
theorem C22_counterexample :
    GetTimeAndServer 2 (Epoch + 3600000000000) (some "111111111".toList) = .ok (some Epoch) ∧
    GetTimeAndServer 2 (Epoch + 2 ^ 42 * 100000) (some "111111111".toList)
      = .ok (some (Epoch + 2 ^ 42 * 100000)) ∧
    GetTimeAndServer 2 (Epoch + 3600000000000) (some "111111111".toList)
      ≠ GetTimeAndServer 2 (Epoch + 2 ^ 42 * 100000) (some "111111111".toList) := by
  decide!

/-- C22 as amended: `GetTimeAndServer` reads the clock, and its result depends on the reading
only through the window of `2^42` ticks the reading lies in. For every string with two to
twelve accepted characters there is an instant `t0` in the first `2^42` ticks after the epoch
such that, for each `k` up to 15, every clock reading from `t0 + k * 2^42` ticks up to but not
including `t0 + (k + 1) * 2^42` ticks (for `k = 0`: every reading before `t0 + 2^42` ticks) gives
the instant `t0 + k * 2^42` ticks, after `k + 1` loop rounds. -/
theorem C22_same_window (s : List Char) (h2 : 2 ≤ (cleanID s).length)
    (h12 : (cleanID s).length ≤ 12) :
    ∃ t0, Epoch ≤ t0 ∧ t0 < Epoch + 2 ^ 42 * 100000 ∧
      ∀ (k fuel : Nat) (now : Int), k ≤ 15 →
        (1 ≤ k → t0 + k * (2 ^ 42 * 100000) ≤ now) →
        now < t0 + (k + 1) * (2 ^ 42 * 100000) →
        GetTimeAndServer (fuel + k + 1) now (some s)
          = .ok (some (t0 + k * (2 ^ 42 * 100000))) := by
  obtain ⟨bits, hb0, hb1, hget⟩ := decode_bits s h2 h12
  refine ⟨Epoch + bits * 100000, by omega, by omega, ?_⟩
  intro k fuel now hk hlo hhi
  rw [hget, TimeFromBits_window k fuel now bits hb0 (by omega) (fun h => by have := hlo h; omega)
    (by omega)]
  congr 2
  omega

/-- C22 as amended, at the string "111111111". -/
theorem C22_same_window_witness :
    ∃ t0, Epoch ≤ t0 ∧ t0 < Epoch + 2 ^ 42 * 100000 ∧
      ∀ (k fuel : Nat) (now : Int), k ≤ 15 →
        (1 ≤ k → t0 + k * (2 ^ 42 * 100000) ≤ now) →
        now < t0 + (k + 1) * (2 ^ 42 * 100000) →
        GetTimeAndServer (fuel + k + 1) now (some "111111111".toList)
          = .ok (some (t0 + k * (2 ^ 42 * 100000))) :=
  C22_same_window "111111111".toList (by decide) (by decide)

set_option maxRecDepth 100000 in
/-- C23 (at the failing input): for the instant `2^42` ticks after the epoch `GenerateTimeBits`
returns `2^42`, which is not below `2^42`: the mask `FilterBits` is `2^43 - 1`, so the time bits
are masked to 43 bits and lie in [0, 2^43) for every instant. -/
theorem C23_bit_42_set :
    GenerateTimeBits 0 (some (Epoch + 2 ^ 42 * 100000)) = 2 ^ 42 ∧
    ¬ (GenerateTimeBits 0 (some (Epoch + 2 ^ 42 * 100000)) < 2 ^ 42) ∧
    FilterBits = 2 ^ 43 - 1 ∧
    ∀ (clock : Int) (date : Option Int),
      0 ≤ GenerateTimeBits clock date ∧ GenerateTimeBits clock date < 2 ^ 43 := by
  refine ⟨by decide!, by decide!, by decide, fun clock date => GenerateTimeBits_range clock date⟩

/-- C24: for every `int32` id, every name and every y, m, d whose instant at noon UTC
(`time.Date(y, m, d, 12, ...)`) is not after 1910-01-01T12:00Z, the day offset is 0,
`CreateForIdNameDOB id name y m d` is `CreateForIdNameDOB id name 1910 1 1`, it returns a
string, and for id ≥ 0 `ParseIdDOBNameHash` reads that string as the id, the name hash and the
date (1910, 1, 1). -/
theorem C24_clamped_to_epoch (id : Int) (name : List Char) (y m d : Int)
    (hid0 : -(2 ^ 31) ≤ id) (hid1 : id < 2 ^ 31) (h : Date y m d 12 ≤ birthdateEpoch) :
    daysAfterBirthdateEpoch y m d = 0 ∧
    CreateForIdNameDOB id name y m d = CreateForIdNameDOB id name 1910 1 1 ∧
    ∃ s, CreateForIdNameDOB id name y m d = .ok s ∧
      (0 ≤ id →
        ParseIdDOBNameHash (some s) = .ok (id, toSixteenBitHash name, 1910, 1, 1)) := by
  have hc := CreateForIdNameDOB_clamped id name y m d h
  refine ⟨days_clamped y m d h, hc, ?_⟩
  by_cases hneg : 0 ≤ id
  · obtain ⟨n, hn⟩ := Int.eq_ofNat_of_zero_le hneg
    subst hn
    obtain ⟨hlo, hhi⟩ := date_in_range 1910 1 1 (by omega) (by omega) (by omega) (by omega)
      (by omega) (by decide)
    obtain ⟨s, hs, hp⟩ := composite_roundtrip n name 1910 1 1 (by omega) (by omega) (by omega)
      (by omega) (by omega) (by decide) hlo hhi
    exact ⟨s, by rw [hc, hs], fun _ => hp⟩
  · obtain ⟨o, _, _, hs⟩ := composite_string id name y m d hid0 hid1
    exact ⟨_, hs, fun h0 => absurd h0 hneg⟩

/-- C24 at id 601123456, name "NG" and the date 1899-12-31. -/
theorem C24_clamped_to_epoch_witness :
    daysAfterBirthdateEpoch 1899 12 31 = 0 ∧
    CreateForIdNameDOB 601123456 "NG".toList 1899 12 31
      = CreateForIdNameDOB 601123456 "NG".toList 1910 1 1 ∧
    ∃ s, CreateForIdNameDOB 601123456 "NG".toList 1899 12 31 = .ok s ∧
      ((0 : Int) ≤ 601123456 →
        ParseIdDOBNameHash (some s)
          = .ok (601123456, toSixteenBitHash "NG".toList, 1910, 1, 1)) :=
  C24_clamped_to_epoch 601123456 "NG".toList 1899 12 31 (by decide) (by decide) (by decide)

/-- C25: `IsValid s` is true if and only if `s` is not nil and its length `len(*s)` is from 8
to 15 inclusive; the length is the length in bytes, which for an ASCII string is the number of
characters. -/
theorem C25_IsValid_iff (s : Option (List Char)) :
    (IsValid s = true ↔ ∃ q, s = some q ∧ 8 ≤ byteLen q ∧ byteLen q ≤ 15) ∧
    (∀ q : List Char, (∀ c ∈ q, c.toNat < 128) → byteLen q = q.length) ∧
    IsValid none = false :=
  ⟨IsValid_iff s, byteLen_ascii, rfl⟩

/-- C25 at the nine-character string "111111111". -/
theorem C25_IsValid_iff_witness :
    IsValid (some "111111111".toList) = true ∧
    byteLen "111111111".toList = "111111111".toList.length :=
  ⟨(C25_IsValid_iff (some "111111111".toList)).1.2 ⟨_, rfl, by decide, by decide⟩,
    (C25_IsValid_iff (some "111111111".toList)).2.1 _ (by decide)⟩

/-- C26: when `IsValid s` holds, `ValidOrNew s` returns the string `s` points to, unchanged;
otherwise (nil, or a length outside 8..15) it returns what `CreateQuoteNumber(nil)` returns,
which is the quote number of the clock reading. -/
theorem C26_ValidOrNew (salt clock : Int) (s : Option (List Char)) :
    (IsValid s = true → ∃ q, s = some q ∧ ValidOrNew salt clock s = .ok q) ∧
    (IsValid s = false → ValidOrNew salt clock s = CreateQuoteNumber salt clock none) ∧
    CreateQuoteNumber salt clock none = CreateQuoteNumber salt 0 (some clock) := by
  refine ⟨?_, ?_, rfl⟩
  · intro h
    cases s with
    | none => cases h
    | some q =>
      refine ⟨q, rfl, ?_⟩
      simp only [ValidOrNew, h]
      rfl
  · intro h
    cases s with
    | none => rfl
    | some q =>
      simp only [ValidOrNew, h]
      rfl

/-- C26 at the valid string "111111111" and at the seven-character string "1234567". -/
theorem C26_ValidOrNew_witness :
    (∃ q, some "111111111".toList = some q ∧
      ValidOrNew 3 Epoch (some "111111111".toList) = .ok q) ∧
    ValidOrNew 3 Epoch (some "1234567".toList) = CreateQuoteNumber 3 Epoch none :=
  ⟨(C26_ValidOrNew 3 Epoch (some "111111111".toList)).1 (by decide),
    (C26_ValidOrNew 3 Epoch (some "1234567".toList)).2.1 (by decide)⟩

/-- C27: for every `int64` x and every `int32` n ≥ 0, `Power x n` returns (within its 32
nested calls) the `int64` that is congruent to `x^n` modulo `2^64`, that is `x^n` wrapped in
two's complement; `timestampUpperBound = Power(2, 42) = 4398046511104` and
`FilterBits = 2^43 - 1`. -/
theorem C27_Power_wraps (x n : Int) (hx0 : -(2 ^ 63) ≤ x) (hx1 : x < 2 ^ 63) (hn0 : 0 ≤ n)
    (hn1 : n < 2 ^ 31) :
    (∃ p, Power x n = .ok p ∧ p = wrap64 (x ^ n.toNat) ∧
      -(2 ^ 63) ≤ p ∧ p < 2 ^ 63 ∧ p % 2 ^ 64 = x ^ n.toNat % 2 ^ 64) ∧
    Power 2 TimestampBits = .ok 4398046511104 ∧ timestampUpperBound = 4398046511104 ∧
    (4398046511104 : Int) = 2 ^ 42 ∧ FilterBits = 2 ^ 43 - 1 := by
  refine ⟨?_, by decide, by decide, by norm_num, by decide⟩
  obtain ⟨k, hk⟩ := Int.eq_ofNat_of_zero_le hn0
  subst hk
  obtain ⟨r0, r1, r2⟩ := wrap64_spec (x ^ k)
  exact ⟨_, Power_eq x k (by omega) hx0 hx1, by simp, by simpa using r0, by simpa using r1,
    by simpa using r2⟩

/-- C27 at x = -3, n = 41: the power wraps (3^41 exceeds 2^63). -/
theorem C27_Power_wraps_witness :
    (∃ p, Power (-3) 41 = .ok p ∧ p = wrap64 ((-3) ^ (41 : Int).toNat) ∧
      -(2 ^ 63) ≤ p ∧ p < 2 ^ 63 ∧ p % 2 ^ 64 = (-3) ^ (41 : Int).toNat % 2 ^ 64) ∧
    Power 2 TimestampBits = .ok 4398046511104 ∧ timestampUpperBound = 4398046511104 ∧
    (4398046511104 : Int) = 2 ^ 42 ∧ FilterBits = 2 ^ 43 - 1 :=
  C27_Power_wraps (-3) 41 (by decide) (by decide) (by decide) (by decide)

/-- C28 (at the failing input): on the web birth date "12-30-1980" (month 12, day 30) the
function returns "1980/30/12", not the PC form "1980/12/30": it names the first piece `day`
and the second `month`, and prints year, `month`, `day`, so month and day change places. -/
theorem C28_month_and_day_swapped :
    splitDash "12-30-1980".toList = ["12".toList, "30".toList, "1980".toList] ∧
    StrconvWebDateOfBirthToPCDateOfBirth "12-30-1980".toList = .ok "1980/30/12".toList ∧
    StrconvWebDateOfBirthToPCDateOfBirth "12-30-1980".toList ≠ .ok "1980/12/30".toList := by
  decide

set_option maxRecDepth 100000 in
/-- C29 (at the failing input): for id = -1, name "NG" (hash 122) and the date 1980-06-15
(25733 days) `idNameDOBToInt` returns 18446744073709511813, with the bits 48 to 63 all set by
the sign extension of `uint64(id)`; the payload the claim describes, with the id reinterpreted
as an unsigned 32-bit number, is 34621422135370885. The value returned is a different one, and
it is not below `2^60`. -/
theorem C29_negative_id_payload :
    toSixteenBitHash "NG".toList = 122 ∧ daysAfterBirthdateEpoch 1980 6 15 = 25733 ∧
    ((-1 : Int) % 2 ^ 32).toNat = 4294967295 ∧
    ((122 <<< 48) ||| (4294967295 <<< 16) ||| (25733 &&& 0xFFFF) : Nat) = 34621422135370885 ∧
    idNameDOBToInt (-1) "NG".toList 1980 6 15 = 18446744073709511813 ∧
    idNameDOBToInt (-1) "NG".toList 1980 6 15 ≠ 34621422135370885 ∧
    ¬ (idNameDOBToInt (-1) "NG".toList 1980 6 15 < 2 ^ 60) := by
  decide!

/-- C30 fails as stated: the symbol sequences 1 2 3 4 and 1 2 3 5 differ only in the last
symbol, and `confusticate` gives 5 7 4 0 and 4 6 5 0: the outputs differ at the indices 0, 1, 2
but have the same last symbol. -/
theorem C30_counterexample :
    confusticate [1, 2, 3, 4] = .ok [5, 7, 4, 0] ∧ confusticate [1, 2, 3, 5] = .ok [4, 6, 5, 0] ∧
    ([5, 7, 4, 0] : List Nat).getD 3 0 = ([4, 6, 5, 0] : List Nat).getD 3 0 := by
  decide

/-- C30 as amended: for two sequences of bytes of length L ≥ 2 that differ only in the last
symbol (`pre ++ [a]` and `pre ++ [b]` with `a ≠ b`), the outputs of `confusticate` differ at
every index 0..L-2 and have the same symbol at index L-1 (the xor of the inputs
`s[0]`..`s[L-2]`, on which the last input has no influence). -/
theorem C30_diffusion_all_but_last (pre : List Nat) (a b : Nat) (hpre : pre ≠ [])
    (hlt : ∀ x ∈ pre, x < 256) (ha : a < 256) (hb : b < 256) (hab : a ≠ b) :
    ∃ o o2 z, confusticate (pre ++ [a]) = .ok (o ++ [z]) ∧
      confusticate (pre ++ [b]) = .ok (o2 ++ [z]) ∧
      o.length = pre.length ∧ o2.length = pre.length ∧
      (∀ i, i < pre.length → o.getD i 0 ≠ o2.getD i 0) ∧
      z = (pre.drop 1).foldl xor (pre.getD 0 0) := by
  cases pre with
  | nil => exact absurd rfl hpre
  | cons first mid =>
    have hf : first < 256 := hlt first (by simp)
    have hm : ∀ x ∈ mid, x < 256 := fun x hx => hlt x (by simp [hx])
    refine ⟨_, _, _, confusticate_append first mid a hf hm ha,
      confusticate_append first mid b hf hm hb, by simp [confLoop_length],
      by simp [confLoop_length], ?_, rfl⟩
    have hd : a ^^^ b < 256 := xor_byte_lt a b ha hb
    have hd0 : a ^^^ b ≠ 0 := fun h => hab (Nat.xor_eq_zero.1 h)
    have hfb : xor first b = xor first a ^^^ (a ^^^ b) := by
      rw [xor_eq first a hf ha, xor_eq first b hf hb, Nat.xor_assoc, ← Nat.xor_assoc a a b,
        Nat.xor_self, Nat.zero_xor]
    have hmap : xor first b :: confLoop (xor first b) mid
        = (xor first a :: confLoop (xor first a) mid).map (fun x => x ^^^ (a ^^^ b)) := by
      rw [hfb, confLoop_shift mid (xor first a) (a ^^^ b) (xor_lt first a) hd hm]
      rfl
    rw [hmap]
    intro i hi
    have hi1 : i < (xor first a :: confLoop (xor first a) mid).length := by
      simpa [confLoop_length] using hi
    rw [List.getD_eq_getElem _ _ hi1, List.getD_eq_getElem _ _ (by simpa using hi1),
      List.getElem_map]
    intro h
    apply hd0
    have h2 := congrArg (fun x => (xor first a :: confLoop (xor first a) mid)[i] ^^^ x) h
    simp only [Nat.xor_self, ← Nat.xor_assoc, Nat.zero_xor] at h2
    exact h2.symm

/-- C30 as amended, at the sequences 1 2 3 4 and 1 2 3 5. -/
theorem C30_diffusion_all_but_last_witness :
    ∃ o o2 z, confusticate ([1, 2, 3] ++ [4]) = .ok (o ++ [z]) ∧
      confusticate ([1, 2, 3] ++ [5]) = .ok (o2 ++ [z]) ∧
      o.length = [1, 2, 3].length ∧ o2.length = [1, 2, 3].length ∧
      (∀ i, i < [1, 2, 3].length → o.getD i 0 ≠ o2.getD i 0) ∧
      z = ([1, 2, 3].drop 1).foldl xor ([1, 2, 3].getD 0 0) :=
  C30_diffusion_all_but_last [1, 2, 3] 4 5 (by decide) (by decide) (by decide) (by decide)
    (by decide)

set_option maxRecDepth 100000 in
/-- C31 fails as stated: for the instant one nanosecond before the epoch the floor of
(t - EPOCH) / 100000 is -1, and -1 AND `2^43 - 1` is `2^43 - 1` = 8796093022207, but
`GenerateTimeBits` returns 0: Go's integer division rounds toward zero. -/
theorem C31_counterexample :
    (Epoch - 1 - Epoch) / 100000 = -1 ∧
    and64 ((Epoch - 1 - Epoch) / 100000) FilterBits = 8796093022207 ∧
    GenerateTimeBits 0 (some (Epoch - 1)) = 0 ∧
    GenerateTimeBits 0 (some (Epoch - 1)) ≠ and64 ((Epoch - 1 - Epoch) / 100000) FilterBits := by
  decide!

/-- C31 as amended: for every instant `t` whose distance from the epoch fits a `Duration`
(from `2^63` ns before to `2^63 - 1` ns after the epoch), `GenerateTimeBits t` is the quotient
of `t - EPOCH` (in ns) by 100000, rounded toward zero, AND `2^43 - 1` in two's complement,
which is the quotient modulo `2^43`. The quotient is the floor for instants from the epoch on,
and the ceiling for instants before the epoch. -/
theorem C31_time_bits (clock t : Int) (h0 : -(2 ^ 63) ≤ t - Epoch)
    (h1 : t - Epoch ≤ 2 ^ 63 - 1) :
    GenerateTimeBits clock (some t) = and64 (Int.tdiv (t - Epoch) 100000) FilterBits ∧
    GenerateTimeBits clock (some t) = Int.tdiv (t - Epoch) 100000 % 2 ^ 43 ∧
    (Epoch ≤ t → Int.tdiv (t - Epoch) 100000 = (t - Epoch) / 100000) ∧
    (t < Epoch → Int.tdiv (t - Epoch) 100000 = -((Epoch - t) / 100000)) := by
  have h := GenerateTimeBits_eq clock t h0 h1
  refine ⟨?_, h, ?_, ?_⟩
  · unfold GenerateTimeBits
    simp only [Sub]
    rw [if_neg (by omega), if_neg (by omega)]
  · intro hge
    rw [Int.tdiv_eq_ediv (by omega) (by omega)]
  · intro hlt
    have e : t - Epoch = -(Epoch - t) := by omega
    rw [e, Int.neg_tdiv, Int.tdiv_eq_ediv (by omega) (by omega)]

/-- C31 as amended, at the instant 250000 ns before the epoch: the quotient is -2 (the floor
would be -3) and the time bits are `2^43 - 2`. -/
theorem C31_time_bits_witness :
    GenerateTimeBits 0 (some (Epoch - 250000))
      = and64 (Int.tdiv (Epoch - 250000 - Epoch) 100000) FilterBits ∧
    GenerateTimeBits 0 (some (Epoch - 250000))
      = Int.tdiv (Epoch - 250000 - Epoch) 100000 % 2 ^ 43 ∧
    (Epoch ≤ Epoch - 250000 →
      Int.tdiv (Epoch - 250000 - Epoch) 100000 = (Epoch - 250000 - Epoch) / 100000) ∧
    (Epoch - 250000 < Epoch →
      Int.tdiv (Epoch - 250000 - Epoch) 100000 = -((Epoch - (Epoch - 250000)) / 100000)) :=
  C31_time_bits 0 (Epoch - 250000) (by decide) (by decide)

/-- C32 fails as stated: for bits = 0 and a clock reading `2^63` ns plus `2^42` ticks after the
epoch (which is not before EPOCH + bits * 100 µs) `TimeFromBits` returns no instant at all: the
duration `100000 * bits` is an `int64`, so the second instant of a round never exceeds the
epoch plus `2^63 - 1` ns plus `2^42` ticks, and the loop goes on whatever the fuel. -/
theorem C32_counterexample :
    (0 : Int) ≤ 0 ∧ (0 : Int) < 2 ^ 42 ∧
    Epoch + 0 * 100000 ≤ Epoch + 2 ^ 63 + 2 ^ 42 * 100000 ∧
    ∀ fuel : Nat, TimeFromBits fuel (Epoch + 2 ^ 63 + 2 ^ 42 * 100000) 0 = .error .fuel :=
  ⟨by decide, by decide, by decide,
    fun fuel => TimeFromBits_never fuel _ 0 (le_refl _)⟩

/-- C32 as amended: for every bits in [0, 2^42) and every clock reading `now` with
EPOCH + bits * 100 µs ≤ now that is less than `2^63` ns (the range of a `Duration`) after the
epoch, `TimeFromBits bits` returns, in round `k` with `k` at most 20, the instant
T = EPOCH + (bits + k * 2^42) * 100 µs for the one `k` with T ≤ now < T + 2^42 * 100 µs. -/
theorem C32_wraparound (bits now : Int) (fuel : Nat) (hb0 : 0 ≤ bits) (hb1 : bits < 2 ^ 42)
    (hlo : Epoch + bits * 100000 ≤ now) (hhi : now - Epoch < 2 ^ 63) :
    ∃ k : Nat, k ≤ 20 ∧
      TimeFromBits (fuel + k + 1) now bits
        = .ok (some (Epoch + (bits + k * 2 ^ 42) * 100000)) ∧
      Epoch + (bits + k * 2 ^ 42) * 100000 ≤ now ∧
      now < Epoch + (bits + k * 2 ^ 42) * 100000 + 2 ^ 42 * 100000 ∧
      ∀ j : Nat, Epoch + (bits + j * 2 ^ 42) * 100000 ≤ now →
        now < Epoch + (bits + j * 2 ^ 42) * 100000 + 2 ^ 42 * 100000 → j = k := by
  obtain ⟨k, hk⟩ := Int.eq_ofNat_of_zero_le
    (show 0 ≤ (now - Epoch - bits * 100000) / 439804651110400000 by omega)
  have h1 : Epoch + (bits + (k : Int) * 2 ^ 42) * 100000 ≤ now := by omega
  have h2 : now < Epoch + (bits + (k : Int) * 2 ^ 42) * 100000 + 2 ^ 42 * 100000 := by omega
  refine ⟨k, by omega, ?_, h1, h2, ?_⟩
  · exact TimeFromBits_rounds k fuel now bits hb0 (by omega) (fun _ => h1) h2
  · intro j hj1 hj2
    omega

/-- C32 as amended, at bits = 12345 and a clock reading 20 years (of 365 days) after the
epoch. -/
theorem C32_wraparound_witness :
    ∃ k : Nat, k ≤ 20 ∧
      TimeFromBits (0 + k + 1) (Epoch + 630720000000000000) 12345
        = .ok (some (Epoch + (12345 + k * 2 ^ 42) * 100000)) ∧
      Epoch + (12345 + k * 2 ^ 42) * 100000 ≤ Epoch + 630720000000000000 ∧
      Epoch + 630720000000000000 < Epoch + (12345 + k * 2 ^ 42) * 100000 + 2 ^ 42 * 100000 ∧
      ∀ j : Nat, Epoch + (12345 + j * 2 ^ 42) * 100000 ≤ Epoch + 630720000000000000 →
        Epoch + 630720000000000000 < Epoch + (12345 + j * 2 ^ 42) * 100000 + 2 ^ 42 * 100000 →
        j = k :=
  C32_wraparound 12345 (Epoch + 630720000000000000) 0 (by decide) (by decide) (by decide)
    (by decide)

/-- C33 fails as stated: for bits = 1 and a clock reading `2^64` ns after the epoch the loop of
`TimeFromBits` does not terminate: no round returns, whatever the fuel. -/
theorem C33_counterexample :
    (0 : Int) ≤ 1 ∧ Epoch + 2 ^ 63 + 2 ^ 42 * 100000 ≤ Epoch + 2 ^ 64 ∧
    ∀ fuel : Nat, TimeFromBits fuel (Epoch + 2 ^ 64) 1 = .error .fuel :=
  ⟨by decide, by decide, fun fuel => TimeFromBits_never fuel _ 1 (by decide)⟩

/-- C33 as amended: the loop of `TimeFromBits` terminates for the clock readings of the next
three centuries and for no later one. For every bits ≥ 0 whose duration `100000 * bits` fits
an `int64` and every clock reading less than `2^63` ns after the epoch it returns an instant
after at most 20 additions of `2^42`; for every `int64` bits and every clock reading earlier
than the epoch plus `2^63 - 2^47` ns plus `2^42` ticks it returns an instant after fewer than
`2^17` additions; for a clock reading of the epoch plus `2^63` ns plus `2^42` ticks or later
it never returns. -/
theorem C33_terminates (bits now : Int) :
    (0 ≤ bits → 100000 * bits < 2 ^ 63 → now - Epoch < 2 ^ 63 →
      ∃ k : Nat, k ≤ 20 ∧ ∀ fuel : Nat, ∃ t, TimeFromBits (fuel + k + 1) now bits = .ok (some t)) ∧
    (now < Epoch + 2 ^ 63 - 2 ^ 47 + 2 ^ 42 * 100000 →
      ∃ j : Nat, j < 2 ^ 17 ∧
        ∀ fuel : Nat, ∃ t, TimeFromBits (fuel + j + 1) now bits = .ok (some t)) ∧
    (Epoch + 2 ^ 63 + 2 ^ 42 * 100000 ≤ now →
      ∀ fuel : Nat, TimeFromBits fuel now bits = .error .fuel) := by
  refine ⟨?_, ?_, fun h fuel => TimeFromBits_never fuel now bits h⟩
  · intro hb0 hb1 hhi
    by_cases hc : now < Epoch + bits * 100000 + 2 ^ 42 * 100000
    · exact ⟨0, by omega, fun fuel => ⟨_, TimeFromBits_return fuel now bits hb0 hb1 hc⟩⟩
    · obtain ⟨k, hk⟩ := Int.eq_ofNat_of_zero_le
        (show 0 ≤ (now - Epoch - bits * 100000) / 439804651110400000 by omega)
      have h1 : Epoch + (bits + (k : Int) * 2 ^ 42) * 100000 ≤ now := by omega
      have h2 : now < Epoch + (bits + (k : Int) * 2 ^ 42) * 100000 + 2 ^ 42 * 100000 := by
        omega
      exact ⟨k, by omega, fun fuel =>
        ⟨_, TimeFromBits_rounds k fuel now bits hb0 (by omega) (fun _ => h1) h2⟩⟩
  · intro hnow
    obtain ⟨j, hj, hlarge⟩ := TimeFromBits_large_round bits
    exact ⟨j, hj, fun fuel => TimeFromBits_hit j fuel now bits (by omega)⟩

/-- C33 as amended, at bits = 12345 with a clock reading 20 years after the epoch, and with a
clock reading `2^64` ns after the epoch. -/
theorem C33_terminates_witness :
    (∃ k : Nat, k ≤ 20 ∧ ∀ fuel : Nat, ∃ t,
      TimeFromBits (fuel + k + 1) (Epoch + 630720000000000000) 12345 = .ok (some t)) ∧
    (∃ j : Nat, j < 2 ^ 17 ∧ ∀ fuel : Nat, ∃ t,
      TimeFromBits (fuel + j + 1) (Epoch + 630720000000000000) 12345 = .ok (some t)) ∧
    (∀ fuel : Nat, TimeFromBits fuel (Epoch + 2 ^ 64) 12345 = .error .fuel) :=
  ⟨(C33_terminates 12345 (Epoch + 630720000000000000)).1 (by decide) (by decide) (by decide),
    (C33_terminates 12345 (Epoch + 630720000000000000)).2.1 (by decide),
    (C33_terminates 12345 (Epoch + 2 ^ 64)).2.2 (by decide)⟩

/-- C34: for every sequence `t` of two or more symbols in 0..31, `deconfusticate t` is a
sequence `s` of as many symbols in 0..31 with `confusticate s = t`, and it is the only byte
sequence that `confusticate` maps to `t`: `confusticate` is a bijection on the symbol
sequences of a given length. -/
theorem C34_confusticate_bijective (t : List Nat) (hlen : 2 ≤ t.length)
    (hsym : ∀ x ∈ t, x < 32) :
    (deconfusticate t).bind confusticate = .ok t ∧
    ∃ s, deconfusticate t = .ok s ∧ s.length = t.length ∧ (∀ x ∈ s, x < 32) ∧
      confusticate s = .ok t ∧
      ∀ s2 : List Nat, (∀ x ∈ s2, x < 256) → confusticate s2 = .ok t → s2 = s := by
  have hbyte : ∀ x ∈ t, x < 256 := fun x hx => by have := hsym x hx; omega
  have hb := confusticate_deconfusticate t hlen hbyte
  obtain ⟨s, hs⟩ := deconfusticate_of_length t hlen
  obtain ⟨hl, hlt⟩ := deconfusticate_ok t s hs
  have hc : confusticate s = .ok t := by
    rw [hs] at hb
    exact hb
  refine ⟨hb, s, hs, hl, hlt hsym, hc, ?_⟩
  intro s2 hs2 hc2
  have hl2 := confusticate_length s2 t hc2
  have hd := deconfusticate_confusticate s2 (by omega) hs2
  rw [hc2] at hd
  have hd2 : deconfusticate t = .ok s2 := hd
  rw [hs] at hd2
  exact (Except.ok.inj hd2).symm

/-- C34 at the symbol sequence 5 7 4 0, which is the XOR-mix of 1 2 3 4. -/
theorem C34_confusticate_bijective_witness :
    (deconfusticate [5, 7, 4, 0]).bind confusticate = .ok [5, 7, 4, 0] ∧
    ∃ s, deconfusticate [5, 7, 4, 0] = .ok s ∧ s.length = [5, 7, 4, 0].length ∧
      (∀ x ∈ s, x < 32) ∧ confusticate s = .ok [5, 7, 4, 0] ∧
      ∀ s2 : List Nat, (∀ x ∈ s2, x < 256) → confusticate s2 = .ok [5, 7, 4, 0] → s2 = s :=
  C34_confusticate_bijective [5, 7, 4, 0] (by decide) (by decide)

set_option maxRecDepth 100000 in
/-- C35: for every negative `int32` id, every name and every date, `CreateForIdNameDOB` returns
"111111111111", which `ParseIdDOBNameHash` reads as (0, 0, 1910, 1, 1): the id does not come
back. -/
theorem C35_negative_ids (id : Int) (name : List Char) (y m d : Int)
    (h0 : -(2 ^ 31) ≤ id) (h1 : id < 0) :
    CreateForIdNameDOB id name y m d = .ok "111111111111".toList ∧
    ParseIdDOBNameHash (some "111111111111".toList) = .ok (0, 0, 1910, 1, 1) :=
  ⟨composite_negative id name y m d h0 h1, by decide!⟩

/-- C35 at id = -42, name "Sizemore", 1975-03-09. -/
theorem C35_negative_ids_witness :
    CreateForIdNameDOB (-42) "Sizemore".toList 1975 3 9 = .ok "111111111111".toList ∧
    ParseIdDOBNameHash (some "111111111111".toList) = .ok (0, 0, 1910, 1, 1) :=
  C35_negative_ids (-42) "Sizemore".toList 1975 3 9 (by decide) (by decide)

set_option maxRecDepth 100000 in
/-- C36: two names whose letters (lower-cased, everything outside `a..z` removed) are seven
and agree on the first six have the same `toSixteenBitHash`; "JOHNSON" and "JOHNSOX" both
hash to the same value. -/
theorem C36_seventh_letter_unread (n1 n2 : List Char) (l : List Nat) (a b : Nat)
    (hl : l.length = 6) (h1 : letterBuf n1 = l ++ [a]) (h2 : letterBuf n2 = l ++ [b]) :
    toSixteenBitHash n1 = toSixteenBitHash n2 ∧
    toSixteenBitHash "JOHNSON".toList = toSixteenBitHash "JOHNSOX".toList :=
  ⟨toSixteenBitHash_seven n1 n2 l a b hl h1 h2, by decide!⟩

set_option maxRecDepth 100000 in
/-- C36 at the names "O'Connor" and "OCONNOX" (letters "oconnor" and "oconnox"). -/
theorem C36_seventh_letter_unread_witness :
    toSixteenBitHash "O'Connor".toList = toSixteenBitHash "OCONNOX".toList ∧
    toSixteenBitHash "JOHNSON".toList = toSixteenBitHash "JOHNSOX".toList :=
  C36_seventh_letter_unread "O'Connor".toList "OCONNOX".toList [111, 99, 111, 110, 110, 111]
    114 120 (by decide) (by rfl) (by rfl)

/-- C37: for every `s` (nil or not, of any length), every clock reading and every salt that
`rand.Int63n(maxRand)` can draw, `ValidOrNew s` returns a string, and the string satisfies
`IsValid`: it is `s` itself when `s` is valid, and a fresh quote number of 9 or 10 bytes
otherwise. -/
theorem C37_ValidOrNew_valid (salt clock : Int) (s : Option (List Char)) (hs0 : 0 ≤ salt)
    (hs1 : salt < maxRand) :
    ∃ r, ValidOrNew salt clock s = .ok r ∧ IsValid (some r) = true ∧
      (IsValid s = false → 9 ≤ byteLen r ∧ byteLen r ≤ 10) := by
  rw [maxRand_eq] at hs1
  obtain ⟨r, hr, h9, h10⟩ := quote_number_byteLen salt clock none hs0 hs1
  have hv : IsValid (some r) = true := (IsValid_iff (some r)).2 ⟨r, rfl, by omega, by omega⟩
  cases s with
  | none => exact ⟨r, hr, hv, fun _ => ⟨h9, h10⟩⟩
  | some q =>
    by_cases hq : IsValid (some q) = true
    · refine ⟨q, ?_, hq, fun h => ?_⟩
      · simp only [ValidOrNew, hq]
        rfl
      · rw [hq] at h
        cases h
    · have hq2 : IsValid (some q) = false := by simpa using hq
      refine ⟨r, ?_, hv, fun _ => ⟨h9, h10⟩⟩
      simp only [ValidOrNew, hq2]
      exact hr

/-- C37 at the too short string "1234567", salt 3 and a clock reading one hour after the
epoch. -/
theorem C37_ValidOrNew_valid_witness :
    ∃ r, ValidOrNew 3 (Epoch + 3600000000000) (some "1234567".toList) = .ok r ∧
      IsValid (some r) = true ∧
      (IsValid (some "1234567".toList) = false → 9 ≤ byteLen r ∧ byteLen r ≤ 10) :=
  C37_ValidOrNew_valid 3 (Epoch + 3600000000000) (some "1234567".toList) (by decide) (by decide)

/-- C38: for every id from 0 to INT32_MAX, every name, every calendar date D from 1910-01-01
to 2000-01-01 and the date D2 that is 65536 days after D (as instants at noon UTC), the day
offset of D2 is that of D plus 65536, `CreateForIdNameDOB` returns the same string for D2 as
for D, and `ParseIdDOBNameHash` reads that string as the date D, 65536 days before D2. -/
theorem C38_day_field_wraps (id : Int) (name : List Char) (y m d y2 m2 d2 : Int)
    (hid0 : 0 ≤ id) (hid1 : id < 2 ^ 31) (hy0 : 1910 ≤ y) (hy1 : y ≤ 2000)
    (hm0 : 1 ≤ m) (hm1 : m ≤ 12) (hd0 : 1 ≤ d) (hd1 : d ≤ daysIn m.toNat y)
    (hhi : Date y m d 12 ≤ Date 2000 1 1 12)
    (h2 : Date y2 m2 d2 12 = Date y m d 12 + 65536 * nsPerDay) :
    daysAfterBirthdateEpoch y2 m2 d2 = daysAfterBirthdateEpoch y m d + 65536 ∧
    CreateForIdNameDOB id name y2 m2 d2 = CreateForIdNameDOB id name y m d ∧
    ∃ s, CreateForIdNameDOB id name y2 m2 d2 = .ok s ∧
      ParseIdDOBNameHash (some s) = .ok (id, toSixteenBitHash name, y, m, d) := by
  obtain ⟨hlo, hlt⟩ := date_in_range y m d hy0 (by omega) hm0 hm1 hd0 hd1
  obtain ⟨k0, k1, hk⟩ := days_shift y m d y2 m2 d2 hlo hhi h2
  have hc : CreateForIdNameDOB id name y2 m2 d2 = CreateForIdNameDOB id name y m d := by
    unfold CreateForIdNameDOB
    rw [idNameDOBToInt_shift id name y m d y2 m2 d2 k0 k1 hk]
  obtain ⟨n, hn⟩ := Int.eq_ofNat_of_zero_le hid0
  subst hn
  obtain ⟨s, hs, hp⟩ := composite_roundtrip n name y m d (by omega) (by omega) hm0 hm1 hd0 hd1
    hlo hlt
  exact ⟨hk, hc, s, by rw [hc, hs], hp⟩

/-- C38 at id 601123456, name "NG", D = 1980-06-15 and D2 = 2159-11-20. -/
theorem C38_day_field_wraps_witness :
    daysAfterBirthdateEpoch 2159 11 20 = daysAfterBirthdateEpoch 1980 6 15 + 65536 ∧
    CreateForIdNameDOB 601123456 "NG".toList 2159 11 20
      = CreateForIdNameDOB 601123456 "NG".toList 1980 6 15 ∧
    ∃ s, CreateForIdNameDOB 601123456 "NG".toList 2159 11 20 = .ok s ∧
      ParseIdDOBNameHash (some s)
        = .ok (601123456, toSixteenBitHash "NG".toList, 1980, 6, 15) :=
  C38_day_field_wraps 601123456 "NG".toList 1980 6 15 2159 11 20 (by decide) (by decide)
    (by decide) (by decide) (by decide) (by decide) (by decide) (by decide) (by decide)
    (by decide)

/-- C39: for every date of birth (y, m, d) of the years from 1 on, every n ≥ 0 for which
(y + n, m, d) is a calendar date as well, and any times of day `r1`, `r2` (UTC), `AgeAt` of an
instant of the day of birth and an instant of the day (y + n, m, d) is n, and `AgeAt` of the
same instant of birth and the instant 24 hours earlier, on the day before, is n - 1. -/
theorem C39_AgeAt_birthday (y m d n r1 r2 : Int) (hy : 1 ≤ y) (hn : 0 ≤ n) (hm0 : 1 ≤ m)
    (hm1 : m ≤ 12) (hd0 : 1 ≤ d) (hd1 : d ≤ daysIn m.toNat y)
    (hd2 : d ≤ daysIn m.toNat (y + n)) (hr10 : 0 ≤ r1) (hr11 : r1 < nsPerDay)
    (hr20 : 0 ≤ r2) (hr21 : r2 < nsPerDay) :
    AgeAt (Date y m d 0 + r1) (Date (y + n) m d 0 + r2) = n ∧
    AgeAt (Date y m d 0 + r1) (Date (y + n) m d 0 + r2 - nsPerDay) = n - 1 := by
  obtain ⟨m', hm'⟩ := Int.eq_ofNat_of_zero_le (show 0 ≤ m - 1 by omega)
  obtain ⟨d', hd'⟩ := Int.eq_ofNat_of_zero_le (show 0 ≤ d - 1 by omega)
  have em : m = (m' : Int) + 1 := by omega
  have ed : d = (d' : Int) + 1 := by omega
  subst em ed
  have htn : ((m' : Int) + 1).toNat = m' + 1 := by omega
  rw [htn] at hd1 hd2
  exact AgeAt_birthday y n m' d' r1 r2 hy hn (by omega) hd1 hd2 hr10 hr11 hr20 hr21

/-- C39 at the date of birth 1980-02-29 (midnight) and n = 40 (2020-02-29, one o'clock): the
ages are 40 and, on 2020-02-28, 39. -/
theorem C39_AgeAt_birthday_witness :
    AgeAt (Date 1980 2 29 0 + 0) (Date (1980 + 40) 2 29 0 + 3600000000000) = 40 ∧
    AgeAt (Date 1980 2 29 0 + 0) (Date (1980 + 40) 2 29 0 + 3600000000000 - nsPerDay)
      = 40 - 1 :=
  C39_AgeAt_birthday 1980 2 29 40 0 3600000000000 (by decide) (by decide) (by decide)
    (by decide) (by decide) (by decide) (by decide) (by decide) (by decide) (by decide)
    (by decide)

/-- C40: `fromToken input` succeeds if and only if the input, trimmed and upper-cased, is one
of the 36 one-character keys of `IDNumbers`; then `ByteValue` becomes the table value, which is
below 32; when it fails, `ByteValue` is left as it was. -/
theorem C40_fromToken (c : Nat) (input : List Char) :
    ((fromToken c input).2 = false ↔
      ∃ ch ∈ "A9B8C7D6E5F4G3H2QSJZKYLXMWNVRUPT1I0O".toList,
        ToUpper (TrimSpace input) = [ch]) ∧
    ((fromToken c input).2 = false →
      ∃ ch n, ToUpper (TrimSpace input) = [ch] ∧ IDNumbersChar ch = some n ∧ 0 ≤ n ∧ n < 32 ∧
        ((fromToken c input).1 : Int) = n) ∧
    ((fromToken c input).2 = true → (fromToken c input).1 = c) ∧
    "A9B8C7D6E5F4G3H2QSJZKYLXMWNVRUPT1I0O".toList.length = 36 ∧
    "A9B8C7D6E5F4G3H2QSJZKYLXMWNVRUPT1I0O".toList.Nodup := by
  refine ⟨?_, ?_, ?_, by decide, by decide⟩
  · constructor
    · intro h
      rcases fromToken_cases c input with ⟨_, ch, n, he, hn, _⟩ | ⟨h2, _⟩
      · exact ⟨ch, IDNumbersChar_keys ch n hn, he⟩
      · rw [h] at h2
        cases h2
    · rintro ⟨ch, hch, he⟩
      rcases fromToken_cases c input with ⟨h1, _⟩ | ⟨_, _, h3⟩
      · exact h1
      · obtain ⟨n, hn⟩ := keys_accepted ch hch
        exact absurd ⟨ch, n, he, hn⟩ h3
  · intro h
    rcases fromToken_cases c input with ⟨_, ch, n, he, hn, hv⟩ | ⟨h2, _⟩
    · obtain ⟨_, _, _, h0, h1⟩ := accepted_facts ch n hn
      refine ⟨ch, n, he, hn, h0, h1, ?_⟩
      rw [hv]
      obtain ⟨k, hk⟩ := Int.eq_ofNat_of_zero_le h0
      subst hk
      rw [toByte_natCast k (by omega)]
    · rw [h] at h2
      cases h2
  · intro h
    rcases fromToken_cases c input with ⟨h1, _⟩ | ⟨_, h2, _⟩
    · rw [h] at h1
      cases h1
    · exact h2

/-- C40 at the input " q " on a chomp holding 7 (success, value 16) and at the input "QS"
(failure, the chomp keeps 7). -/
theorem C40_fromToken_witness :
    (∃ ch n, ToUpper (TrimSpace " q ".toList) = [ch] ∧ IDNumbersChar ch = some n ∧ 0 ≤ n ∧
      n < 32 ∧ ((fromToken 7 " q ".toList).1 : Int) = n) ∧
    (fromToken 7 "QS".toList).1 = 7 :=
  ⟨(C40_fromToken 7 " q ".toList).2.1 (by decide),
    (C40_fromToken 7 "QS".toList).2.2.1 (by decide)⟩

end QuoteNumber
